import Mathlib

/-!
MARIE assembler and simulator: a verification development.

A shallow embedding of `src/assembler/assembler_starter.cpp` (the two-pass
assembler) and `src/simulator/marie_core.cpp` (the loader and the
fetch-decode-execute engine), followed by theorems about them.

Conventions of the embedding:

* `uint16_t` values are naturals kept below `2^16` by an explicit `% 65536`
  wherever the C++ converts to `uint16_t`; `int16_t` values are integers kept
  in `-32768 .. 32767` by `i16`.
* `std::string` is `String`; its bytes are read through `String.data`.
* `std::unordered_map<string, T>` is a function from keys to `Option T`
  (the symbol table) or to a count (the instruction counters, where an absent
  key and a zero count are the same thing to `operator[]`); the order in
  which a range-`for` visits the counters is the library's, and is a parameter
  of the functions that iterate.
* an input stream is the list of lines `getline` hands out, an output stream
  the list of lines written to it; `cout` and `cerr` of the simulator are the
  lists of pieces written, one piece per output statement.
* `MEM` is a function on all naturals; where a statement is about the bounds
  of the 4096-word array, the subscripts are checked explicitly (`loadLoop`,
  `Marie.stepChecked`).
* the C library routines the programs call (`toupper`, `isspace`, `strtoul`,
  `strtoll`) follow ISO C in the "C" locale, on an LP64 target.
-/

namespace MARIE

/-! ## Machine integers -/

/-- Conversion of an integer to `uint16_t`. -/
def u16 (x : Int) : Nat := (x % 65536).toNat

/-- Conversion of an integer to `int16_t` (two's complement wrap). -/
def i16 (x : Int) : Int := (x + 32768) % 65536 - 32768

/-- Largest `unsigned long` (LP64). -/
def ULONG_MAX : Nat := 18446744073709551615

/-- Largest `long long`. -/
def LLONG_MAX : Nat := 9223372036854775807

/-! ## C library: character classes and `strtoul` / `strtoll` -/

/-- The function `isspace` of `<cctype>` in the "C" locale. -/
def isspace (c : Char) : Bool :=
  c.toNat = 32 || (9 ≤ c.toNat && c.toNat ≤ 13)

/-- The function `upper` of the assembler: `toupper` on every character. -/
def upper (s : String) : String := String.mk (s.data.map Char.toUpper)

/-- Value of a character read as a digit; 36 for a character that is no digit
in any base. -/
def digitValue (c : Char) : Nat :=
  if 48 ≤ c.toNat ∧ c.toNat ≤ 57 then c.toNat - 48
  else if 97 ≤ c.toNat ∧ c.toNat ≤ 122 then c.toNat - 87
  else if 65 ≤ c.toNat ∧ c.toNat ≤ 90 then c.toNat - 55
  else 36

/-- The longest run of base-`b` digits at the head of the text: how many
digits were read, and their value on top of the accumulator. -/
def scanDigits (b : Nat) : List Char → Nat → Nat → Nat × Nat
  | [], acc, n => (n, acc)
  | c :: cs, acc, n =>
    if digitValue c < b then scanDigits b cs (acc * b + digitValue c) (n + 1)
    else (n, acc)

/-- Whether the text starts with `0x` or `0X`. -/
def hasHexPrefix (s : List Char) : Bool :=
  match s with
  | c0 :: c1 :: _ => c0.toNat = 48 && (c1.toNat = 120 || c1.toNat = 88)
  | _ => false

/-- Whether the text starts with a sign character, `-` or `+`. -/
def hasSign (s : List Char) : Bool :=
  match s with
  | c :: _ => c.toNat = 45 || c.toNat = 43
  | [] => false

/-- Whether the text starts with a minus sign. -/
def hasMinus (s : List Char) : Bool :=
  match s with
  | c :: _ => c.toNat = 45
  | [] => false

/-- Whether the text starts with the digit `0`. -/
def hasZero (s : List Char) : Bool :=
  match s with
  | c :: _ => c.toNat = 48
  | [] => false

/-- What the subject-sequence scan of `strtoul` / `strtoll` finds. -/
structure Scan where
  /-- a conversion was performed (the end pointer moved) -/
  converted : Bool
  /-- the subject sequence starts with a minus sign -/
  negative : Bool
  /-- the value of the digits, unbounded -/
  magnitude : Nat
deriving DecidableEq, Repr

/-- The scan of `strtoul` / `strtoll` past the sign, for base 0 and base 16:
an optional `0x` prefix (a leading `0` alone selects octal when the base is
0), then the longest run of digits of the base.  Whether a conversion was
performed, and the value of the digits.  A `0x` that no hexadecimal digit
follows converts the `0` alone. -/
def scanBody (s2 : List Char) (base : Nat) : Bool × Nat :=
  if hasHexPrefix s2 then
    let r := scanDigits 16 (s2.drop 2) 0 0
    if r.1 = 0 then (true, 0) else (true, r.2)
  else
    let b := if base = 0 then (if hasZero s2 then 8 else 10) else base
    let r := scanDigits b s2 0 0
    if r.1 = 0 then (false, 0) else (true, r.2)

/-- The scan shared by `strtoul` and `strtoll`: white space is skipped, an
optional sign is read, then the digits as in `scanBody`. -/
def strtoScan (s : List Char) (base : Nat) : Scan :=
  let s1 := s.dropWhile isspace
  let r := scanBody (if hasSign s1 then s1.drop 1 else s1) base
  ⟨r.1, hasMinus s1, r.2⟩

/-- The function `std::stoul (s, nullptr, base)`; `none` when it throws
(`invalid_argument` without a conversion, `out_of_range` beyond
`ULONG_MAX`).  A negative subject is negated in `unsigned long`. -/
def stoul (s : String) (base : Nat) : Option Nat :=
  let r := strtoScan s.data base
  if r.converted = false then none
  else if ULONG_MAX < r.magnitude then none
  else if r.negative then some ((ULONG_MAX + 1 - r.magnitude) % (ULONG_MAX + 1))
  else some r.magnitude

/-- The function `std::stoll (s, nullptr, base)`; `none` when it throws. -/
def stoll (s : String) (base : Nat) : Option Int :=
  let r := strtoScan s.data base
  if r.converted = false then none
  else if r.negative then
    (if LLONG_MAX + 1 < r.magnitude then none else some (-(r.magnitude : Int)))
  else if LLONG_MAX < r.magnitude then none
  else some (r.magnitude : Int)

/-! ## The assembler (`assembler_starter.cpp`) -/

/-- One tokenized source line. -/
structure AsmLine where
  label : String
  op : String
  arg : String
  raw : String
  lineno : Int
deriving DecidableEq, Repr

/-- The symbol table, `unordered_map<string, uint16_t>`. -/
abbrev SymTab := String → Option Nat

/-- The table after `sym[k] = v`. -/
def SymTab.set (sym : SymTab) (k : String) (v : Nat) : SymTab :=
  fun x => if x = k then some v else sym x

/-- The assembler object. -/
structure Assembler where
  sym : SymTab
  IR : List AsmLine
  loc : Nat

/-- A newly constructed assembler that was handed the tokenized lines, as in
`main`. -/
def Assembler.fresh (lines : List AsmLine) : Assembler :=
  ⟨fun _ => none, lines, 0⟩

/-- The loop of `pass1` over the remaining lines: the return value, the symbol
table and the location counter when the loop is left. -/
def pass1Loop : List AsmLine → SymTab → Nat → Bool × SymTab × Nat
  | [], sym, loc => (true, sym, loc)
  | a :: rest, sym, loc =>
    if a.label ≠ "" then
      if (sym a.label).isSome then (false, sym, loc)
      else pass1Loop rest (sym.set a.label loc) ((loc + 1) % 65536)
    else pass1Loop rest sym ((loc + 1) % 65536)

/-- The method `Assembler::pass1`: its return value and the assembler
afterwards. -/
def Assembler.pass1 (as : Assembler) : Bool × Assembler :=
  let r := pass1Loop as.IR as.sym 0
  (r.1, ⟨r.2.1, as.IR, r.2.2⟩)

/-- The helper `addr12`. -/
def addr12 (x : Nat) : Nat := x &&& 0x0FFF

/-- The helper `op4`. -/
def op4 (x : Nat) : Nat := ((x &&& 0xF) <<< 12) % 65536

/-- The lambda `resolve` of `pass2`. -/
def resolve (sym : SymTab) (s : String) : Nat :=
  if s = "" then 0
  else match sym s with
    | some v => v
    | none =>
      match stoul s 0 with
      | some v => v % 65536
      | none => 0

/-- The lambda `A` of `pass2`. -/
def A (sym : SymTab) (opc : Nat) (argS : String) : Nat :=
  op4 opc ||| addr12 (resolve sym argS)

/-- The word `pass2` computes for one line (the body of its loop up to the
output statement). -/
def encodeWord (sym : SymTab) (a : AsmLine) : Nat :=
  let op := upper a.op
  let arg := upper a.arg
  if op = "" then 0x0000
  else if op = "DEC" then
    (match stoll arg 0 with
     | some val => u16 val
     | none => u16 0)
  else if op = "LOAD" then A sym 0x1 arg
  else if op = "STORE" then A sym 0x2 arg
  else if op = "ADD" then A sym 0x3 arg
  else if op = "SUBT" then A sym 0x4 arg
  else if op = "INPUT" then A sym 0x5 "0"
  else if op = "OUTPUT" then A sym 0x6 "0"
  else if op = "HALT" then A sym 0x7 "0"
  else if op = "JUMP" then A sym 0x9 arg
  else if op = "SKIPCOND" then
    (let cond :=
      if arg = "LT" ∨ arg = "0" then 0x000
      else if arg = "ZE" ∨ arg = "400" then 0x400
      else if arg = "GT" ∨ arg = "800" then 0x800
      else 0
     op4 0x8 ||| (cond &&& 0x0E00))
  else if op = "CLEAR" then op4 0xB
  else if op = "ADDI" then A sym 0xC arg
  else if op = "JUMPI" then A sym 0xD arg
  else 0

/-- One uppercase hexadecimal digit. -/
def hexDigit (d : Nat) : Char :=
  if d < 10 then Char.ofNat (48 + d) else Char.ofNat (55 + d)

/-- A 16-bit word written with `setw(4) << setfill('0') << hex << uppercase`:
four uppercase hexadecimal digits.  This is `Marie::HEX4`, and the format of
every line `pass2` writes. -/
def HEX4 (x : Nat) : String :=
  String.mk [hexDigit (x % 65536 / 4096), hexDigit (x % 4096 / 256),
    hexDigit (x % 256 / 16), hexDigit (x % 16)]

/-- The loop of `pass2`: every line appends one line to the output stream. -/
def pass2Loop (sym : SymTab) : List AsmLine → List String → List String
  | [], out => out
  | a :: rest, out => pass2Loop sym rest (out ++ [HEX4 (encodeWord sym a)])

/-- The method `Assembler::pass2`: its return value and the stream `out`
afterwards.  The diagnostics it writes to `cerr` are not part of the
model. -/
def Assembler.pass2 (as : Assembler) (out : List String) : Bool × List String :=
  (true, pass2Loop as.sym as.IR out)

/-! ## Notions the statements about the assembler use -/

/-- The label carried by line `i` (0-based), when there is such a line. -/
def labelAt (lines : List AsmLine) (i : Nat) : Option String :=
  (lines[i]?).map AsmLine.label

/-- Line `j` carries a non-empty label that an earlier line carries too. -/
def Repeats (lines : List AsmLine) (j : Nat) : Prop :=
  ∃ i, i < j ∧ labelAt lines j ≠ none ∧ labelAt lines j ≠ some "" ∧
    labelAt lines i = labelAt lines j

instance (lines : List AsmLine) (j : Nat) : Decidable (Repeats lines j) := by
  unfold Repeats; infer_instance

/-- The program of the C1 witness: a labelled instruction, a label-only line,
a labelled constant and an unlabelled instruction. -/
def sampleLabels : List AsmLine :=
  [⟨"start", "LOAD", "X", "start: LOAD X", 1⟩, ⟨"here", "", "", "here:", 2⟩,
   ⟨"X", "DEC", "5", "X: DEC 5", 3⟩, ⟨"", "HALT", "", "HALT", 4⟩]

/-- The program of the C2 witness: line 2 repeats the label of line 0, and
line 4 repeats the label of line 1. -/
def sampleRepeat : List AsmLine :=
  [⟨"a", "LOAD", "b", "a: LOAD b", 1⟩, ⟨"b", "DEC", "1", "b: DEC 1", 2⟩,
   ⟨"a", "HALT", "", "a: HALT", 3⟩, ⟨"c", "HALT", "", "c: HALT", 4⟩,
   ⟨"b", "HALT", "", "b: HALT", 5⟩]

/-- A program whose label has lower-case letters: `JUMP end` / `end: HALT`. -/
def sampleLowerLabel : List AsmLine :=
  [⟨"", "JUMP", "end", "JUMP end", 1⟩, ⟨"end", "HALT", "", "end: HALT", 2⟩]

/-- A program with the label `0`: `INPUT` / `0: OUTPUT` / `HALT` / `CLEAR`. -/
def sampleLabelZero : List AsmLine :=
  [⟨"", "INPUT", "", "INPUT", 1⟩, ⟨"0", "OUTPUT", "", "0: OUTPUT", 2⟩,
   ⟨"", "HALT", "", "HALT", 3⟩, ⟨"", "CLEAR", "", "CLEAR", 4⟩]

/-- The mnemonics `pass2` knows, next to the empty mnemonic of a label-only
line. -/
def mnemonics : List String :=
  ["DEC", "LOAD", "STORE", "ADD", "SUBT", "INPUT", "OUTPUT", "HALT", "JUMP",
   "SKIPCOND", "CLEAR", "ADDI", "JUMPI"]

/-- The address-taking mnemonics with their opcodes. -/
def addressOpcodes : List (String × Nat) :=
  [("LOAD", 0x1), ("STORE", 0x2), ("ADD", 0x3), ("SUBT", 0x4), ("JUMP", 0x9),
   ("ADDI", 0xC), ("JUMPI", 0xD)]

/-- Value of a text that consists of base-`b` digits only. -/
def digitsValue (b : Nat) (ds : List Char) : Option Nat :=
  if ds.all (fun c => digitValue c < b) then
    some (ds.foldl (fun acc c => acc * b + digitValue c) 0)
  else none

/-- Magnitude of an unsigned numeric literal, "decimal or explicit base
prefix": `0x` or `0X` and at least one hexadecimal digit, or decimal digits
without a leading zero, or the single digit `0`. -/
def literalMagnitude (body : List Char) : Option Nat :=
  if hasHexPrefix body then
    (if body.drop 2 = [] then none else digitsValue 16 (body.drop 2))
  else if hasZero body then
    (if body.length = 1 then some 0 else none)
  else if body = [] then none
  else digitsValue 10 body

/-- Value of a numeric literal: an optional sign and an unsigned literal,
nothing else in the text. -/
def literalValue (s : String) : Option Int :=
  if hasSign s.data then
    match literalMagnitude (s.data.drop 1) with
    | some m => some (if hasMinus s.data then -(m : Int) else (m : Int))
    | none => none
  else
    match literalMagnitude s.data with
    | some m => some (m : Int)
    | none => none

/-- Whether an operand text starts like a number: after white space and an
optional sign comes a decimal digit. -/
def startsNumeric (s : String) : Bool :=
  let s1 := s.data.dropWhile isspace
  match (if hasSign s1 then s1.drop 1 else s1) with
  | c :: _ => decide (48 ≤ c.toNat ∧ c.toNat ≤ 57)
  | [] => false

/-! ## The simulator (`marie_core.cpp`) -/

/-- The helper `Marie::HI4`. -/
def HI4 (w : Nat) : Nat := (w >>> 12) &&& 0xF

/-- The helper `Marie::LO12`. -/
def LO12 (w : Nat) : Nat := w &&& 0x0FFF

/-- The simulator object.  `cin` is what is left of standard input, one entry
per token (`none` for a token that is no integer), `cinFail` its fail bit;
`cout` and `cerr` are the pieces written so far. -/
structure Marie where
  AC : Int
  MBR : Int
  PC : Nat
  IR : Nat
  MAR : Nat
  MEM : Nat → Nat
  icount : String → Nat
  trace_console : Bool
  cin : List (Option Int)
  cinFail : Bool
  cout : List String
  cerr : List String

/-- A newly constructed simulator whose memory holds the given image, with
the given standard input. -/
def Marie.init (mem : Nat → Nat) (input : List (Option Int)) : Marie :=
  { AC := 0, MBR := 0, PC := 0, IR := 0, MAR := 0, MEM := mem,
    icount := fun _ => 0, trace_console := true, cin := input,
    cinFail := false, cout := [], cerr := [] }

/-- Why `loadProgram` does not return. -/
inductive LoadFault where
  /-- the call of `stoul` threw -/
  | badNumber : LoadFault
  /-- a word was to be stored at this index, outside the array -/
  | outOfBounds : Nat → LoadFault
deriving DecidableEq, Repr

/-- The line as `loadProgram` reads it: cut at the first `;` or `#`, all white
space removed. -/
def cleanLine (line : String) : List Char :=
  ((line.data.takeWhile (fun c => !(c.toNat = 59 || c.toNat = 35))).filter
    (fun c => !isspace c))

/-- The loop of `loadProgram` over the remaining lines, on the memory and the
local `addr`. -/
def loadLoop : List String → (Nat → Nat) → Nat → Except LoadFault (Nat → Nat)
  | [], mem, _ => .ok mem
  | l :: rest, mem, addr =>
    let line := cleanLine l
    if line = [] then loadLoop rest mem addr
    else if (line.head?.map Char.toNat) = some 64 then
      match stoul (String.mk (line.drop 1)) 16 with
      | none => .error .badNumber
      | some v => loadLoop rest mem ((v &&& 0x0FFF) % 65536)
    else
      match stoul (String.mk line) 16 with
      | none => .error .badNumber
      | some v =>
        let w := (v &&& 0xFFFF) % 65536
        if addr < 4096 then
          loadLoop rest (fun a => if a = addr then w else mem a) ((addr + 1) % 65536)
        else .error (.outOfBounds addr)

/-- The method `Marie::loadProgram` on the lines of the stream. -/
def Marie.loadProgram (m : Marie) (lines : List String) : Except LoadFault Marie :=
  match loadLoop lines m.MEM 0 with
  | .ok mem => .ok { m with MEM := mem }
  | .error e => .error e

/-- The assignment `AC = v`. -/
def Marie.setAC (m : Marie) (v : Int) : Marie := { m with AC := v }

/-- The assignment `MBR = v`. -/
def Marie.setMBR (m : Marie) (v : Int) : Marie := { m with MBR := v }

/-- The assignment `PC = v`. -/
def Marie.setPC (m : Marie) (v : Nat) : Marie := { m with PC := v }

/-- The assignment `IR = v`. -/
def Marie.setIR (m : Marie) (v : Nat) : Marie := { m with IR := v }

/-- The assignment `MAR = v`. -/
def Marie.setMAR (m : Marie) (v : Nat) : Marie := { m with MAR := v }

/-- The assignment `MEM[i] = v`. -/
def Marie.write (m : Marie) (i v : Nat) : Marie :=
  { m with MEM := fun a => if a = i then v else m.MEM a }

/-- The statement `icount[k]++`. -/
def Marie.count (m : Marie) (k : String) : Marie :=
  { m with icount := fun x => if x = k then (m.icount k + 1) % 2 ^ 64 else m.icount x }

/-- Writing a piece of text to `cout`. -/
def Marie.print (m : Marie) (s : String) : Marie := { m with cout := m.cout ++ [s] }

/-- Writing a piece of text to `cerr`. -/
def Marie.printErr (m : Marie) (s : String) : Marie := { m with cerr := m.cerr ++ [s] }

/-- Setting the fail bit of `cin`. -/
def Marie.failCin (m : Marie) : Marie := { m with cinFail := true }

/-- Dropping the token at the head of `cin`. -/
def Marie.popCin (m : Marie) : Marie := { m with cin := m.cin.drop 1 }

/-- A number written by `setw(5)` in decimal: padded with blanks on the left
to five characters. -/
def setw5 (n : Nat) : String :=
  String.mk (List.replicate (5 - (toString n).length) ' ') ++ toString n

/-- The text `traceRow` writes. -/
def Marie.traceRow (m : Marie) (cyc : Nat) : String :=
  setw5 cyc ++ " | " ++ HEX4 m.PC ++ " " ++ HEX4 m.IR ++ " " ++ HEX4 (u16 m.AC)
    ++ " " ++ HEX4 m.MAR ++ " " ++ HEX4 (u16 m.MBR) ++ "\n"

/-- The statement `cin >> AC` for the `int16_t AC`: nothing is read once the
fail bit is set or at the end of input (the end sets the fail bit); a token
that is no integer stores 0 and sets the fail bit; an integer out of range
stores the nearest bound and sets the fail bit. -/
def Marie.readAC (m : Marie) : Marie :=
  if m.cinFail then m
  else match m.cin with
    | [] => m.failCin
    | none :: _ => (m.setAC 0).failCin
    | some v :: _ =>
      if v < -32768 then ((m.setAC (-32768)).failCin).popCin
      else if 32767 < v then ((m.setAC 32767).failCin).popCin
      else (m.setAC v).popCin

/-- The fetch phase of `step`. -/
def Marie.fetch (m : Marie) : Marie :=
  let m := m.setMAR m.PC
  let m := m.setMBR (i16 (m.MEM m.MAR))
  let m := m.setIR (u16 m.MBR)
  m.setPC ((m.PC + 1) &&& 0x0FFF)

/-- The end of `step` after the `switch`: the trace row is written and `cont`
returned. -/
def Marie.traced (m : Marie) (cyc : Nat) (cont : Bool) : Bool × Marie :=
  (cont, m.print (m.traceRow cyc))

/-- The case `0x8` of the `switch` in `step`. -/
def Marie.skipcond (m : Marie) (adr : Nat) : Marie :=
  let m := m.count "SKIPCOND"
  let cond := adr &&& 0x0E00
  let take : Bool :=
    if cond = 0x000 then decide (m.AC < 0)
    else if cond = 0x0400 then decide (m.AC = 0)
    else if cond = 0x0800 then decide (m.AC > 0)
    else false
  if take then m.setPC ((m.PC + 1) &&& 0x0FFF) else m

/-- The `switch` of `step` and what follows it, on the machine after the
fetch phase. -/
def Marie.execute (m : Marie) (op adr cyc : Nat) : Bool × Marie :=
  if op = 0x1 then
    let m := (m.count "LOAD").setMAR adr
    let m := m.setMBR (i16 (m.MEM m.MAR))
    (m.setAC m.MBR).traced cyc true
  else if op = 0x2 then
    let m := (m.count "STORE").setMAR adr
    (m.write m.MAR (u16 m.AC)).traced cyc true
  else if op = 0x3 then
    let m := (m.count "ADD").setMAR adr
    let m := m.setMBR (i16 (m.MEM m.MAR))
    (m.setAC (i16 (m.AC + m.MBR))).traced cyc true
  else if op = 0x4 then
    let m := (m.count "SUBT").setMAR adr
    let m := m.setMBR (i16 (m.MEM m.MAR))
    (m.setAC (i16 (m.AC - m.MBR))).traced cyc true
  else if op = 0x5 then
    (((m.count "INPUT").print "Input: ").readAC).traced cyc true
  else if op = 0x6 then
    let m := m.count "OUTPUT"
    (m.print ("Output: " ++ toString m.AC ++ "\n")).traced cyc true
  else if op = 0x7 then
    (m.count "HALT").traced cyc false
  else if op = 0x9 then
    ((m.count "JUMP").setPC adr).traced cyc true
  else if op = 0x8 then
    (m.skipcond adr).traced cyc true
  else if op = 0xB then
    ((m.count "CLEAR").setAC 0).traced cyc true
  else
    (false, m.printErr ("Unsupported opcode 0x" ++ String.mk [hexDigit op] ++ "\n"))

/-- The method `Marie::step`: its return value and the machine afterwards. -/
def Marie.step (m : Marie) (cyc : Nat) : Bool × Marie :=
  let m := m.fetch
  m.execute (HI4 m.IR) (LO12 m.IR) cyc

/-- The loop `while (step(cyc++)) { if (cyc > 1000000) break; }` for a given
body `step`, entered with the given value of `cyc`: the value of `cyc` and the
state when the loop is left.  (`cyc` stays far below `2^64` when the loop is
entered at 1.) -/
def whileStep {σ : Type} (step : σ → Nat → Bool × σ) (m : σ) (cyc : Nat) : Nat × σ :=
  let r := step m cyc
  if r.1 then
    if cyc + 1 > 1000000 then (cyc + 1, r.2) else whileStep step r.2 (cyc + 1)
  else (cyc + 1, r.2)
termination_by 1000001 - cyc
decreasing_by omega

/-- The loop of `run`. -/
def Marie.runLoop (m : Marie) (cyc : Nat) : Nat × Marie :=
  whileStep Marie.step m cyc

/-- A text written with `setw(10) << left`: padded with blanks on the right
to ten characters. -/
def left10 (s : String) : String :=
  s ++ String.mk (List.replicate (10 - s.length) ' ')

/-- The text `printInstructionSummary` writes, one piece per output
statement.  The range-`for` visits the keys of the `unordered_map` in an order
that the library chooses: `keys` is that sequence of keys. -/
def Marie.summaryText (m : Marie) (keys : List String) : List String :=
  "\nInstruction Execution Counts:\n" :: "---------------------------------\n" ::
    keys.map (fun k => left10 k ++ " : " ++ toString (m.icount k) ++ "\n")

/-- The method `Marie::printInstructionSummary`, for the order `keys` in which
the counters are visited. -/
def Marie.printInstructionSummary (m : Marie) (keys : List String) : Marie :=
  (m.summaryText keys).foldl Marie.print m

/-- The text `printMemoryDump` writes, one piece per output statement. -/
def Marie.dumpText (m : Marie) (maxCells : Nat) : List String :=
  ("\nMemory Dump (first " ++ toString maxCells ++ " addresses):\n") ::
    "---------------------------------\n" ::
    (List.range maxCells).map (fun i => HEX4 i ++ ": " ++ HEX4 (m.MEM i) ++ "\n")

/-- The method `Marie::printMemoryDump`. -/
def Marie.printMemoryDump (m : Marie) (maxCells : Nat) : Marie :=
  (m.dumpText maxCells).foldl Marie.print m

/-- The method `Marie::run`: the header of the trace table, the loop, the
status line, the instruction summary and the dump of the first 20 cells.  The
result is the final value of the local `cyc` (one more than the number of
calls of `step`) and the machine afterwards; `keys` is the order in which the
summary visits the counters. -/
def Marie.run (m : Marie) (keys : List String) : Nat × Marie :=
  let m := m.print "Cycle | PC   IR   AC    MAR  MBR\n---------------------------------\n"
  let r := m.runLoop 1
  let m := r.2.print "Program halted.\n"
  let m := m.printInstructionSummary keys
  (r.1, m.printMemoryDump 20)

/-- The fetch phase of `step` with the subscript of `MEM[MAR]` checked against
`MEM_SIZE`: `.error i` when the array would be indexed at `i`, outside it. -/
def Marie.fetchChecked (m : Marie) : Except Nat Marie :=
  let m := m.setMAR m.PC
  if m.MAR < 4096 then
    let m := m.setMBR (i16 (m.MEM m.MAR))
    let m := m.setIR (u16 m.MBR)
    .ok (m.setPC ((m.PC + 1) &&& 0x0FFF))
  else .error m.MAR

/-- The `switch` of `step` and what follows it, with every subscript of `MEM`
checked against `MEM_SIZE`: the cases LOAD, STORE, ADD and SUBT index the array
at `MAR`; no other case does. -/
def Marie.executeChecked (m : Marie) (op adr cyc : Nat) : Except Nat (Bool × Marie) :=
  if op = 0x1 then
    let m := (m.count "LOAD").setMAR adr
    if m.MAR < 4096 then
      let m := m.setMBR (i16 (m.MEM m.MAR))
      .ok ((m.setAC m.MBR).traced cyc true)
    else .error m.MAR
  else if op = 0x2 then
    let m := (m.count "STORE").setMAR adr
    if m.MAR < 4096 then .ok ((m.write m.MAR (u16 m.AC)).traced cyc true)
    else .error m.MAR
  else if op = 0x3 then
    let m := (m.count "ADD").setMAR adr
    if m.MAR < 4096 then
      let m := m.setMBR (i16 (m.MEM m.MAR))
      .ok ((m.setAC (i16 (m.AC + m.MBR))).traced cyc true)
    else .error m.MAR
  else if op = 0x4 then
    let m := (m.count "SUBT").setMAR adr
    if m.MAR < 4096 then
      let m := m.setMBR (i16 (m.MEM m.MAR))
      .ok ((m.setAC (i16 (m.AC - m.MBR))).traced cyc true)
    else .error m.MAR
  else if op = 0x5 then
    .ok ((((m.count "INPUT").print "Input: ").readAC).traced cyc true)
  else if op = 0x6 then
    let m := m.count "OUTPUT"
    .ok ((m.print ("Output: " ++ toString m.AC ++ "\n")).traced cyc true)
  else if op = 0x7 then
    .ok ((m.count "HALT").traced cyc false)
  else if op = 0x9 then
    .ok (((m.count "JUMP").setPC adr).traced cyc true)
  else if op = 0x8 then
    .ok ((m.skipcond adr).traced cyc true)
  else if op = 0xB then
    .ok (((m.count "CLEAR").setAC 0).traced cyc true)
  else
    .ok (false, m.printErr ("Unsupported opcode 0x" ++ String.mk [hexDigit op] ++ "\n"))

/-- The method `Marie::step` with every subscript of `MEM` checked against
`MEM_SIZE`: `.error i` when the call would index the array at `i`, outside it
(where the behaviour of the program is undefined), otherwise the return value
and the machine afterwards. -/
def Marie.stepChecked (m : Marie) (cyc : Nat) : Except Nat (Bool × Marie) :=
  match m.fetchChecked with
  | .error i => .error i
  | .ok f => f.executeChecked (HI4 f.IR) (LO12 f.IR) cyc

/-! ## Notions the statements about the simulator use -/

/-- The listing that sets the address before every word: `@` and the index,
then the word. -/
def addressedListing : Nat → List Nat → List String
  | _, [] => []
  | i, w :: ws => ("@" ++ HEX4 i) :: HEX4 w :: addressedListing (i + 1) ws

/-- The state after `n` calls of a body `step`, the calls numbered from 1 as
`run` numbers them. -/
def afterSteps {σ : Type} (step : σ → Nat → Bool × σ) (m : σ) : Nat → σ
  | 0 => m
  | n + 1 => (step (afterSteps step m n) (n + 1)).2

/-- The machine after `n` calls of `step`, numbered from 1 as `run` does. -/
def Marie.after (m : Marie) (n : Nat) : Marie := afterSteps Marie.step m n

/-- The machine within `run` when `n` calls of `step` have returned: `run` has
written the header of the trace table before the first call. -/
def Marie.during (m : Marie) (n : Nat) : Marie :=
  (m.print "Cycle | PC   IR   AC    MAR  MBR\n---------------------------------\n").after n

/-- The opcodes whose `case` leaves `cont` true. -/
def continuing : List Nat := [0x1, 0x2, 0x3, 0x4, 0x5, 0x6, 0x8, 0x9, 0xB]

/-- The number of calls of `step` that `run` makes: `cyc` starts at 1 and
every call increments it once. -/
def Marie.calls (m : Marie) (keys : List String) : Nat := (m.run keys).1 - 1

/-- The piece of `cout` that `run` writes first when its loop has ended. -/
def Marie.status (m : Marie) (keys : List String) : Option String :=
  (m.run keys).2.cout[(m.during (m.calls keys)).cout.length]?

/-- The memory image with `HALT` at address 0. -/
def sampleHalt : Nat → Nat := fun a => if a = 0 then 0x7000 else 0

/-- The memory image with `JUMP 0` at address 0. -/
def sampleJump : Nat → Nat := fun a => if a = 0 then 0x9000 else 0

/-- The memory image with the word `0xF000` at address 0. -/
def sampleFault : Nat → Nat := fun a => if a = 0 then 0xF000 else 0

/-- The memory image with `ADDI 5` at address 0, `JUMPI 5` at address 1, the
pointer 6 at address 5 and the value 7 at address 6. -/
def sampleIndirect : Nat → Nat := fun a =>
  if a = 0 then 0xC005 else if a = 1 then 0xD005 else if a = 5 then 6
  else if a = 6 then 7 else 0

/-- The memory image of `LOAD 4`, `ADD 5`, `STORE 6`, `HALT` with 5 at
address 4 and 3 at address 5. -/
def sampleSum : Nat → Nat := fun a =>
  if a = 0 then 0x1004 else if a = 1 then 0x3005 else if a = 2 then 0x2006
  else if a = 3 then 0x7000 else if a = 4 then 5 else if a = 5 then 3 else 0


/-! ## Theorems -/

theorem labelAt_nil (i : Nat) : labelAt [] i = none := by
  simp [labelAt]

theorem labelAt_cons_zero (a : AsmLine) (l : List AsmLine) :
    labelAt (a :: l) 0 = some a.label := by
  simp [labelAt]

theorem labelAt_cons_succ (a : AsmLine) (l : List AsmLine) (i : Nat) :
    labelAt (a :: l) (i + 1) = labelAt l i := by
  simp [labelAt]

theorem SymTab.set_same (sym : SymTab) (k : String) (v : Nat) :
    sym.set k v k = some v := by
  simp [SymTab.set]

theorem SymTab.set_other (sym : SymTab) (k : String) (v : Nat) (x : String)
    (h : x ≠ k) : sym.set k v x = sym x := by
  simp [SymTab.set, h]

/-- Running the loop of `pass1` across a prefix whose non-empty labels are
new to the table and pairwise different: the loop reaches the rest of the
lines, having bound exactly the labels of the prefix to their positions. -/
theorem pass1Loop_across (pre rest : List AsmLine) : ∀ (sym : SymTab) (loc : Nat),
    loc < 65536 →
    (∀ i L, L ≠ "" → labelAt pre i = some L →
      sym L = none ∧ ∀ k, k < i → labelAt pre k ≠ some L) →
    ∃ sym' : SymTab,
      pass1Loop (pre ++ rest) sym loc
        = pass1Loop rest sym' ((loc + pre.length) % 65536) ∧
      ∀ L v, sym' L = some v ↔
        (sym L = some v ∨
          (L ≠ "" ∧ ∃ i, labelAt pre i = some L ∧ v = (loc + i) % 65536)) := by
  induction pre with
  | nil =>
    intro sym loc hloc _
    refine ⟨sym, ?_, ?_⟩
    · simp [Nat.mod_eq_of_lt hloc]
    · intro L v
      simp [labelAt_nil]
  | cons a pre ih =>
    intro sym loc hloc h
    have hlen : ((loc + 1) % 65536 + pre.length) % 65536
        = (loc + (a :: pre).length) % 65536 := by
      simp only [List.length_cons]; omega
    have hidx : ∀ i, ((loc + 1) % 65536 + i) % 65536 = (loc + (i + 1)) % 65536 := by
      intro i; omega
    have htail : ∀ i L, L ≠ "" → labelAt pre i = some L →
        L ≠ a.label ∧ sym L = none ∧ ∀ k, k < i → labelAt pre k ≠ some L := by
      intro i L hL hi
      have h1 := h (i + 1) L hL (by rw [labelAt_cons_succ]; exact hi)
      refine ⟨?_, h1.1, ?_⟩
      · intro heq
        have := h1.2 0 (Nat.succ_pos i)
        rw [labelAt_cons_zero] at this
        exact this (by rw [heq])
      · intro k hk
        have := h1.2 (k + 1) (Nat.succ_lt_succ hk)
        rwa [labelAt_cons_succ] at this
    by_cases hlab : a.label = ""
    · -- a line without a label only advances the location counter
      obtain ⟨sym', hrun, hsym⟩ := ih sym ((loc + 1) % 65536) (Nat.mod_lt _ (by norm_num))
        (fun i L hL hi => (htail i L hL hi).2)
      refine ⟨sym', ?_, ?_⟩
      · rw [List.cons_append, pass1Loop]
        simp only [hlab, ne_eq, not_true_eq_false, if_false]
        rw [hrun, hlen]
      · intro L v
        rw [hsym L v]
        constructor
        · rintro (h0 | ⟨hL, i, hi, hv⟩)
          · exact Or.inl h0
          · exact Or.inr ⟨hL, i + 1, by rw [labelAt_cons_succ]; exact hi,
              by rw [hv, hidx]⟩
        · rintro (h0 | ⟨hL, i, hi, hv⟩)
          · exact Or.inl h0
          · cases i with
            | zero =>
              rw [labelAt_cons_zero] at hi
              exact absurd (by rw [← Option.some.inj hi, hlab]) hL
            | succ i =>
              rw [labelAt_cons_succ] at hi
              exact Or.inr ⟨hL, i, hi, by rw [hv, hidx]⟩
    · -- a labelled line binds its label to the location counter
      have hnew : sym a.label = none := (h 0 a.label hlab (labelAt_cons_zero a pre)).1
      obtain ⟨sym', hrun, hsym⟩ := ih (sym.set a.label loc) ((loc + 1) % 65536)
        (Nat.mod_lt _ (by norm_num))
        (fun i L hL hi => by
          obtain ⟨h1, h2, h3⟩ := htail i L hL hi
          exact ⟨by rw [SymTab.set_other _ _ _ _ h1]; exact h2, h3⟩)
      refine ⟨sym', ?_, ?_⟩
      · rw [List.cons_append, pass1Loop]
        simp only [ne_eq, hlab, not_false_eq_true, if_true, hnew, Option.isSome_none,
          Bool.false_eq_true, if_false]
        rw [hrun, hlen]
      · intro L v
        rw [hsym L v]
        constructor
        · rintro (h0 | ⟨hL, i, hi, hv⟩)
          · by_cases hLa : L = a.label
            · subst hLa
              rw [SymTab.set_same] at h0
              exact Or.inr ⟨hlab, 0, labelAt_cons_zero a pre,
                by rw [← Option.some.inj h0]; simp [Nat.mod_eq_of_lt hloc]⟩
            · rw [SymTab.set_other _ _ _ _ hLa] at h0
              exact Or.inl h0
          · exact Or.inr ⟨hL, i + 1, by rw [labelAt_cons_succ]; exact hi,
              by rw [hv, hidx]⟩
        · rintro (h0 | ⟨hL, i, hi, hv⟩)
          · have hLa : L ≠ a.label := by
              intro heq; rw [heq, hnew] at h0; exact Option.noConfusion h0
            exact Or.inl (by rw [SymTab.set_other _ _ _ _ hLa]; exact h0)
          · cases i with
            | zero =>
              rw [labelAt_cons_zero] at hi
              have hLa : L = a.label := (Option.some.inj hi).symm
              subst hLa
              exact Or.inl (by rw [SymTab.set_same, hv]; simp [Nat.mod_eq_of_lt hloc])
            | succ i =>
              rw [labelAt_cons_succ] at hi
              exact Or.inr ⟨hL, i, hi, by rw [hv, hidx]⟩


theorem labelAt_lt {lines : List AsmLine} {i : Nat} {L : String}
    (h : labelAt lines i = some L) : i < lines.length := by
  by_contra hge
  simp [labelAt, List.getElem?_eq_none (Nat.le_of_not_lt hge)] at h

theorem labelAt_take (lines : List AsmLine) (j i : Nat) :
    labelAt (lines.take j) i = if i < j then labelAt lines i else none := by
  unfold labelAt
  by_cases h : i < j
  · simp [h, List.getElem?_take_of_lt h]
  · simp [h, List.getElem?_take_eq_none (Nat.le_of_not_lt h)]

/-- A prefix without a repeated label meets the side condition of
`pass1Loop_across` for the empty table. -/
theorem fresh_take (lines : List AsmLine) (j : Nat)
    (hno : ∀ k, k < j → ¬ Repeats lines k) :
    ∀ i L, L ≠ "" → labelAt (lines.take j) i = some L →
      (fun _ => none : SymTab) L = none ∧
        ∀ k, k < i → labelAt (lines.take j) k ≠ some L := by
  intro i L hL hi
  refine ⟨rfl, ?_⟩
  intro k hk hk'
  rw [labelAt_take] at hi hk'
  by_cases hij : i < j
  · rw [if_pos hij] at hi
    rw [if_pos (Nat.lt_trans hk hij)] at hk'
    refine hno i hij ⟨k, hk, ?_, ?_, ?_⟩
    · rw [hi]; exact Option.some_ne_none L
    · rw [hi]; intro h; exact hL (Option.some.inj h)
    · rw [hi, hk']
  · rw [if_neg hij] at hi
    exact Option.noConfusion hi

/-- Without a repeated label the loop of `pass1` runs to the end of the
lines. -/
theorem pass1Loop_no_repeat (lines : List AsmLine)
    (hno : ∀ j, j < lines.length → ¬ Repeats lines j) :
    ∃ sym' : SymTab,
      pass1Loop lines (fun _ => none) 0 = (true, sym', lines.length % 65536) ∧
      ∀ L v, sym' L = some v ↔
        (L ≠ "" ∧ ∃ i, labelAt lines i = some L ∧ v = i % 65536) := by
  obtain ⟨sym', hrun, hsym⟩ := pass1Loop_across (lines.take lines.length) []
    (fun _ => none) 0 (by norm_num) (fresh_take lines lines.length hno)
  rw [List.take_length, List.append_nil, Nat.zero_add] at hrun
  refine ⟨sym', by rw [hrun, pass1Loop], ?_⟩
  intro L v
  rw [hsym L v, List.take_length]
  simp

/-- At the first line that repeats a label the loop of `pass1` returns false,
with the table the lines before it have built. -/
theorem pass1Loop_first_repeat (lines : List AsmLine) (j : Nat)
    (hj : Repeats lines j) (hno : ∀ k, k < j → ¬ Repeats lines k) :
    ∃ sym' : SymTab,
      pass1Loop lines (fun _ => none) 0 = (false, sym', j % 65536) ∧
      ∀ L v, sym' L = some v ↔
        (L ≠ "" ∧ ∃ i, i < j ∧ labelAt lines i = some L ∧ v = i % 65536) := by
  obtain ⟨i, hij, hsome, hne, heq⟩ := hj
  obtain ⟨L, hL⟩ := Option.ne_none_iff_exists'.mp hsome
  have hLne : L ≠ "" := by
    intro h; rw [hL, h] at hne; exact hne rfl
  have hjlt : j < lines.length := labelAt_lt hL
  obtain ⟨sym', hrun, hsym⟩ := pass1Loop_across (lines.take j) (lines.drop j)
    (fun _ => none) 0 (by norm_num) (fresh_take lines j hno)
  rw [List.take_append_drop, Nat.zero_add, List.length_take,
    Nat.min_eq_left (Nat.le_of_lt hjlt)] at hrun
  have hchar : ∀ L v, sym' L = some v ↔
      (L ≠ "" ∧ ∃ i, i < j ∧ labelAt lines i = some L ∧ v = i % 65536) := by
    intro L v
    rw [hsym L v]
    constructor
    · rintro (h0 | ⟨h1, i, hi, hv⟩)
      · exact Option.noConfusion h0
      · rw [labelAt_take] at hi
        by_cases hlt : i < j
        · rw [if_pos hlt] at hi
          exact ⟨h1, i, hlt, hi, by rw [hv, Nat.zero_add]⟩
        · rw [if_neg hlt] at hi
          exact Option.noConfusion hi
    · rintro ⟨h1, i, hlt, hi, hv⟩
      exact Or.inr ⟨h1, i, by rw [labelAt_take, if_pos hlt]; exact hi,
        by rw [hv, Nat.zero_add]⟩
  refine ⟨sym', ?_, hchar⟩
  have hbound : sym' L = some (i % 65536) :=
    (hchar L (i % 65536)).mpr ⟨hLne, i, hij, by rw [heq, hL], rfl⟩
  have hdrop : lines.drop j = lines[j] :: lines.drop (j + 1) :=
    List.drop_eq_getElem_cons hjlt
  have hlabel : lines[j].label = L := by
    have : labelAt lines j = some lines[j].label := by
      simp [labelAt, List.getElem?_eq_getElem hjlt]
    rw [hL] at this
    exact (Option.some.inj this).symm
  rw [hrun, hdrop, pass1Loop]
  simp [hlabel, hLne, hbound]

/-- C1. On a fresh assembler holding at most 4096 lines in which no non-empty
label occurs twice, `pass1` returns true, the symbol table binds the non-empty
label of every line `i` to exactly `i` (whatever the mnemonic of the line) and
binds nothing else, and the final location counter is the number of lines. -/
theorem pass1_assigns_line_addresses (lines : List AsmLine)
    (hlen : lines.length ≤ 4096)
    (hnodup : ∀ j, j < lines.length → ¬ Repeats lines j) :
    (Assembler.fresh lines).pass1.1 = true ∧
    (∀ i L, L ≠ "" → labelAt lines i = some L →
      (Assembler.fresh lines).pass1.2.sym L = some i) ∧
    (∀ L v, (Assembler.fresh lines).pass1.2.sym L = some v →
      L ≠ "" ∧ labelAt lines v = some L) ∧
    (Assembler.fresh lines).pass1.2.loc = lines.length := by
  obtain ⟨sym', hrun, hsym⟩ := pass1Loop_no_repeat lines hnodup
  have hmod : ∀ i, i < lines.length → i % 65536 = i := fun i hi =>
    Nat.mod_eq_of_lt (by omega)
  simp only [Assembler.pass1, Assembler.fresh, hrun]
  refine ⟨trivial, ?_, ?_, Nat.mod_eq_of_lt (by omega)⟩
  · intro i L hL hi
    exact (hsym L i).mpr ⟨hL, i, hi, (hmod i (labelAt_lt hi)).symm⟩
  · intro L v hv
    obtain ⟨hL, i, hi, hvi⟩ := (hsym L v).mp hv
    rw [hmod i (labelAt_lt hi)] at hvi
    exact ⟨hL, by rw [hvi]; exact hi⟩

/-- Witness for C1: the theorem applied to a four-line program. -/
theorem pass1_assigns_line_addresses_witness :
    (Assembler.fresh sampleLabels).pass1.1 = true ∧
    (∀ i L, L ≠ "" → labelAt sampleLabels i = some L →
      (Assembler.fresh sampleLabels).pass1.2.sym L = some i) ∧
    (∀ L v, (Assembler.fresh sampleLabels).pass1.2.sym L = some v →
      L ≠ "" ∧ labelAt sampleLabels v = some L) ∧
    (Assembler.fresh sampleLabels).pass1.2.loc = sampleLabels.length :=
  pass1_assigns_line_addresses sampleLabels (by decide) (by decide)

/-- C2. On a fresh assembler `pass1` returns false if and only if some line
repeats the non-empty label of an earlier line; and when `j` is the first such
line, the loop is left at `j`: the location counter is `j` (as a `uint16_t`)
and the symbol table holds exactly the bindings of the non-empty labels of the
lines before `j`, nothing of line `j` or later. -/
theorem pass1_fails_iff_repeated_label (lines : List AsmLine) :
    ((Assembler.fresh lines).pass1.1 = false ↔
      ∃ j, j < lines.length ∧ Repeats lines j) ∧
    ∀ j, Repeats lines j → (∀ k, k < j → ¬ Repeats lines k) →
      (Assembler.fresh lines).pass1.1 = false ∧
      (Assembler.fresh lines).pass1.2.loc = j % 65536 ∧
      ∀ L v, (Assembler.fresh lines).pass1.2.sym L = some v ↔
        (L ≠ "" ∧ ∃ i, i < j ∧ labelAt lines i = some L ∧ v = i % 65536) := by
  have hfirst : ∀ j, Repeats lines j → (∀ k, k < j → ¬ Repeats lines k) →
      (Assembler.fresh lines).pass1.1 = false ∧
      (Assembler.fresh lines).pass1.2.loc = j % 65536 ∧
      ∀ L v, (Assembler.fresh lines).pass1.2.sym L = some v ↔
        (L ≠ "" ∧ ∃ i, i < j ∧ labelAt lines i = some L ∧ v = i % 65536) := by
    intro j hj hno
    obtain ⟨sym', hrun, hsym⟩ := pass1Loop_first_repeat lines j hj hno
    simp only [Assembler.pass1, Assembler.fresh, hrun]
    exact ⟨trivial, trivial, hsym⟩
  refine ⟨⟨?_, ?_⟩, hfirst⟩
  · intro hfail
    by_contra hnone
    have hno : ∀ j, j < lines.length → ¬ Repeats lines j :=
      fun j hj hr => hnone ⟨j, hj, hr⟩
    obtain ⟨sym', hrun, _⟩ := pass1Loop_no_repeat lines hno
    simp [Assembler.pass1, Assembler.fresh, hrun] at hfail
  · rintro ⟨j, _, hj⟩
    have hex : ∃ j, Repeats lines j := ⟨j, hj⟩
    exact (hfirst (Nat.find hex) (Nat.find_spec hex)
      (fun k hk => Nat.find_min hex hk)).1

/-- Witness for C2: in the sample line 2 is the first repeat, and `pass1`
stops there. -/
theorem pass1_fails_iff_repeated_label_witness :
    Repeats sampleRepeat 2 ∧ (∀ k, k < 2 → ¬ Repeats sampleRepeat k) ∧
    (Assembler.fresh sampleRepeat).pass1.1 = false ∧
    (Assembler.fresh sampleRepeat).pass1.2.loc = 2 % 65536 ∧
    ∀ L v, (Assembler.fresh sampleRepeat).pass1.2.sym L = some v ↔
      (L ≠ "" ∧ ∃ i, i < 2 ∧ labelAt sampleRepeat i = some L ∧ v = i % 65536) :=
  ⟨by decide, by decide,
    (pass1_fails_iff_repeated_label sampleRepeat).2 2 (by decide) (by decide)⟩

/-! ### `pass2`: one word per line -/

/-- The loop of `pass2` appends the words of the lines, in order. -/
theorem pass2Loop_eq (sym : SymTab) (lines : List AsmLine) : ∀ out : List String,
    pass2Loop sym lines out = out ++ lines.map (fun a => HEX4 (encodeWord sym a)) := by
  induction lines with
  | nil => intro out; simp [pass2Loop]
  | cons a rest ih => intro out; simp [pass2Loop, ih]

/-- A line whose mnemonic `pass2` does not know is encoded as the word 0. -/
theorem encodeWord_unknown (sym : SymTab) (a : AsmLine)
    (h : upper a.op ∉ mnemonics) : encodeWord sym a = 0 := by
  simp only [mnemonics, List.mem_cons, List.mem_singleton, not_or, List.mem_nil_iff,
    not_false_eq_true, and_true] at h
  obtain ⟨h1, h2, h3, h4, h5, h6, h7, h8, h9, h10, h11, h12, h13⟩ := h
  unfold encodeWord
  by_cases h0 : upper a.op = ""
  · simp [h0]
  · simp [h0, h1, h2, h3, h4, h5, h6, h7, h8, h9, h10, h11, h12, h13]

/-- C3. For every list of lines and every symbol table `pass2` returns true
and appends to the output exactly one word per line, in the order of the
lines, each word being a function of its line and the symbol table only; a
line whose mnemonic is not known yields `0000`, and the words of the lines
around it are what `pass2` writes for those lines on their own. -/
theorem pass2_one_word_per_line (as : Assembler) (out : List String) :
    (as.pass2 out).1 = true ∧
    (as.pass2 out).2 = out ++ as.IR.map (fun a => HEX4 (encodeWord as.sym a)) ∧
    (as.pass2 out).2.length = out.length + as.IR.length ∧
    (∀ a, upper a.op ∉ mnemonics →
      encodeWord as.sym a = 0x0000 ∧ HEX4 (encodeWord as.sym a) = "0000") ∧
    (∀ before bad after, as.IR = before ++ bad :: after → upper bad.op ∉ mnemonics →
      (as.pass2 out).2 = out ++ ((Assembler.mk as.sym before as.loc).pass2 []).2
        ++ "0000" :: ((Assembler.mk as.sym after as.loc).pass2 []).2) := by
  have hout : (as.pass2 out).2
      = out ++ as.IR.map (fun a => HEX4 (encodeWord as.sym a)) := by
    simp [Assembler.pass2, pass2Loop_eq]
  refine ⟨rfl, hout, ?_, ?_, ?_⟩
  · rw [hout]; simp
  · intro a ha
    rw [encodeWord_unknown as.sym a ha]
    exact ⟨rfl, by decide⟩
  · intro before bad after hir hbad
    rw [hout, hir]
    simp [Assembler.pass2, pass2Loop_eq, encodeWord_unknown as.sym bad hbad]
    decide

/-- Witness for C3: a program whose second line has the mnemonic `NOP`, which
`pass2` does not know. -/
theorem pass2_one_word_per_line_witness :
    upper "nop" ∉ mnemonics ∧
    ((Assembler.mk (fun _ => none)
        [⟨"", "LOAD", "7", "", 1⟩, ⟨"", "nop", "", "", 2⟩, ⟨"", "HALT", "", "", 3⟩] 0).pass2 []).2
      = [] ++ ((Assembler.mk (fun _ => none) [⟨"", "LOAD", "7", "", 1⟩] 0).pass2 []).2
        ++ "0000" :: ((Assembler.mk (fun _ => none) [⟨"", "HALT", "", "", 3⟩] 0).pass2 []).2 :=
  ⟨by decide,
    (pass2_one_word_per_line (Assembler.mk (fun _ => none)
        [⟨"", "LOAD", "7", "", 1⟩, ⟨"", "nop", "", "", 2⟩, ⟨"", "HALT", "", "", 3⟩] 0) []).2.2.2.2
      [⟨"", "LOAD", "7", "", 1⟩] ⟨"", "nop", "", "", 2⟩ [⟨"", "HALT", "", "", 3⟩] rfl (by decide)⟩

/-! ### `pass2`: operands that are numeric literals -/

theorem toNat_toUpper (c : Char) :
    c.toUpper.toNat = if 97 ≤ c.toNat ∧ c.toNat ≤ 122 then c.toNat - 32 else c.toNat := by
  unfold Char.toUpper
  simp only [ge_iff_le]
  split_ifs with h
  · obtain ⟨h1, h2⟩ := h
    generalize c.toNat = n at *
    interval_cases n <;> rfl
  · rfl

theorem digitValue_toUpper (c : Char) : digitValue c.toUpper = digitValue c := by
  unfold digitValue
  rw [toNat_toUpper]
  split_ifs <;> omega

theorem isspace_toUpper (c : Char) : isspace c.toUpper = isspace c := by
  unfold isspace
  rw [toNat_toUpper]
  split_ifs with h
  · have h1 : ¬ (c.toNat - 32 = 32) := by omega
    have h2 : ¬ (c.toNat = 32) := by omega
    have h3 : ¬ (c.toNat - 32 ≤ 13) := by omega
    have h4 : ¬ (c.toNat ≤ 13) := by omega
    simp [h1, h2, h3, h4]
  · rfl

theorem hasSign_upper (s : List Char) : hasSign (s.map Char.toUpper) = hasSign s := by
  cases s with
  | nil => rfl
  | cons c t =>
    simp only [List.map_cons, hasSign, toNat_toUpper]
    split_ifs with h
    · have h1 : ¬ (c.toNat - 32 = 45) := by omega
      have h2 : ¬ (c.toNat = 45) := by omega
      have h3 : ¬ (c.toNat - 32 = 43) := by omega
      have h4 : ¬ (c.toNat = 43) := by omega
      simp [h1, h2, h3, h4]
    · rfl

theorem hasMinus_upper (s : List Char) : hasMinus (s.map Char.toUpper) = hasMinus s := by
  cases s with
  | nil => rfl
  | cons c t =>
    simp only [List.map_cons, hasMinus, toNat_toUpper]
    split_ifs with h
    · have h1 : ¬ (c.toNat - 32 = 45) := by omega
      have h2 : ¬ (c.toNat = 45) := by omega
      simp [h1, h2]
    · rfl

theorem hasZero_upper (s : List Char) : hasZero (s.map Char.toUpper) = hasZero s := by
  cases s with
  | nil => rfl
  | cons c t =>
    simp only [List.map_cons, hasZero, toNat_toUpper]
    split_ifs with h
    · have h1 : ¬ (c.toNat - 32 = 48) := by omega
      have h2 : ¬ (c.toNat = 48) := by omega
      simp [h1, h2]
    · rfl

theorem hasHexPrefix_upper (s : List Char) :
    hasHexPrefix (s.map Char.toUpper) = hasHexPrefix s := by
  match s with
  | [] => rfl
  | [_] => rfl
  | c0 :: c1 :: t =>
    simp only [List.map_cons, hasHexPrefix, toNat_toUpper]
    by_cases h0 : c0.toNat = 48
    · have h0' : ¬ (97 ≤ c0.toNat ∧ c0.toNat ≤ 122) := by omega
      rw [if_neg h0']
      by_cases h1 : c1.toNat = 120
      · simp [h0, h1]
      · by_cases h2 : c1.toNat = 88
        · simp [h0, h2]
        · have h3 : ¬ ((if 97 ≤ c1.toNat ∧ c1.toNat ≤ 122 then c1.toNat - 32 else c1.toNat) = 120) := by
            split_ifs <;> omega
          have h4 : ¬ ((if 97 ≤ c1.toNat ∧ c1.toNat ≤ 122 then c1.toNat - 32 else c1.toNat) = 88) := by
            split_ifs <;> omega
          simp [h0, h1, h2, h3, h4]
    · have h0' : ¬ ((if 97 ≤ c0.toNat ∧ c0.toNat ≤ 122 then c0.toNat - 32 else c0.toNat) = 48) := by
        split_ifs <;> omega
      simp [h0, h0']

/-- A text of base-`b` digits is read to its end by `scanDigits`. -/
theorem scanDigits_all (b : Nat) (ds : List Char) : ∀ (acc n : Nat),
    ds.all (fun c => digitValue c < b) = true →
    scanDigits b ds acc n
      = (n + ds.length, ds.foldl (fun acc c => acc * b + digitValue c) acc) := by
  induction ds with
  | nil => intro acc n _; simp [scanDigits]
  | cons c cs ih =>
    intro acc n h
    simp only [List.all_cons, Bool.and_eq_true, decide_eq_true_eq] at h
    rw [scanDigits, if_pos h.1, ih _ _ h.2]
    simp only [List.length_cons, List.foldl_cons]
    congr 1
    omega

theorem all_digits_upper (b : Nat) (ds : List Char) :
    (ds.map Char.toUpper).all (fun c => digitValue c < b)
      = ds.all (fun c => digitValue c < b) := by
  induction ds with
  | nil => rfl
  | cons c cs ih => simp only [List.map_cons, List.all_cons, digitValue_toUpper, ih]

theorem foldl_digits_upper (b : Nat) (ds : List Char) : ∀ acc : Nat,
    (ds.map Char.toUpper).foldl (fun acc c => acc * b + digitValue c) acc
      = ds.foldl (fun acc c => acc * b + digitValue c) acc := by
  induction ds with
  | nil => intro acc; rfl
  | cons c cs ih => intro acc; simp only [List.map_cons, List.foldl_cons, digitValue_toUpper, ih]

/-- What `scanDigits` reads from the uppercased text of digits. -/
theorem scanDigits_digitsValue (b : Nat) (ds : List Char) (m : Nat)
    (h : digitsValue b ds = some m) :
    scanDigits b (ds.map Char.toUpper) 0 0 = (ds.length, m) := by
  unfold digitsValue at h
  split_ifs at h with hall
  rw [scanDigits_all b _ 0 0 (by rw [all_digits_upper]; exact hall), foldl_digits_upper]
  simp only [List.length_map, Nat.zero_add]
  rw [Option.some.inj h]

/-- The scan of `strtoul` reads an unsigned literal, uppercased, to its
value. -/
theorem scanBody_literal (body : List Char) (m : Nat)
    (h : literalMagnitude body = some m) :
    scanBody (body.map Char.toUpper) 0 = (true, m) := by
  unfold literalMagnitude at h
  unfold scanBody
  rw [hasHexPrefix_upper, hasZero_upper]
  by_cases hx : hasHexPrefix body = true
  · rw [if_pos hx] at h
    rw [if_pos hx]
    split_ifs at h with hnil
    rw [← List.map_drop, scanDigits_digitsValue 16 _ m h]
    have hlen : (List.drop 2 body).length ≠ 0 := by
      intro h0; exact hnil (List.length_eq_zero.mp h0)
    rw [if_neg hlen]
  · rw [if_neg hx] at h
    rw [if_neg hx]
    by_cases hz : hasZero body = true
    · rw [if_pos hz] at h
      split_ifs at h with hone
      match body, hone, hz with
      | [c], _, hz =>
        simp only [hasZero, decide_eq_true_eq] at hz
        have hd : digitValue c.toUpper = 0 := by
          rw [digitValue_toUpper]; unfold digitValue; simp [hz]
        simp [hasZero, hz, scanDigits, hd, ← Option.some.inj h]
    · rw [if_neg hz] at h
      split_ifs at h with hnil
      simp only [hz, if_true, Bool.false_eq_true, if_false]
      rw [scanDigits_digitsValue 10 _ m h]
      have hlen : body.length ≠ 0 := by
        intro h0; exact hnil (List.length_eq_zero.mp h0)
      simp [hlen]


theorem isspace_of_digit {c : Char} {b : Nat} (hb : b ≤ 36) (h : digitValue c < b) :
    isspace c = false := by
  unfold digitValue at h
  unfold isspace
  split_ifs at h with h1 h2 h3
  · have a1 : ¬ (c.toNat = 32) := by omega
    have a2 : ¬ (c.toNat ≤ 13) := by omega
    simp [a1, a2]
  · have a1 : ¬ (c.toNat = 32) := by omega
    have a2 : ¬ (c.toNat ≤ 13) := by omega
    simp [a1, a2]
  · have a1 : ¬ (c.toNat = 32) := by omega
    have a2 : ¬ (c.toNat ≤ 13) := by omega
    simp [a1, a2]
  · omega

/-- A numeric literal starts with a character that is no white space. -/
theorem literal_head (s : String) (v : Int) (h : literalValue s = some v) :
    ∃ c t, s.data = c :: t ∧ isspace c = false := by
  unfold literalValue at h
  match hs : s.data with
  | [] =>
    rw [hs] at h
    simp [hasSign, literalMagnitude, hasHexPrefix, hasZero] at h
  | c :: t =>
    refine ⟨c, t, rfl, ?_⟩
    rw [hs] at h
    by_cases hsign : hasSign (c :: t) = true
    · simp only [hasSign, Bool.or_eq_true, decide_eq_true_eq] at hsign
      unfold isspace
      have a1 : ¬ (c.toNat = 32) := by omega
      have a2 : ¬ (c.toNat ≤ 13) := by omega
      simp [a1, a2]
    · rw [if_neg hsign] at h
      have hz : ∀ (hc : c.toNat = 48), isspace c = false := by
        intro hc
        unfold isspace
        simp [hc]
      unfold literalMagnitude at h
      by_cases hx : hasHexPrefix (c :: t) = true
      · match t, hx with
        | c1 :: t', hx =>
          simp only [hasHexPrefix, Bool.and_eq_true, decide_eq_true_eq] at hx
          exact hz hx.1
      · rw [if_neg hx] at h
        by_cases h0 : hasZero (c :: t) = true
        · simp only [hasZero, decide_eq_true_eq] at h0
          exact hz h0
        · rw [if_neg h0] at h
          simp only [reduceCtorEq, if_false] at h
          match hm : digitsValue 10 (c :: t), h with
          | some m, _ => ?_
          unfold digitsValue at hm
          split_ifs at hm with hall
          simp only [List.all_cons, Bool.and_eq_true, decide_eq_true_eq] at hall
          exact isspace_of_digit (by norm_num) hall.1

/-- The scan of `strtoul` on an uppercased numeric literal: a conversion, the
sign of the literal and its magnitude. -/
theorem strtoScan_literal (s : String) (v : Int) (h : literalValue s = some v) :
    strtoScan (upper s).data 0 = ⟨true, hasMinus s.data, v.natAbs⟩ ∧
    (hasMinus s.data = true → v ≤ 0) ∧ (hasMinus s.data = false → 0 ≤ v) := by
  obtain ⟨c, t, hs, hc⟩ := literal_head s v h
  have hdrop : ((upper s).data).dropWhile isspace = s.data.map Char.toUpper := by
    show (s.data.map Char.toUpper).dropWhile isspace = _
    rw [hs, List.map_cons, List.dropWhile_cons_of_neg (by rw [isspace_toUpper, hc]; simp)]
  unfold strtoScan
  simp only [hdrop, hasSign_upper, hasMinus_upper]
  unfold literalValue at h
  by_cases hsign : hasSign s.data = true
  · rw [if_pos hsign] at h
    rw [if_pos hsign]
    match hm : literalMagnitude (s.data.drop 1), h with
    | some m, h =>
      have hv := Option.some.inj h
      rw [← List.map_drop, scanBody_literal _ m hm]
      by_cases hneg : hasMinus s.data = true
      · rw [if_pos hneg] at hv
        subst hv
        simp [hneg]
      · rw [if_neg hneg] at hv
        subst hv
        simp [hneg]
  · rw [if_neg hsign] at h
    rw [if_neg hsign]
    match hm : literalMagnitude s.data, h with
    | some m, h =>
      have hv := Option.some.inj h
      rw [scanBody_literal _ m hm]
      have hneg : hasMinus s.data = false := by
        rw [hs] at hsign ⊢
        simp only [hasSign, Bool.or_eq_true, decide_eq_true_eq, not_or] at hsign
        simp [hasMinus, hsign.1]
      subst hv
      simp [hneg]

/-- The function `stoul` on an uppercased numeric literal within the range of
`unsigned long`: the value modulo `2^64`. -/
theorem stoul_literal (s : String) (v : Int) (h : literalValue s = some v)
    (hr : v.natAbs ≤ ULONG_MAX) :
    stoul (upper s) 0 = some (v % 18446744073709551616).toNat := by
  obtain ⟨hscan, hneg, hpos⟩ := strtoScan_literal s v h
  unfold stoul
  simp only [hscan]
  unfold ULONG_MAX at hr ⊢
  rw [if_neg (by simp), if_neg (by omega)]
  by_cases hm : hasMinus s.data = true
  · rw [if_pos hm]
    have := hneg hm
    congr 1
    omega
  · rw [if_neg hm]
    have := hpos (by simpa using hm)
    congr 1
    omega



theorem addr12_eq (x : Nat) : addr12 x = x % 4096 :=
  Nat.and_pow_two_sub_one_eq_mod x 12

theorem LO12_eq (w : Nat) : LO12 w = w % 4096 :=
  Nat.and_pow_two_sub_one_eq_mod w 12

theorem HI4_eq (w : Nat) : HI4 w = w / 4096 % 16 := by
  unfold HI4
  rw [Nat.shiftRight_eq_div_pow]
  exact Nat.and_pow_two_sub_one_eq_mod _ 4

theorem op4_eq (k : Nat) (hk : k < 16) : op4 k = k * 4096 := by
  unfold op4
  rw [Nat.shiftLeft_eq, show k &&& 0xF = k % 16 from Nat.and_pow_two_sub_one_eq_mod k 4]
  omega

/-- An opcode joined to a 12-bit operand by `|` is their sum. -/
theorem op4_or (k r : Nat) (hk : k < 16) (hr : r < 4096) :
    op4 k ||| r = k * 4096 + r := by
  rw [op4_eq k hk, Nat.mul_comm k 4096]
  exact (Nat.mul_add_lt_is_or (i := 12) hr k).symm

theorem HI4_word (k r : Nat) (hk : k < 16) (hr : r < 4096) : HI4 (k * 4096 + r) = k := by
  rw [HI4_eq]; omega

theorem LO12_word (k r : Nat) (hr : r < 4096) : LO12 (k * 4096 + r) = r := by
  rw [LO12_eq]; omega

/-- The lambda `resolve` on an uppercased numeric literal that no label
shadows. -/
theorem resolve_literal (sym : SymTab) (s : String) (v : Int)
    (hlit : literalValue s = some v) (hr : v.natAbs ≤ ULONG_MAX)
    (hsym : sym (upper s) = none) :
    resolve sym (upper s) = (v % 18446744073709551616).toNat % 65536 := by
  obtain ⟨c, t, hs, _⟩ := literal_head s v hlit
  have hne : upper s ≠ "" := by
    intro h
    have hd : (upper s).data = [] := by rw [h]
    have : (upper s).data = c.toUpper :: t.map Char.toUpper := by
      show s.data.map Char.toUpper = _
      rw [hs, List.map_cons]
    rw [this] at hd
    exact List.cons_ne_nil _ _ hd
  unfold resolve
  rw [if_neg hne, hsym, stoul_literal s v hlit hr]

/-- The lambda `A` on an uppercased numeric literal that no label shadows. -/
theorem A_literal (sym : SymTab) (k : Nat) (hk : k < 16) (s : String) (v : Int)
    (hlit : literalValue s = some v) (hr : v.natAbs ≤ ULONG_MAX)
    (hsym : sym (upper s) = none) :
    A sym k (upper s) = k * 4096 + (v % 4096).toNat := by
  unfold A
  rw [resolve_literal sym s v hlit hr hsym, addr12_eq, op4_or k _ hk (Nat.mod_lt _ (by norm_num))]
  congr 1
  omega

/-- C4 (amended). For a line whose mnemonic, in any letter case, is LOAD,
STORE, ADD, SUBT, JUMP, ADDI or JUMPI and whose operand is a numeric literal
of value `v` that `stoul` accepts (its magnitude is at most `ULONG_MAX`) and
that no label shadows, the word is `opcode * 4096 + v mod 4096`, and the
simulator decodes it to `(opcode, v mod 4096)`. -/
theorem pass2_address_word (sym : SymTab) (a : AsmLine) (opc : Nat) (v : Int)
    (hop : (upper a.op, opc) ∈ addressOpcodes)
    (hlit : literalValue a.arg = some v) (hr : v.natAbs ≤ ULONG_MAX)
    (hsym : sym (upper a.arg) = none) :
    encodeWord sym a = opc * 4096 + (v % 4096).toNat ∧
    HI4 (encodeWord sym a) = opc ∧
    LO12 (encodeWord sym a) = (v % 4096).toNat := by
  have hlow : (v % 4096).toNat < 4096 := by omega
  have hword : opc < 16 ∧ encodeWord sym a = opc * 4096 + (v % 4096).toNat := by
    simp only [addressOpcodes, List.mem_cons, Prod.mk.injEq, List.mem_singleton,
      List.mem_nil_iff, or_false] at hop
    rcases hop with ⟨h, rfl⟩ | ⟨h, rfl⟩ | ⟨h, rfl⟩ | ⟨h, rfl⟩ | ⟨h, rfl⟩ | ⟨h, rfl⟩ | ⟨h, rfl⟩ <;>
      refine ⟨by norm_num, ?_⟩ <;>
      rw [← A_literal sym _ (by norm_num) a.arg v hlit hr hsym] <;>
      unfold encodeWord <;>
      simp [h]
  obtain ⟨hk, hw⟩ := hword
  rw [hw]
  exact ⟨rfl, HI4_word opc _ hk hlow, LO12_word opc _ hlow⟩

/-- Witness for C4: `jump 0x1234`, whose operand is out of the 12-bit range. -/
theorem pass2_address_word_witness :
    encodeWord (fun _ => none) ⟨"", "jump", "0x1234", "jump 0x1234", 1⟩
      = 0x9 * 4096 + ((0x1234 : Int) % 4096).toNat ∧
    HI4 (encodeWord (fun _ => none) ⟨"", "jump", "0x1234", "jump 0x1234", 1⟩) = 0x9 ∧
    LO12 (encodeWord (fun _ => none) ⟨"", "jump", "0x1234", "jump 0x1234", 1⟩)
      = ((0x1234 : Int) % 4096).toNat :=
  pass2_address_word (fun _ => none) ⟨"", "jump", "0x1234", "jump 0x1234", 1⟩ 0x9 0x1234
    (by decide) (by decide) (by decide) rfl

/-- C4 as stated fails: `LOAD 18446744073709551617` carries the decimal
literal `2^64 + 1`, whose value modulo 4096 is 1, but `stoul` rejects it and
the word is `0x1000`, not `0x1001`. -/
theorem pass2_address_word_counterexample :
    literalValue "18446744073709551617" = some 18446744073709551617 ∧
    ((18446744073709551617 : Int) % 4096).toNat = 1 ∧
    (fun _ => none : SymTab) (upper "18446744073709551617") = none ∧
    encodeWord (fun _ => none) ⟨"", "LOAD", "18446744073709551617", "", 1⟩ = 0x1000 ∧
    encodeWord (fun _ => none) ⟨"", "LOAD", "18446744073709551617", "", 1⟩
      ≠ 0x1 * 4096 + ((18446744073709551617 : Int) % 4096).toNat := by
  refine ⟨by decide, by decide, rfl, by decide, by decide⟩

/-! ### `pass2`: labels, SKIPCOND and the operand-less mnemonics -/

/-- A label without lower-case letters that the symbol table binds to an
address below 4096 is resolved to that address by every address-taking
mnemonic. -/
theorem encodeWord_label (sym : SymTab) (a : AsmLine) (opc k : Nat)
    (hop : (upper a.op, opc) ∈ addressOpcodes)
    (harg : upper a.arg ≠ "") (hsym : sym (upper a.arg) = some k) (hk : k < 4096) :
    encodeWord sym a = opc * 4096 + k ∧ LO12 (encodeWord sym a) = k := by
  have hA : ∀ n, n < 16 → A sym n (upper a.arg) = n * 4096 + k := by
    intro n hn
    unfold A resolve
    rw [if_neg harg, hsym, addr12_eq, op4_or n _ hn (Nat.mod_lt _ (by norm_num)),
      Nat.mod_eq_of_lt hk]
  have hword : encodeWord sym a = opc * 4096 + k := by
    simp only [addressOpcodes, List.mem_cons, Prod.mk.injEq, List.mem_singleton,
      List.mem_nil_iff, or_false] at hop
    rcases hop with ⟨h, rfl⟩ | ⟨h, rfl⟩ | ⟨h, rfl⟩ | ⟨h, rfl⟩ | ⟨h, rfl⟩ | ⟨h, rfl⟩ | ⟨h, rfl⟩ <;>
      rw [← hA _ (by norm_num)] <;>
      unfold encodeWord <;>
      simp [h]
  rw [hword]
  exact ⟨rfl, LO12_word opc k hk⟩

/-- Label resolution across the two passes for labels without lower-case
letters: in a program of at most 4096 lines without a repeated label, an
address-taking line whose operand is the label of line `k` gets `k` in the low
12 bits of its word. -/
theorem label_operand_resolves (lines : List AsmLine) (hlen : lines.length ≤ 4096)
    (hnodup : ∀ j, j < lines.length → ¬ Repeats lines j)
    (k : Nat) (L : String) (hL : L ≠ "") (hk : labelAt lines k = some L)
    (hupper : upper L = L)
    (a : AsmLine) (opc : Nat) (hop : (upper a.op, opc) ∈ addressOpcodes)
    (harg : a.arg = L) :
    LO12 (encodeWord (Assembler.fresh lines).pass1.2.sym a) = k := by
  obtain ⟨sym', hrun, hsym⟩ := pass1Loop_no_repeat lines hnodup
  have hklt : k < lines.length := labelAt_lt hk
  have hbind : (Assembler.fresh lines).pass1.2.sym L = some k := by
    simp only [Assembler.pass1, Assembler.fresh, hrun]
    exact (hsym L k).mpr ⟨hL, k, hk, (Nat.mod_eq_of_lt (by omega)).symm⟩
  exact (encodeWord_label _ a opc k hop (by rw [harg, hupper]; exact hL)
    (by rw [harg, hupper]; exact hbind) (by omega)).2

/-- C5 fails on the code: in the two-line program `JUMP end` / `end: HALT`
the first pass binds `end` to 1, but the second pass looks up the uppercased
operand `END`, finds nothing, and emits `9000`: the low 12 bits are 0, not
1. -/
theorem label_operand_lower_case :
    (Assembler.fresh sampleLowerLabel).pass1.1 = true ∧
    (Assembler.fresh sampleLowerLabel).pass1.2.sym "end" = some 1 ∧
    labelAt sampleLowerLabel 1 = some "end" ∧
    encodeWord (Assembler.fresh sampleLowerLabel).pass1.2.sym
      ⟨"", "JUMP", "end", "JUMP end", 1⟩ = 0x9000 ∧
    LO12 (encodeWord (Assembler.fresh sampleLowerLabel).pass1.2.sym
      ⟨"", "JUMP", "end", "JUMP end", 1⟩) = 0 ∧
    ((Assembler.fresh sampleLowerLabel).pass1.2.pass2 []).2 = ["9000", "7000"] := by
  refine ⟨by decide, by decide, by decide, by decide, by decide, by decide⟩

/-- C6 (amended). A SKIPCOND line emits `0x8000` for the operand text `LT`
or `0`, `0x8400` for `ZE` or `400`, `0x8800` for `GT` or `800` (letters in any
case), and `0x8000` for every other operand text; whatever the operand, the
word has high nibble 8 and no bit set outside bits 15..12 and 11..9. -/
theorem pass2_skipcond_word (sym : SymTab) (a : AsmLine)
    (hop : upper a.op = "SKIPCOND") :
    (upper a.arg = "LT" ∨ upper a.arg = "0" → encodeWord sym a = 0x8000) ∧
    (upper a.arg = "ZE" ∨ upper a.arg = "400" → encodeWord sym a = 0x8400) ∧
    (upper a.arg = "GT" ∨ upper a.arg = "800" → encodeWord sym a = 0x8800) ∧
    (upper a.arg ∉ ["LT", "0", "ZE", "400", "GT", "800"] → encodeWord sym a = 0x8000) ∧
    HI4 (encodeWord sym a) = 0x8 ∧
    encodeWord sym a &&& 0x01FF = 0 ∧ encodeWord sym a < 65536 := by
  have hword : encodeWord sym a = op4 0x8 |||
      ((if upper a.arg = "LT" ∨ upper a.arg = "0" then 0x000
        else if upper a.arg = "ZE" ∨ upper a.arg = "400" then 0x400
        else if upper a.arg = "GT" ∨ upper a.arg = "800" then 0x800
        else 0) &&& 0x0E00) := by
    unfold encodeWord
    simp [hop]
  rw [hword]
  refine ⟨?_, ?_, ?_, ?_, ?_⟩
  · intro h
    rw [if_pos h]; decide
  · intro h
    have h1 : ¬ (upper a.arg = "LT" ∨ upper a.arg = "0") := by
      rcases h with h | h <;> rw [h] <;> decide
    rw [if_neg h1, if_pos h]; decide
  · intro h
    have h1 : ¬ (upper a.arg = "LT" ∨ upper a.arg = "0") := by
      rcases h with h | h <;> rw [h] <;> decide
    have h2 : ¬ (upper a.arg = "ZE" ∨ upper a.arg = "400") := by
      rcases h with h | h <;> rw [h] <;> decide
    rw [if_neg h1, if_neg h2, if_pos h]; decide
  · intro h
    simp only [List.mem_cons, List.mem_singleton, List.mem_nil_iff, or_false, not_or] at h
    rw [if_neg (by tauto), if_neg (by tauto), if_neg (by tauto)]; decide
  · split_ifs <;> decide

/-- Witness for C6: `skipcond ze`. -/
theorem pass2_skipcond_word_witness :
    encodeWord (fun _ => none) ⟨"", "skipcond", "ze", "skipcond ze", 1⟩ = 0x8400 :=
  (pass2_skipcond_word (fun _ => none) ⟨"", "skipcond", "ze", "skipcond ze", 1⟩
    (by decide)).2.1 (Or.inl (by decide))

/-- C6 as stated fails: the numeric codes `0x400` and `0x800`, written as the
assembler writes numbers elsewhere (`0x400`, `1024`, `0x800`), are not among
the operand texts the SKIPCOND branch compares with, and the word is
`0x8000`. -/
theorem pass2_skipcond_word_counterexample :
    encodeWord (fun _ => none) ⟨"", "SKIPCOND", "0x400", "SKIPCOND 0x400", 1⟩ = 0x8000 ∧
    encodeWord (fun _ => none) ⟨"", "SKIPCOND", "0x400", "SKIPCOND 0x400", 1⟩ ≠ 0x8400 ∧
    encodeWord (fun _ => none) ⟨"", "SKIPCOND", "1024", "SKIPCOND 1024", 1⟩ = 0x8000 ∧
    encodeWord (fun _ => none) ⟨"", "SKIPCOND", "0x800", "SKIPCOND 0x800", 1⟩ = 0x8000 ∧
    encodeWord (fun _ => none) ⟨"", "SKIPCOND", "0x800", "SKIPCOND 0x800", 1⟩ ≠ 0x8800 := by
  refine ⟨by decide, by decide, by decide, by decide, by decide⟩

/-- The operand-less mnemonics when the symbol table has no label `0` (or
binds it to a multiple of 4096): the words are `0x5000`, `0x6000`, `0x7000`;
CLEAR gives `0xB000` and a label-only line `0x0000` with every table. -/
theorem pass2_operandless_word (sym : SymTab) (a : AsmLine) :
    (upper a.op = "" → encodeWord sym a = 0x0000) ∧
    (upper a.op = "CLEAR" → encodeWord sym a = 0xB000) ∧
    (resolve sym "0" % 4096 = 0 →
      (upper a.op = "INPUT" → encodeWord sym a = 0x5000) ∧
      (upper a.op = "OUTPUT" → encodeWord sym a = 0x6000) ∧
      (upper a.op = "HALT" → encodeWord sym a = 0x7000)) ∧
    (sym "0" = none → resolve sym "0" = 0) := by
  refine ⟨?_, ?_, ?_, ?_⟩
  · intro h; unfold encodeWord; simp [h]
  · intro h; unfold encodeWord; simp [h]; decide
  · intro h0
    have hA : ∀ n, n < 16 → A sym n "0" = n * 4096 := by
      intro n hn
      unfold A
      rw [addr12_eq, h0, op4_eq n hn]
      simp
    refine ⟨?_, ?_, ?_⟩ <;> intro h <;> unfold encodeWord <;> simp [h] <;>
      rw [hA _ (by norm_num)]
  · intro h
    unfold resolve
    rw [if_neg (by decide), h]
    decide

/-- C7 fails on the code: in the program `INPUT` / `0: OUTPUT` / `HALT` /
`CLEAR` the first pass binds the label `0` to address 1, `resolve` finds the
literal operand `"0"` of the operand-less mnemonics in the symbol table, and
the words are `5001`, `6001`, `7001` instead of `5000`, `6000`, `7000`; only
CLEAR, which does not go through `resolve`, gives `B000`. -/
theorem operandless_label_zero :
    (Assembler.fresh sampleLabelZero).pass1.1 = true ∧
    (Assembler.fresh sampleLabelZero).pass1.2.sym "0" = some 1 ∧
    encodeWord (Assembler.fresh sampleLabelZero).pass1.2.sym
      ⟨"", "HALT", "", "HALT", 3⟩ = 0x7001 ∧
    ((Assembler.fresh sampleLabelZero).pass1.2.pass2 []).2
      = ["5001", "6001", "7001", "B000"] := by
  refine ⟨by decide, by decide, by decide, by decide⟩

/-! ### The loader reads back what the assembler writes -/

theorem hexDigit_toNat (d : Nat) (hd : d < 16) :
    (hexDigit d).toNat = if d < 10 then 48 + d else 55 + d := by
  interval_cases d <;> rfl

theorem digitValue_hexDigit (d : Nat) (hd : d < 16) : digitValue (hexDigit d) = d := by
  unfold digitValue
  rw [hexDigit_toNat d hd]
  split_ifs <;> omega

/-- The characters of `HEX4 w`. -/
theorem HEX4_data (w : Nat) :
    (HEX4 w).data = [hexDigit (w % 65536 / 4096), hexDigit (w % 4096 / 256),
      hexDigit (w % 256 / 16), hexDigit (w % 16)] := rfl

/-- A hexadecimal digit is none of the characters the loader and `strtoul`
treat specially. -/
theorem hexDigit_plain (d : Nat) (hd : d < 16) :
    isspace (hexDigit d) = false ∧ (hexDigit d).toNat ≠ 59 ∧ (hexDigit d).toNat ≠ 35 ∧
    (hexDigit d).toNat ≠ 64 ∧ (hexDigit d).toNat ≠ 45 ∧ (hexDigit d).toNat ≠ 43 ∧
    (hexDigit d).toNat ≠ 120 ∧ (hexDigit d).toNat ≠ 88 := by
  refine ⟨isspace_of_digit (b := 16) (by norm_num) (by rw [digitValue_hexDigit d hd]; exact hd),
    ?_, ?_, ?_, ?_, ?_, ?_, ?_⟩ <;>
  · rw [hexDigit_toNat d hd]; split_ifs <;> omega

/-- Four hexadecimal digits are read back by `stoul` in base 16. -/
theorem stoul_hex4 (d3 d2 d1 d0 : Nat) (h3 : d3 < 16) (h2 : d2 < 16) (h1 : d1 < 16)
    (h0 : d0 < 16) :
    stoul (String.mk [hexDigit d3, hexDigit d2, hexDigit d1, hexDigit d0]) 16
      = some (((d3 * 16 + d2) * 16 + d1) * 16 + d0) := by
  obtain ⟨s3, -, -, -, m3, p3, -, -⟩ := hexDigit_plain d3 h3
  obtain ⟨-, -, -, -, -, -, x2, X2⟩ := hexDigit_plain d2 h2
  have hscan : strtoScan [hexDigit d3, hexDigit d2, hexDigit d1, hexDigit d0] 16
      = ⟨true, false, ((d3 * 16 + d2) * 16 + d1) * 16 + d0⟩ := by
    unfold strtoScan
    rw [List.dropWhile_cons_of_neg (by rw [s3]; simp)]
    simp [hasSign, hasMinus, m3, p3, scanBody, hasHexPrefix, x2, X2, scanDigits,
      digitValue_hexDigit, h3, h2, h1, h0]
  unfold stoul
  simp only [hscan]
  unfold ULONG_MAX
  rw [if_neg (by simp), if_neg (by omega), if_neg (by simp)]

/-- The function `stoul` reads `HEX4 w` back as the 16-bit word. -/
theorem stoul_HEX4 (w : Nat) : stoul (HEX4 w) 16 = some (w % 65536) := by
  unfold HEX4
  rw [stoul_hex4 _ _ _ _ (by omega) (by omega) (by omega) (by omega)]
  congr 1
  omega

theorem cleanLine_HEX4 (w : Nat) : cleanLine (HEX4 w) = (HEX4 w).data := by
  obtain ⟨s3, a3, b3, -⟩ := hexDigit_plain (w % 65536 / 4096) (by omega)
  obtain ⟨s2, a2, b2, -⟩ := hexDigit_plain (w % 4096 / 256) (by omega)
  obtain ⟨s1, a1, b1, -⟩ := hexDigit_plain (w % 256 / 16) (by omega)
  obtain ⟨s0, a0, b0, -⟩ := hexDigit_plain (w % 16) (by omega)
  unfold cleanLine
  rw [HEX4_data]
  simp [List.takeWhile, List.filter, s3, a3, b3, s2, a2, b2, s1, a1, b1, s0, a0, b0]

theorem cleanLine_at_HEX4 (i : Nat) :
    cleanLine ("@" ++ HEX4 i) = '@' :: (HEX4 i).data := by
  obtain ⟨s3, a3, b3, -⟩ := hexDigit_plain (i % 65536 / 4096) (by omega)
  obtain ⟨s2, a2, b2, -⟩ := hexDigit_plain (i % 4096 / 256) (by omega)
  obtain ⟨s1, a1, b1, -⟩ := hexDigit_plain (i % 256 / 16) (by omega)
  obtain ⟨s0, a0, b0, -⟩ := hexDigit_plain (i % 16) (by omega)
  have hat : isspace '@' = false := by decide
  unfold cleanLine
  rw [String.data_append, HEX4_data]
  simp [List.takeWhile, List.filter, hat, s3, a3, b3, s2, a2, b2, s1, a1, b1, s0, a0, b0]

/-- One data line `HEX4 w` stores `w` at the current address and moves on. -/
theorem loadLoop_word (w : Nat) (hw : w < 65536) (rest : List String)
    (mem : Nat → Nat) (addr : Nat) (ha : addr < 4096) :
    loadLoop (HEX4 w :: rest) mem addr
      = loadLoop rest (fun a => if a = addr then w else mem a) (addr + 1) := by
  have hd : (HEX4 w).data ≠ [] := by rw [HEX4_data]; exact List.cons_ne_nil _ _
  have hhead : ((HEX4 w).data.head?.map Char.toNat) ≠ some 64 := by
    rw [HEX4_data]
    simp only [List.head?_cons, Option.map_some', ne_eq, Option.some.injEq]
    exact (hexDigit_plain _ (by omega)).2.2.2.1
  rw [loadLoop]
  simp only [cleanLine_HEX4]
  rw [if_neg hd, if_neg hhead]
  have hs : String.mk (HEX4 w).data = HEX4 w := rfl
  rw [hs, stoul_HEX4]
  simp only []
  rw [if_pos ha]
  have h1 : (w % 65536 &&& 0xFFFF) % 65536 = w := by
    rw [show (0xFFFF : Nat) = 2 ^ 16 - 1 from rfl, Nat.and_pow_two_sub_one_eq_mod]
    omega
  have h2 : (addr + 1) % 65536 = addr + 1 := by omega
  rw [h1, h2]

/-- One directive `@` `HEX4 i` sets the current address. -/
theorem loadLoop_directive (i : Nat) (hi : i < 4096) (rest : List String)
    (mem : Nat → Nat) (addr : Nat) :
    loadLoop (("@" ++ HEX4 i) :: rest) mem addr = loadLoop rest mem i := by
  rw [loadLoop]
  simp only [cleanLine_at_HEX4]
  rw [if_neg (List.cons_ne_nil _ _),
    if_pos (show Option.map Char.toNat ('@' :: (HEX4 i).data).head? = some 64 from rfl)]
  have hs : String.mk (('@' :: (HEX4 i).data).drop 1) = HEX4 i := rfl
  rw [hs, stoul_HEX4]
  simp only []
  have h1 : (i % 65536 &&& 0x0FFF) % 65536 = i := by
    rw [show (0x0FFF : Nat) = 2 ^ 12 - 1 from rfl, Nat.and_pow_two_sub_one_eq_mod]
    omega
  rw [h1]

/-- The image after loading a plain listing at `addr`. -/
theorem loadLoop_listing (ws : List Nat) : ∀ (mem : Nat → Nat) (addr : Nat),
    addr + ws.length ≤ 4096 → (∀ w ∈ ws, w < 65536) →
    loadLoop (ws.map HEX4) mem addr
      = .ok (fun a => if addr ≤ a ∧ a < addr + ws.length then ws.getD (a - addr) 0
          else mem a) := by
  induction ws with
  | nil =>
    intro mem addr _ _
    rw [List.map_nil, loadLoop]
    congr 1
    funext a
    have : ¬ (addr ≤ a ∧ a < addr + ([] : List Nat).length) := by
      simp only [List.length_nil]; omega
    rw [if_neg this]
  | cons w ws ih =>
    intro mem addr hlen hw
    simp only [List.length_cons] at hlen
    rw [List.map_cons, loadLoop_word w (hw w (List.mem_cons_self _ _)) _ _ _ (by omega),
      ih _ _ (by omega) (fun x hx => hw x (List.mem_cons_of_mem _ hx))]
    congr 1
    funext a
    by_cases h1 : a = addr
    · subst h1
      simp
    · by_cases h2 : addr + 1 ≤ a ∧ a < addr + 1 + ws.length
      · have h3 : addr ≤ a ∧ a < addr + (w :: ws).length := by
          simp only [List.length_cons]; omega
        rw [if_pos h2, if_pos h3]
        have : a - addr = (a - (addr + 1)) + 1 := by omega
        rw [this, List.getD_cons_succ]
      · have h3 : ¬ (addr ≤ a ∧ a < addr + (w :: ws).length) := by
          simp only [List.length_cons]; omega
        rw [if_neg h2, if_neg h3, if_neg h1]

/-- The image after loading the listing with a directive before every
word. -/
theorem loadLoop_addressed (ws : List Nat) : ∀ (mem : Nat → Nat) (i addr : Nat),
    i + ws.length ≤ 4096 → (∀ w ∈ ws, w < 65536) →
    loadLoop (addressedListing i ws) mem addr
      = .ok (fun a => if i ≤ a ∧ a < i + ws.length then ws.getD (a - i) 0
          else mem a) := by
  induction ws with
  | nil =>
    intro mem i addr _ _
    rw [addressedListing, loadLoop]
    congr 1
    funext a
    have : ¬ (i ≤ a ∧ a < i + ([] : List Nat).length) := by
      simp only [List.length_nil]; omega
    rw [if_neg this]
  | cons w ws ih =>
    intro mem i addr hlen hw
    simp only [List.length_cons] at hlen
    rw [addressedListing, loadLoop_directive i (by omega),
      loadLoop_word w (hw w (List.mem_cons_self _ _)) _ _ _ (by omega),
      ih _ _ _ (by omega) (fun x hx => hw x (List.mem_cons_of_mem _ hx))]
    congr 1
    funext a
    by_cases h1 : a = i
    · subst h1
      simp
    · by_cases h2 : i + 1 ≤ a ∧ a < i + 1 + ws.length
      · have h3 : i ≤ a ∧ a < i + (w :: ws).length := by
          simp only [List.length_cons]; omega
        rw [if_pos h2, if_pos h3]
        have : a - i = (a - (i + 1)) + 1 := by omega
        rw [this, List.getD_cons_succ]
      · have h3 : ¬ (i ≤ a ∧ a < i + (w :: ws).length) := by
          simp only [List.length_cons]; omega
        rw [if_neg h2, if_neg h3, if_neg h1]

/-- C8. For at most 4096 words of 16 bits, loading the listing of their
`HEX4` renderings into zeroed memory succeeds and gives `MEM[i] = w_i` for
every `i < n` and `MEM[j] = 0` for every `j ≥ n`; loading the listing that
puts the directive `@` `HEX4 i` before every word `w_i` succeeds too and gives
the same memory. -/
theorem listing_loader_round_trip (m : Marie) (ws : List Nat)
    (hzero : ∀ a, m.MEM a = 0) (hlen : ws.length ≤ 4096)
    (hw : ∀ w ∈ ws, w < 65536) :
    ∃ m1 m2 : Marie,
      m.loadProgram (ws.map HEX4) = .ok m1 ∧
      (∀ i w, ws[i]? = some w → m1.MEM i = w) ∧
      (∀ j, ws.length ≤ j → m1.MEM j = 0) ∧
      m.loadProgram (addressedListing 0 ws) = .ok m2 ∧
      m2.MEM = m1.MEM := by
  have h1 := loadLoop_listing ws m.MEM 0 (by omega) hw
  have h2 := loadLoop_addressed ws m.MEM 0 0 (by omega) hw
  generalize hmem : (fun a => if 0 ≤ a ∧ a < 0 + ws.length then ws.getD (a - 0) 0
    else m.MEM a) = mem at h1 h2
  refine ⟨{ m with MEM := mem }, { m with MEM := mem }, ?_, ?_, ?_, ?_, rfl⟩
  · unfold Marie.loadProgram
    rw [h1]
  · intro i w hi
    have hlt : i < ws.length := by
      by_contra hge
      rw [List.getElem?_eq_none (Nat.le_of_not_lt hge)] at hi
      exact Option.noConfusion hi
    subst hmem
    simp [hlt, List.getD_eq_getElem?_getD, hi]
  · intro j hj
    have : ¬ j < ws.length := by omega
    subst hmem
    simp [this, hzero]
  · unfold Marie.loadProgram
    rw [h2]

/-- Witness for C8: three words loaded into a fresh machine. -/
theorem listing_loader_round_trip_witness :
    ∃ m1 m2 : Marie,
      (Marie.init (fun _ => 0) []).loadProgram ([0x1004, 0x7000, 0xFFFF].map HEX4) = .ok m1 ∧
      (∀ i w, [0x1004, 0x7000, 0xFFFF][i]? = some w → m1.MEM i = w) ∧
      (∀ j, [0x1004, 0x7000, 0xFFFF].length ≤ j → m1.MEM j = 0) ∧
      (Marie.init (fun _ => 0) []).loadProgram (addressedListing 0 [0x1004, 0x7000, 0xFFFF])
        = .ok m2 ∧
      m2.MEM = m1.MEM :=
  listing_loader_round_trip (Marie.init (fun _ => 0) []) [0x1004, 0x7000, 0xFFFF]
    (fun _ => rfl) (by decide) (by decide)

/-! ### What each assignment does to each field of the machine -/

/-- The assignment `AC = v`, field by field. -/
@[simp]
theorem Marie.setAC_fields (m : Marie) (v : Int) :
    (m.setAC v).AC = v ∧
    (m.setAC v).MBR = m.MBR ∧
    (m.setAC v).PC = m.PC ∧
    (m.setAC v).IR = m.IR ∧
    (m.setAC v).MAR = m.MAR ∧
    (m.setAC v).MEM = m.MEM ∧
    (m.setAC v).icount = m.icount ∧
    (m.setAC v).trace_console = m.trace_console ∧
    (m.setAC v).cin = m.cin ∧
    (m.setAC v).cinFail = m.cinFail ∧
    (m.setAC v).cout = m.cout ∧
    (m.setAC v).cerr = m.cerr := by
  cases m
  exact ⟨rfl, rfl, rfl, rfl, rfl, rfl, rfl, rfl, rfl, rfl, rfl, rfl⟩

/-- The assignment `MBR = v`, field by field. -/
@[simp]
theorem Marie.setMBR_fields (m : Marie) (v : Int) :
    (m.setMBR v).AC = m.AC ∧
    (m.setMBR v).MBR = v ∧
    (m.setMBR v).PC = m.PC ∧
    (m.setMBR v).IR = m.IR ∧
    (m.setMBR v).MAR = m.MAR ∧
    (m.setMBR v).MEM = m.MEM ∧
    (m.setMBR v).icount = m.icount ∧
    (m.setMBR v).trace_console = m.trace_console ∧
    (m.setMBR v).cin = m.cin ∧
    (m.setMBR v).cinFail = m.cinFail ∧
    (m.setMBR v).cout = m.cout ∧
    (m.setMBR v).cerr = m.cerr := by
  cases m
  exact ⟨rfl, rfl, rfl, rfl, rfl, rfl, rfl, rfl, rfl, rfl, rfl, rfl⟩

/-- The assignment `PC = v`, field by field. -/
@[simp]
theorem Marie.setPC_fields (m : Marie) (v : Nat) :
    (m.setPC v).AC = m.AC ∧
    (m.setPC v).MBR = m.MBR ∧
    (m.setPC v).PC = v ∧
    (m.setPC v).IR = m.IR ∧
    (m.setPC v).MAR = m.MAR ∧
    (m.setPC v).MEM = m.MEM ∧
    (m.setPC v).icount = m.icount ∧
    (m.setPC v).trace_console = m.trace_console ∧
    (m.setPC v).cin = m.cin ∧
    (m.setPC v).cinFail = m.cinFail ∧
    (m.setPC v).cout = m.cout ∧
    (m.setPC v).cerr = m.cerr := by
  cases m
  exact ⟨rfl, rfl, rfl, rfl, rfl, rfl, rfl, rfl, rfl, rfl, rfl, rfl⟩

/-- The assignment `IR = v`, field by field. -/
@[simp]
theorem Marie.setIR_fields (m : Marie) (v : Nat) :
    (m.setIR v).AC = m.AC ∧
    (m.setIR v).MBR = m.MBR ∧
    (m.setIR v).PC = m.PC ∧
    (m.setIR v).IR = v ∧
    (m.setIR v).MAR = m.MAR ∧
    (m.setIR v).MEM = m.MEM ∧
    (m.setIR v).icount = m.icount ∧
    (m.setIR v).trace_console = m.trace_console ∧
    (m.setIR v).cin = m.cin ∧
    (m.setIR v).cinFail = m.cinFail ∧
    (m.setIR v).cout = m.cout ∧
    (m.setIR v).cerr = m.cerr := by
  cases m
  exact ⟨rfl, rfl, rfl, rfl, rfl, rfl, rfl, rfl, rfl, rfl, rfl, rfl⟩

/-- The assignment `MAR = v`, field by field. -/
@[simp]
theorem Marie.setMAR_fields (m : Marie) (v : Nat) :
    (m.setMAR v).AC = m.AC ∧
    (m.setMAR v).MBR = m.MBR ∧
    (m.setMAR v).PC = m.PC ∧
    (m.setMAR v).IR = m.IR ∧
    (m.setMAR v).MAR = v ∧
    (m.setMAR v).MEM = m.MEM ∧
    (m.setMAR v).icount = m.icount ∧
    (m.setMAR v).trace_console = m.trace_console ∧
    (m.setMAR v).cin = m.cin ∧
    (m.setMAR v).cinFail = m.cinFail ∧
    (m.setMAR v).cout = m.cout ∧
    (m.setMAR v).cerr = m.cerr := by
  cases m
  exact ⟨rfl, rfl, rfl, rfl, rfl, rfl, rfl, rfl, rfl, rfl, rfl, rfl⟩

/-- The assignment `MEM[i] = v`, field by field. -/
@[simp]
theorem Marie.write_fields (m : Marie) (i v : Nat) :
    (m.write i v).AC = m.AC ∧
    (m.write i v).MBR = m.MBR ∧
    (m.write i v).PC = m.PC ∧
    (m.write i v).IR = m.IR ∧
    (m.write i v).MAR = m.MAR ∧
    (∀ a : Nat, (m.write i v).MEM a = if a = i then v else m.MEM a) ∧
    (m.write i v).icount = m.icount ∧
    (m.write i v).trace_console = m.trace_console ∧
    (m.write i v).cin = m.cin ∧
    (m.write i v).cinFail = m.cinFail ∧
    (m.write i v).cout = m.cout ∧
    (m.write i v).cerr = m.cerr := by
  cases m
  exact ⟨rfl, rfl, rfl, rfl, rfl, fun _ => rfl, rfl, rfl, rfl, rfl, rfl, rfl⟩

/-- The statement `icount[k]++`, field by field. -/
@[simp]
theorem Marie.count_fields (m : Marie) (k : String) :
    (m.count k).AC = m.AC ∧
    (m.count k).MBR = m.MBR ∧
    (m.count k).PC = m.PC ∧
    (m.count k).IR = m.IR ∧
    (m.count k).MAR = m.MAR ∧
    (m.count k).MEM = m.MEM ∧
    (∀ x : String, (m.count k).icount x = if x = k then (m.icount k + 1) % 2 ^ 64 else m.icount x) ∧
    (m.count k).trace_console = m.trace_console ∧
    (m.count k).cin = m.cin ∧
    (m.count k).cinFail = m.cinFail ∧
    (m.count k).cout = m.cout ∧
    (m.count k).cerr = m.cerr := by
  cases m
  exact ⟨rfl, rfl, rfl, rfl, rfl, rfl, fun _ => rfl, rfl, rfl, rfl, rfl, rfl⟩

/-- Writing to `cout`, field by field. -/
@[simp]
theorem Marie.print_fields (m : Marie) (s : String) :
    (m.print s).AC = m.AC ∧
    (m.print s).MBR = m.MBR ∧
    (m.print s).PC = m.PC ∧
    (m.print s).IR = m.IR ∧
    (m.print s).MAR = m.MAR ∧
    (m.print s).MEM = m.MEM ∧
    (m.print s).icount = m.icount ∧
    (m.print s).trace_console = m.trace_console ∧
    (m.print s).cin = m.cin ∧
    (m.print s).cinFail = m.cinFail ∧
    (m.print s).cout = m.cout ++ [s] ∧
    (m.print s).cerr = m.cerr := by
  cases m
  exact ⟨rfl, rfl, rfl, rfl, rfl, rfl, rfl, rfl, rfl, rfl, rfl, rfl⟩

/-- Writing to `cerr`, field by field. -/
@[simp]
theorem Marie.printErr_fields (m : Marie) (s : String) :
    (m.printErr s).AC = m.AC ∧
    (m.printErr s).MBR = m.MBR ∧
    (m.printErr s).PC = m.PC ∧
    (m.printErr s).IR = m.IR ∧
    (m.printErr s).MAR = m.MAR ∧
    (m.printErr s).MEM = m.MEM ∧
    (m.printErr s).icount = m.icount ∧
    (m.printErr s).trace_console = m.trace_console ∧
    (m.printErr s).cin = m.cin ∧
    (m.printErr s).cinFail = m.cinFail ∧
    (m.printErr s).cout = m.cout ∧
    (m.printErr s).cerr = m.cerr ++ [s] := by
  cases m
  exact ⟨rfl, rfl, rfl, rfl, rfl, rfl, rfl, rfl, rfl, rfl, rfl, rfl⟩

/-- Setting the fail bit of `cin`, field by field. -/
@[simp]
theorem Marie.failCin_fields (m : Marie) :
    (m.failCin).AC = m.AC ∧
    (m.failCin).MBR = m.MBR ∧
    (m.failCin).PC = m.PC ∧
    (m.failCin).IR = m.IR ∧
    (m.failCin).MAR = m.MAR ∧
    (m.failCin).MEM = m.MEM ∧
    (m.failCin).icount = m.icount ∧
    (m.failCin).trace_console = m.trace_console ∧
    (m.failCin).cin = m.cin ∧
    (m.failCin).cinFail = true ∧
    (m.failCin).cout = m.cout ∧
    (m.failCin).cerr = m.cerr := by
  cases m
  exact ⟨rfl, rfl, rfl, rfl, rfl, rfl, rfl, rfl, rfl, rfl, rfl, rfl⟩

/-- Dropping the head of `cin`, field by field. -/
@[simp]
theorem Marie.popCin_fields (m : Marie) :
    (m.popCin).AC = m.AC ∧
    (m.popCin).MBR = m.MBR ∧
    (m.popCin).PC = m.PC ∧
    (m.popCin).IR = m.IR ∧
    (m.popCin).MAR = m.MAR ∧
    (m.popCin).MEM = m.MEM ∧
    (m.popCin).icount = m.icount ∧
    (m.popCin).trace_console = m.trace_console ∧
    (m.popCin).cin = m.cin.drop 1 ∧
    (m.popCin).cinFail = m.cinFail ∧
    (m.popCin).cout = m.cout ∧
    (m.popCin).cerr = m.cerr := by
  cases m
  exact ⟨rfl, rfl, rfl, rfl, rfl, rfl, rfl, rfl, rfl, rfl, rfl, rfl⟩

/-! ### The simulator, one instruction at a time -/

theorem land_0FFF (x : Nat) : x &&& 0x0FFF = x % 4096 :=
  Nat.and_pow_two_sub_one_eq_mod x 12

theorem u16_i16 (w : Nat) (hw : w < 65536) : u16 (i16 (w : Int)) = w := by
  unfold u16 i16
  omega

theorem u16_i16_add (x y : Nat) :
    u16 (i16 (i16 (x : Int) + i16 (y : Int))) = (x + y) % 65536 := by
  unfold u16 i16
  omega

/-- The fetch phase as a chain of assignments to the old machine. -/
theorem fetch_eq (m : Marie) :
    m.fetch = (((m.setMAR m.PC).setMBR (i16 (m.MEM m.PC))).setIR
      (u16 (i16 (m.MEM m.PC)))).setPC ((m.PC + 1) &&& 0x0FFF) := by
  unfold Marie.fetch
  simp only [Marie.setMAR_fields, Marie.setMBR_fields, Marie.setIR_fields]

/-- The fetch phase, register by register. -/
theorem fetch_regs (m : Marie) (hw : m.MEM m.PC < 65536) :
    m.fetch.IR = m.MEM m.PC ∧ m.fetch.PC = (m.PC + 1) % 4096 ∧
    m.fetch.MAR = m.PC ∧ m.fetch.MBR = i16 (m.MEM m.PC) ∧ m.fetch.AC = m.AC := by
  rw [fetch_eq]
  simp [u16_i16 _ hw, land_0FFF]

/-- The fetch phase leaves memory, counters and streams alone. -/
theorem fetch_frame (m : Marie) :
    m.fetch.MEM = m.MEM ∧ m.fetch.icount = m.icount ∧
    m.fetch.cin = m.cin ∧ m.fetch.cinFail = m.cinFail ∧
    m.fetch.cout = m.cout ∧ m.fetch.cerr = m.cerr := by
  rw [fetch_eq]
  simp

/-- A step is the execute phase on the fetched word. -/
theorem step_eq (m : Marie) (cyc : Nat) (hw : m.MEM m.PC < 65536) :
    m.step cyc = m.fetch.execute (HI4 (m.MEM m.PC)) (LO12 (m.MEM m.PC)) cyc := by
  unfold Marie.step
  simp only [(fetch_regs m hw).1]

theorem execute_load (m : Marie) (adr cyc : Nat) :
    m.execute 0x1 adr cyc
      = ((((m.count "LOAD").setMAR adr).setMBR (i16 (m.MEM adr))).setAC
          (i16 (m.MEM adr))).traced cyc true := by
  unfold Marie.execute
  simp

theorem execute_store (m : Marie) (adr cyc : Nat) :
    m.execute 0x2 adr cyc
      = (((m.count "STORE").setMAR adr).write adr (u16 m.AC)).traced cyc true := by
  unfold Marie.execute
  simp

theorem execute_add (m : Marie) (adr cyc : Nat) :
    m.execute 0x3 adr cyc
      = ((((m.count "ADD").setMAR adr).setMBR (i16 (m.MEM adr))).setAC
          (i16 (m.AC + i16 (m.MEM adr)))).traced cyc true := by
  unfold Marie.execute
  simp

theorem execute_subt (m : Marie) (adr cyc : Nat) :
    m.execute 0x4 adr cyc
      = ((((m.count "SUBT").setMAR adr).setMBR (i16 (m.MEM adr))).setAC
          (i16 (m.AC - i16 (m.MEM adr)))).traced cyc true := by
  unfold Marie.execute
  simp

theorem execute_halt (m : Marie) (adr cyc : Nat) :
    m.execute 0x7 adr cyc = (m.count "HALT").traced cyc false := by
  unfold Marie.execute
  simp

theorem execute_skipcond (m : Marie) (adr cyc : Nat) :
    m.execute 0x8 adr cyc = (m.skipcond adr).traced cyc true := by
  unfold Marie.execute
  simp

/-- The end of `step` changes nothing but `cout`. -/
theorem traced_fields (m : Marie) (cyc : Nat) (cont : Bool) :
    (m.traced cyc cont).1 = cont ∧
    (m.traced cyc cont).2.AC = m.AC ∧ (m.traced cyc cont).2.MBR = m.MBR ∧
    (m.traced cyc cont).2.PC = m.PC ∧ (m.traced cyc cont).2.IR = m.IR ∧
    (m.traced cyc cont).2.MAR = m.MAR ∧ (m.traced cyc cont).2.MEM = m.MEM ∧
    (m.traced cyc cont).2.icount = m.icount ∧ (m.traced cyc cont).2.cin = m.cin ∧
    (m.traced cyc cont).2.cinFail = m.cinFail ∧ (m.traced cyc cont).2.cerr = m.cerr := by
  unfold Marie.traced
  simp

/-- LOAD, field by field. -/
theorem step_load (m : Marie) (cyc : Nat) (hw : m.MEM m.PC < 65536)
    (hop : HI4 (m.MEM m.PC) = 0x1) :
    (m.step cyc).1 = true ∧
    (m.step cyc).2.AC = i16 (m.MEM (LO12 (m.MEM m.PC))) ∧
    (m.step cyc).2.PC = (m.PC + 1) % 4096 ∧
    (m.step cyc).2.MEM = m.MEM ∧
    (m.step cyc).2.IR = m.MEM m.PC ∧
    (m.step cyc).2.MAR = LO12 (m.MEM m.PC) ∧
    (m.step cyc).2.MBR = i16 (m.MEM (LO12 (m.MEM m.PC))) ∧
    (m.step cyc).2.cerr = m.cerr ∧
    (∀ k, (m.step cyc).2.icount k
      = if k = "LOAD" then (m.icount "LOAD" + 1) % 2 ^ 64 else m.icount k) := by
  obtain ⟨hir, hpc, -, -, hac⟩ := fetch_regs m hw
  obtain ⟨hmem, hcnt, -, -, -, herr⟩ := fetch_frame m
  rw [step_eq m cyc hw, hop, execute_load]
  simp [traced_fields, hir, hpc, hmem, hcnt, herr]

/-- ADD, field by field. -/
theorem step_add (m : Marie) (cyc : Nat) (hw : m.MEM m.PC < 65536)
    (hop : HI4 (m.MEM m.PC) = 0x3) :
    (m.step cyc).1 = true ∧
    (m.step cyc).2.AC = i16 (m.AC + i16 (m.MEM (LO12 (m.MEM m.PC)))) ∧
    (m.step cyc).2.PC = (m.PC + 1) % 4096 ∧
    (m.step cyc).2.MEM = m.MEM ∧
    (m.step cyc).2.IR = m.MEM m.PC ∧
    (m.step cyc).2.MAR = LO12 (m.MEM m.PC) ∧
    (m.step cyc).2.MBR = i16 (m.MEM (LO12 (m.MEM m.PC))) ∧
    (m.step cyc).2.cerr = m.cerr ∧
    (∀ k, (m.step cyc).2.icount k
      = if k = "ADD" then (m.icount "ADD" + 1) % 2 ^ 64 else m.icount k) := by
  obtain ⟨hir, hpc, -, -, hac⟩ := fetch_regs m hw
  obtain ⟨hmem, hcnt, -, -, -, herr⟩ := fetch_frame m
  rw [step_eq m cyc hw, hop, execute_add]
  simp [traced_fields, hir, hpc, hmem, hcnt, herr, hac]

/-- SUBT, field by field. -/
theorem step_subt (m : Marie) (cyc : Nat) (hw : m.MEM m.PC < 65536)
    (hop : HI4 (m.MEM m.PC) = 0x4) :
    (m.step cyc).1 = true ∧
    (m.step cyc).2.AC = i16 (m.AC - i16 (m.MEM (LO12 (m.MEM m.PC)))) ∧
    (m.step cyc).2.PC = (m.PC + 1) % 4096 ∧
    (m.step cyc).2.MEM = m.MEM ∧
    (m.step cyc).2.IR = m.MEM m.PC ∧
    (m.step cyc).2.MAR = LO12 (m.MEM m.PC) ∧
    (m.step cyc).2.MBR = i16 (m.MEM (LO12 (m.MEM m.PC))) ∧
    (m.step cyc).2.cerr = m.cerr ∧
    (∀ k, (m.step cyc).2.icount k
      = if k = "SUBT" then (m.icount "SUBT" + 1) % 2 ^ 64 else m.icount k) := by
  obtain ⟨hir, hpc, -, -, hac⟩ := fetch_regs m hw
  obtain ⟨hmem, hcnt, -, -, -, herr⟩ := fetch_frame m
  rw [step_eq m cyc hw, hop, execute_subt]
  simp [traced_fields, hir, hpc, hmem, hcnt, herr, hac]

/-- STORE, field by field. -/
theorem step_store (m : Marie) (cyc : Nat) (hw : m.MEM m.PC < 65536)
    (hop : HI4 (m.MEM m.PC) = 0x2) :
    (m.step cyc).1 = true ∧
    (m.step cyc).2.AC = m.AC ∧
    (m.step cyc).2.PC = (m.PC + 1) % 4096 ∧
    (∀ a, (m.step cyc).2.MEM a
      = if a = LO12 (m.MEM m.PC) then u16 m.AC else m.MEM a) ∧
    (m.step cyc).2.IR = m.MEM m.PC ∧
    (m.step cyc).2.MAR = LO12 (m.MEM m.PC) ∧
    (m.step cyc).2.MBR = i16 (m.MEM m.PC) ∧
    (m.step cyc).2.cerr = m.cerr ∧
    (∀ k, (m.step cyc).2.icount k
      = if k = "STORE" then (m.icount "STORE" + 1) % 2 ^ 64 else m.icount k) := by
  obtain ⟨hir, hpc, -, hmbr, hac⟩ := fetch_regs m hw
  obtain ⟨hmem, hcnt, -, -, -, herr⟩ := fetch_frame m
  rw [step_eq m cyc hw, hop, execute_store]
  simp [traced_fields, hir, hpc, hmem, hcnt, herr, hac, hmbr]

/-- HALT, field by field. -/
theorem step_halt (m : Marie) (cyc : Nat) (hw : m.MEM m.PC < 65536)
    (hop : HI4 (m.MEM m.PC) = 0x7) :
    (m.step cyc).1 = false ∧
    (m.step cyc).2.AC = m.AC ∧
    (m.step cyc).2.PC = (m.PC + 1) % 4096 ∧
    (m.step cyc).2.MEM = m.MEM ∧
    (m.step cyc).2.IR = m.MEM m.PC ∧
    (m.step cyc).2.MAR = m.PC ∧
    (m.step cyc).2.MBR = i16 (m.MEM m.PC) ∧
    (m.step cyc).2.cerr = m.cerr ∧
    (∀ k, (m.step cyc).2.icount k
      = if k = "HALT" then (m.icount "HALT" + 1) % 2 ^ 64 else m.icount k) := by
  obtain ⟨hir, hpc, hmar, hmbr, hac⟩ := fetch_regs m hw
  obtain ⟨hmem, hcnt, -, -, -, herr⟩ := fetch_frame m
  rw [step_eq m cyc hw, hop, execute_halt]
  simp [traced_fields, hir, hpc, hmem, hcnt, herr, hac, hmbr, hmar]

/-- The loop of `run` goes on after a step that returns true below the
cap. -/
theorem runLoop_continue (m : Marie) (cyc : Nat) (h : (m.step cyc).1 = true)
    (hc : cyc + 1 ≤ 1000000) :
    m.runLoop cyc = (m.step cyc).2.runLoop (cyc + 1) := by
  unfold Marie.runLoop
  rw [whileStep]
  simp only [h, if_true]
  rw [if_neg (by omega)]

/-- The loop of `run` is left after a step that returns false. -/
theorem runLoop_stop (m : Marie) (cyc : Nat) (h : (m.step cyc).1 = false) :
    m.runLoop cyc = (cyc + 1, (m.step cyc).2) := by
  unfold Marie.runLoop
  rw [whileStep]
  simp only [h, Bool.false_eq_true, if_false]

/-- The loop of `run` is left after the step that takes `cyc` beyond the
cap. -/
theorem runLoop_cap (m : Marie) (cyc : Nat) (h : (m.step cyc).1 = true)
    (hc : 1000000 < cyc + 1) :
    m.runLoop cyc = (cyc + 1, (m.step cyc).2) := by
  unfold Marie.runLoop
  rw [whileStep]
  simp only [h, if_true]
  rw [if_pos (by omega)]


/-- The condition of SKIPCOND as the simulator reads it from the low 12 bits
is the mask `0x0E00` of the whole word. -/
theorem LO12_land_0E00 (w : Nat) : LO12 w &&& 0x0E00 = w &&& 0x0E00 := by
  unfold LO12
  rw [Nat.land_assoc]
  rfl

/-- The case `0x8` of the `switch`, field by field. -/
theorem skipcond_fields (m : Marie) (adr : Nat) :
    (m.skipcond adr).AC = m.AC ∧ (m.skipcond adr).MEM = m.MEM ∧
    (m.skipcond adr).IR = m.IR ∧ (m.skipcond adr).MAR = m.MAR ∧
    (m.skipcond adr).MBR = m.MBR ∧ (m.skipcond adr).cerr = m.cerr ∧
    (m.skipcond adr).cin = m.cin ∧ (m.skipcond adr).cinFail = m.cinFail ∧
    (∀ k, (m.skipcond adr).icount k
      = if k = "SKIPCOND" then (m.icount "SKIPCOND" + 1) % 2 ^ 64 else m.icount k) ∧
    (((adr &&& 0x0E00 = 0x000 ∧ m.AC < 0) ∨ (adr &&& 0x0E00 = 0x400 ∧ m.AC = 0) ∨
        (adr &&& 0x0E00 = 0x800 ∧ m.AC > 0)) →
      (m.skipcond adr).PC = (m.PC + 1) % 4096) ∧
    (¬ ((adr &&& 0x0E00 = 0x000 ∧ m.AC < 0) ∨ (adr &&& 0x0E00 = 0x400 ∧ m.AC = 0) ∨
        (adr &&& 0x0E00 = 0x800 ∧ m.AC > 0)) →
      (m.skipcond adr).PC = m.PC) := by
  unfold Marie.skipcond
  simp only [Marie.count_fields]
  generalize adr &&& 0x0E00 = c
  refine ⟨?_, ?_, ?_, ?_, ?_, ?_, ?_, ?_, ?_, ?_, ?_⟩
  · split_ifs <;> simp
  · split_ifs <;> simp
  · split_ifs <;> simp
  · split_ifs <;> simp
  · split_ifs <;> simp
  · split_ifs <;> simp
  · split_ifs <;> simp
  · split_ifs <;> simp
  · intro k
    split_ifs <;> simp_all
  · intro h
    have htake : (if c = 0x000 then decide (m.AC < 0)
        else if c = 0x0400 then decide (m.AC = 0)
        else if c = 0x0800 then decide (m.AC > 0) else false) = true := by
      rcases h with ⟨hc, ha⟩ | ⟨hc, ha⟩ | ⟨hc, ha⟩ <;> subst hc <;> simp [ha]
    rw [if_pos htake]
    simp [land_0FFF]
  · intro h
    have htake : ¬ (if c = 0x000 then decide (m.AC < 0)
        else if c = 0x0400 then decide (m.AC = 0)
        else if c = 0x0800 then decide (m.AC > 0) else false) = true := by
      intro ht
      apply h
      split_ifs at ht with h1 h2 h3
      · exact Or.inl ⟨h1, by simpa using ht⟩
      · exact Or.inr (Or.inl ⟨h2, by simpa using ht⟩)
      · exact Or.inr (Or.inr ⟨h3, by simpa using ht⟩)
    rw [if_neg htake]
    simp

/-- C10. In a state with `PC < 4096` whose word at `MEM[PC]` has opcode 8,
with `c` the mask `0x0E00` of that word: the step returns true, leaves AC and
memory as they were, and leaves `PC = (old PC + 2) mod 4096` when `c = 0` and
`AC < 0`, or `c = 0x400` and `AC = 0`, or `c = 0x800` and `AC > 0`, and
`PC = (old PC + 1) mod 4096` otherwise.  With `AC = 0` and the word `0x8400`
the PC advances by 2. -/
theorem step_skipcond (m : Marie) (cyc : Nat) (_ : m.PC < 4096)
    (hw : m.MEM m.PC < 65536) (hop : HI4 (m.MEM m.PC) = 0x8) :
    (m.step cyc).1 = true ∧
    (m.step cyc).2.AC = m.AC ∧
    (m.step cyc).2.MEM = m.MEM ∧
    (((m.MEM m.PC &&& 0x0E00 = 0x000 ∧ m.AC < 0) ∨
      (m.MEM m.PC &&& 0x0E00 = 0x400 ∧ m.AC = 0) ∨
      (m.MEM m.PC &&& 0x0E00 = 0x800 ∧ m.AC > 0)) →
        (m.step cyc).2.PC = (m.PC + 2) % 4096) ∧
    (¬ ((m.MEM m.PC &&& 0x0E00 = 0x000 ∧ m.AC < 0) ∨
      (m.MEM m.PC &&& 0x0E00 = 0x400 ∧ m.AC = 0) ∨
      (m.MEM m.PC &&& 0x0E00 = 0x800 ∧ m.AC > 0)) →
        (m.step cyc).2.PC = (m.PC + 1) % 4096) ∧
    (m.AC = 0 → m.MEM m.PC = 0x8400 → (m.step cyc).2.PC = (m.PC + 2) % 4096) := by
  obtain ⟨hir, hfpc, -, -, hac⟩ := fetch_regs m hw
  obtain ⟨hmem, -, -, -, -, -⟩ := fetch_frame m
  obtain ⟨sac, smem, -, -, -, -, -, -, -, stake, sskip⟩ :=
    skipcond_fields m.fetch (LO12 (m.MEM m.PC))
  rw [LO12_land_0E00, hac] at stake sskip
  have htaken : ((m.MEM m.PC &&& 0x0E00 = 0x000 ∧ m.AC < 0) ∨
      (m.MEM m.PC &&& 0x0E00 = 0x400 ∧ m.AC = 0) ∨
      (m.MEM m.PC &&& 0x0E00 = 0x800 ∧ m.AC > 0)) →
        (m.step cyc).2.PC = (m.PC + 2) % 4096 := by
    intro h
    rw [step_eq m cyc hw, hop, execute_skipcond, (traced_fields _ _ _).2.2.2.1, stake h, hfpc]
    omega
  rw [step_eq m cyc hw, hop, execute_skipcond]
  refine ⟨(traced_fields _ _ _).1, ?_, ?_, ?_, ?_, ?_⟩
  · rw [(traced_fields _ _ _).2.1, sac, hac]
  · rw [(traced_fields _ _ _).2.2.2.2.2.2.1, smem, hmem]
  · rw [← execute_skipcond, ← hop, ← step_eq m cyc hw]
    exact htaken
  · intro h
    rw [(traced_fields _ _ _).2.2.2.1, sskip h, hfpc]
  · intro ha hword
    rw [← execute_skipcond, ← hop, ← step_eq m cyc hw]
    exact htaken (Or.inr (Or.inl ⟨by rw [hword]; decide, ha⟩))


/-- The four steps of `LOAD X`, `ADD Y`, `STORE Z`, `HALT` from any machine
whose PC is 0 and whose memory holds the program at 0..3, `x` at `X` and `y`
at `Y`. -/
theorem sum_program_steps (s : Marie) (X Y Z x y : Nat)
    (hX : 4 ≤ X ∧ X ≤ 4095) (hY : 4 ≤ Y ∧ Y ≤ 4095) (hZ : 4 ≤ Z ∧ Z ≤ 4095)
    (hpc : s.PC = 0)
    (h0 : s.MEM 0 = 0x1000 + X) (h1 : s.MEM 1 = 0x3000 + Y)
    (h2 : s.MEM 2 = 0x2000 + Z) (h3 : s.MEM 3 = 0x7000)
    (hmx : s.MEM X = x) (hmy : s.MEM Y = y) :
    (s.step 1).1 = true ∧
    (((s.step 1).2.step 2).1 = true) ∧
    ((((s.step 1).2.step 2).2.step 3).1 = true) ∧
    (((((s.step 1).2.step 2).2.step 3).2.step 4).1 = false) ∧
    (((((s.step 1).2.step 2).2.step 3).2.step 4).2.IR = 0x7000) ∧
    (((((s.step 1).2.step 2).2.step 3).2.step 4).2.MEM Z = (x + y) % 65536) ∧
    (((((s.step 1).2.step 2).2.step 3).2.step 4).2.cerr = s.cerr) ∧
    (((((s.step 1).2.step 2).2.step 3).2.step 4).2.icount "HALT"
      = (s.icount "HALT" + 1) % 2 ^ 64) := by
  -- LOAD X
  have w0 : s.MEM s.PC = 0x1000 + X := by rw [hpc, h0]
  obtain ⟨a1, ac1, pc1, mem1, -, -, -, err1, cnt1⟩ :=
    step_load s 1 (by rw [w0]; omega) (by rw [w0, HI4_eq]; omega)
  rw [w0, show LO12 (0x1000 + X) = X by rw [LO12_eq]; omega, hmx] at ac1
  rw [hpc] at pc1
  generalize (s.step 1).2 = s1 at *
  -- ADD Y
  have w1 : s1.MEM s1.PC = 0x3000 + Y := by rw [pc1, mem1]; exact h1
  obtain ⟨a2, ac2, pc2, mem2, -, -, -, err2, cnt2⟩ :=
    step_add s1 2 (by rw [w1]; omega) (by rw [w1, HI4_eq]; omega)
  rw [w1, show LO12 (0x3000 + Y) = Y by rw [LO12_eq]; omega, mem1, hmy, ac1] at ac2
  rw [pc1] at pc2
  rw [mem1] at mem2
  generalize (s1.step 2).2 = s2 at *
  -- STORE Z
  have w2 : s2.MEM s2.PC = 0x2000 + Z := by rw [pc2, mem2]; exact h2
  obtain ⟨a3, -, pc3, mem3, -, -, -, err3, cnt3⟩ :=
    step_store s2 3 (by rw [w2]; omega) (by rw [w2, HI4_eq]; omega)
  rw [w2, show LO12 (0x2000 + Z) = Z by rw [LO12_eq]; omega, ac2, u16_i16_add] at mem3
  rw [pc2] at pc3
  generalize (s2.step 3).2 = s3 at *
  -- HALT
  have w3 : s3.MEM s3.PC = 0x7000 := by
    rw [pc3, mem3, if_neg (by omega), mem2]; exact h3
  obtain ⟨a4, -, -, mem4, ir4, -, -, err4, cnt4⟩ :=
    step_halt s3 4 (by rw [w3]; norm_num) (by rw [w3]; decide)
  refine ⟨a1, a2, a3, a4, by rw [ir4, w3], ?_, ?_, ?_⟩
  · rw [mem4, mem3, if_pos rfl]
  · rw [err4, err3, err2, err1]
  · rw [cnt4, if_pos rfl, cnt3, if_neg (by decide), cnt2, if_neg (by decide), cnt1,
      if_neg (by decide)]

/-- The state after no call and after one more call of the body. -/
theorem afterSteps_succ {σ : Type} (step : σ → Nat → Bool × σ) (m : σ) (n : Nat) :
    afterSteps step m 0 = m ∧
    afterSteps step m (n + 1) = (step (afterSteps step m n) (n + 1)).2 :=
  ⟨rfl, rfl⟩

/-- The machine after no step and after one more step. -/
theorem after_succ (m : Marie) (n : Nat) :
    m.after 0 = m ∧ m.after (n + 1) = ((m.after n).step (n + 1)).2 := by
  unfold Marie.after
  exact afterSteps_succ Marie.step m n

/-- The machine after four steps, step by step. -/
theorem after_four (s : Marie) :
    s.after 0 = s ∧ s.after 1 = (s.step 1).2 ∧ s.after 2 = ((s.step 1).2.step 2).2 ∧
    s.after 3 = (((s.step 1).2.step 2).2.step 3).2 ∧
    s.after 4 = ((((s.step 1).2.step 2).2.step 3).2.step 4).2 := by
  have h0 : s.after 0 = s := (after_succ s 0).1
  have h1 : s.after 1 = (s.step 1).2 := by rw [(after_succ s 0).2, h0]
  have h2 : s.after 2 = ((s.step 1).2.step 2).2 := by rw [(after_succ s 1).2, h1]
  have h3 : s.after 3 = (((s.step 1).2.step 2).2.step 3).2 := by
    rw [(after_succ s 2).2, h2]
  have h4 : s.after 4 = ((((s.step 1).2.step 2).2.step 3).2.step 4).2 := by
    rw [(after_succ s 3).2, h3]
  exact ⟨h0, h1, h2, h3, h4⟩

/-- Writing pieces to `cout` one after the other changes nothing but
`cout`. -/
theorem foldl_print_fields (rows : List String) : ∀ m : Marie,
    (rows.foldl Marie.print m).AC = m.AC ∧
    (rows.foldl Marie.print m).MBR = m.MBR ∧
    (rows.foldl Marie.print m).PC = m.PC ∧
    (rows.foldl Marie.print m).IR = m.IR ∧
    (rows.foldl Marie.print m).MAR = m.MAR ∧
    (rows.foldl Marie.print m).MEM = m.MEM ∧
    (rows.foldl Marie.print m).icount = m.icount ∧
    (rows.foldl Marie.print m).trace_console = m.trace_console ∧
    (rows.foldl Marie.print m).cin = m.cin ∧
    (rows.foldl Marie.print m).cinFail = m.cinFail ∧
    (rows.foldl Marie.print m).cout = m.cout ++ rows ∧
    (rows.foldl Marie.print m).cerr = m.cerr := by
  induction rows with
  | nil =>
    intro m
    simp only [List.foldl_nil, List.append_nil, and_self]
  | cons a rest ih =>
    intro m
    obtain ⟨h1, h2, h3, h4, h5, h6, h7, h8, h9, h10, h11, h12⟩ := ih (m.print a)
    rw [List.foldl_cons]
    refine ⟨?_, ?_, ?_, ?_, ?_, ?_, ?_, ?_, ?_, ?_, ?_, ?_⟩
    · rw [h1]; simp only [Marie.print_fields]
    · rw [h2]; simp only [Marie.print_fields]
    · rw [h3]; simp only [Marie.print_fields]
    · rw [h4]; simp only [Marie.print_fields]
    · rw [h5]; simp only [Marie.print_fields]
    · rw [h6]; simp only [Marie.print_fields]
    · rw [h7]; simp only [Marie.print_fields]
    · rw [h8]; simp only [Marie.print_fields]
    · rw [h9]; simp only [Marie.print_fields]
    · rw [h10]; simp only [Marie.print_fields]
    · rw [h11]; simp only [Marie.print_fields, List.append_assoc, List.singleton_append]
    · rw [h12]; simp only [Marie.print_fields]

/-- The instruction summary changes nothing but `cout`. -/
@[simp]
theorem Marie.printInstructionSummary_fields (m : Marie) (keys : List String) :
    (m.printInstructionSummary keys).AC = m.AC ∧
    (m.printInstructionSummary keys).MBR = m.MBR ∧
    (m.printInstructionSummary keys).PC = m.PC ∧
    (m.printInstructionSummary keys).IR = m.IR ∧
    (m.printInstructionSummary keys).MAR = m.MAR ∧
    (m.printInstructionSummary keys).MEM = m.MEM ∧
    (m.printInstructionSummary keys).icount = m.icount ∧
    (m.printInstructionSummary keys).trace_console = m.trace_console ∧
    (m.printInstructionSummary keys).cin = m.cin ∧
    (m.printInstructionSummary keys).cinFail = m.cinFail ∧
    (m.printInstructionSummary keys).cout = m.cout ++ m.summaryText keys ∧
    (m.printInstructionSummary keys).cerr = m.cerr := by
  unfold Marie.printInstructionSummary
  exact foldl_print_fields _ m

/-- The memory dump changes nothing but `cout`. -/
@[simp]
theorem Marie.printMemoryDump_fields (m : Marie) (n : Nat) :
    (m.printMemoryDump n).AC = m.AC ∧
    (m.printMemoryDump n).MBR = m.MBR ∧
    (m.printMemoryDump n).PC = m.PC ∧
    (m.printMemoryDump n).IR = m.IR ∧
    (m.printMemoryDump n).MAR = m.MAR ∧
    (m.printMemoryDump n).MEM = m.MEM ∧
    (m.printMemoryDump n).icount = m.icount ∧
    (m.printMemoryDump n).trace_console = m.trace_console ∧
    (m.printMemoryDump n).cin = m.cin ∧
    (m.printMemoryDump n).cinFail = m.cinFail ∧
    (m.printMemoryDump n).cout = m.cout ++ m.dumpText n ∧
    (m.printMemoryDump n).cerr = m.cerr := by
  unfold Marie.printMemoryDump
  exact foldl_print_fields _ m

/-- The method `run` around its loop: when the loop is left with `cyc = n` on
the machine `r`, `run` ends with that `cyc` and with `r` after the status
line, the instruction summary and the memory dump. -/
theorem run_of_runLoop (m : Marie) (keys : List String) (n : Nat) (r : Marie)
    (h : (m.print
      "Cycle | PC   IR   AC    MAR  MBR\n---------------------------------\n").runLoop 1
        = (n, r)) :
    (m.run keys).1 = n ∧
    (m.run keys).2
      = ((r.print "Program halted.\n").printInstructionSummary keys).printMemoryDump 20 := by
  have e : m.run keys = (((m.print
      "Cycle | PC   IR   AC    MAR  MBR\n---------------------------------\n").runLoop 1).1,
      ((((m.print
      "Cycle | PC   IR   AC    MAR  MBR\n---------------------------------\n").runLoop 1).2.print
        "Program halted.\n").printInstructionSummary keys).printMemoryDump 20) := rfl
  rw [e, h]
  exact ⟨rfl, rfl⟩

/-- The loop of `run` when the fourth step is the first to return false. -/
theorem runLoop_four (s : Marie) (b1 : (s.step 1).1 = true)
    (b2 : ((s.step 1).2.step 2).1 = true)
    (b3 : (((s.step 1).2.step 2).2.step 3).1 = true)
    (b4 : ((((s.step 1).2.step 2).2.step 3).2.step 4).1 = false) :
    s.runLoop 1 = (5, ((((s.step 1).2.step 2).2.step 3).2.step 4).2) := by
  rw [runLoop_continue _ 1 b1 (by norm_num), runLoop_continue _ 2 b2 (by norm_num),
    runLoop_continue _ 3 b3 (by norm_num), runLoop_stop _ 4 b4]

/-- C9. From the initial state with `LOAD X`, `ADD Y`, `STORE Z`, `HALT` at
addresses 0..3, `x` at `X` and `y` at `Y` (addresses in 4..4095, 16-bit
values), `run` calls `step` exactly 4 times (`cyc` ends at 5): the first three
steps return true, the fourth returns false with the HALT word in IR, nothing
is written to `cerr` (no step takes the unsupported-opcode branch), HALT is
counted once, and `MEM[Z] = (x + y) mod 2^16` afterwards, whatever the order
`keys` in which the instruction summary visits the counters. -/
theorem load_add_store_halt (mem : Nat → Nat) (input : List (Option Int))
    (keys : List String) (X Y Z x y : Nat)
    (hX : 4 ≤ X ∧ X ≤ 4095) (hY : 4 ≤ Y ∧ Y ≤ 4095) (hZ : 4 ≤ Z ∧ Z ≤ 4095)
    (_ : x < 65536) (_ : y < 65536)
    (h0 : mem 0 = 0x1000 + X) (h1 : mem 1 = 0x3000 + Y)
    (h2 : mem 2 = 0x2000 + Z) (h3 : mem 3 = 0x7000)
    (hmx : mem X = x) (hmy : mem Y = y) :
    (((Marie.init mem input).after 0).step 1).1 = true ∧
    (((Marie.init mem input).after 1).step 2).1 = true ∧
    (((Marie.init mem input).after 2).step 3).1 = true ∧
    (((Marie.init mem input).after 3).step 4).1 = false ∧
    HI4 ((Marie.init mem input).after 4).IR = 0x7 ∧
    ((Marie.init mem input).after 4).cerr = [] ∧
    ((Marie.init mem input).run keys).1 = 4 + 1 ∧
    ((Marie.init mem input).run keys).2.MEM Z = (x + y) % 65536 ∧
    HI4 ((Marie.init mem input).run keys).2.IR = 0x7 ∧
    ((Marie.init mem input).run keys).2.cerr = [] ∧
    ((Marie.init mem input).run keys).2.icount "HALT" = 1 := by
  obtain ⟨a1, a2, a3, a4, ir4, -, err4, -⟩ :=
    sum_program_steps (Marie.init mem input) X Y Z x y hX hY hZ rfl
      h0 h1 h2 h3 hmx hmy
  obtain ⟨b1, b2, b3, b4, jr4, bmem, berr, bcnt⟩ :=
    sum_program_steps ((Marie.init mem input).print
        "Cycle | PC   IR   AC    MAR  MBR\n---------------------------------\n")
      X Y Z x y hX hY hZ (by simp only [Marie.print_fields]; rfl)
      (by simp only [Marie.print_fields]; exact h0)
      (by simp only [Marie.print_fields]; exact h1)
      (by simp only [Marie.print_fields]; exact h2)
      (by simp only [Marie.print_fields]; exact h3)
      (by simp only [Marie.print_fields]; exact hmx)
      (by simp only [Marie.print_fields]; exact hmy)
  obtain ⟨hr1, hr2⟩ := run_of_runLoop _ keys _ _ (runLoop_four _ b1 b2 b3 b4)
  obtain ⟨f0, f1, f2, f3, f4⟩ := after_four (Marie.init mem input)
  refine ⟨?_, ?_, ?_, ?_, ?_, ?_, ?_, ?_, ?_, ?_, ?_⟩
  · rw [f0]; exact a1
  · rw [f1]; exact a2
  · rw [f2]; exact a3
  · rw [f3]; exact a4
  · rw [f4, ir4]; decide
  · rw [f4, err4]; rfl
  · rw [hr1]
  · rw [hr2]
    simp only [Marie.print_fields, Marie.printInstructionSummary_fields,
      Marie.printMemoryDump_fields]
    exact bmem
  · rw [hr2]
    simp only [Marie.print_fields, Marie.printInstructionSummary_fields,
      Marie.printMemoryDump_fields]
    rw [jr4]; decide
  · rw [hr2]
    simp only [Marie.print_fields, Marie.printInstructionSummary_fields,
      Marie.printMemoryDump_fields]
    rw [berr]; simp only [Marie.print_fields]; rfl
  · rw [hr2]
    simp only [Marie.print_fields, Marie.printInstructionSummary_fields,
      Marie.printMemoryDump_fields]
    rw [bcnt]; simp only [Marie.print_fields]; rfl

/-- Witness for C9: `x = 5` at 4, `y = 3` at 5, the sum stored at 6 is 8. -/
theorem load_add_store_halt_witness :
    ((Marie.init sampleSum []).run ["HALT", "STORE", "ADD", "LOAD"]).1 = 4 + 1 ∧
    ((Marie.init sampleSum []).run ["HALT", "STORE", "ADD", "LOAD"]).2.MEM 6
      = (5 + 3) % 65536 ∧
    ((Marie.init sampleSum []).run ["HALT", "STORE", "ADD", "LOAD"]).2.cerr = [] :=
  have h := load_add_store_halt sampleSum [] ["HALT", "STORE", "ADD", "LOAD"] 4 5 6 5 3
    (by decide) (by decide)
    (by decide) (by decide) (by decide) rfl rfl rfl rfl rfl rfl
  ⟨h.2.2.2.2.2.2.1, h.2.2.2.2.2.2.2.1, h.2.2.2.2.2.2.2.2.2.1⟩


/-- Witness for C10: `SKIPCOND 400` at address 0 with `AC = 0` leaves
`PC = 2`. -/
theorem step_skipcond_witness :
    (Marie.init (fun a => if a = 0 then 0x8400 else 0) []).AC = 0 ∧
    (Marie.init (fun a => if a = 0 then 0x8400 else 0) []).MEM
      (Marie.init (fun a => if a = 0 then 0x8400 else 0) []).PC = 0x8400 ∧
    ((Marie.init (fun a => if a = 0 then 0x8400 else 0) []).step 1).2.PC
      = ((Marie.init (fun a => if a = 0 then 0x8400 else 0) []).PC + 2) % 4096 :=
  ⟨rfl, rfl,
    (step_skipcond (Marie.init (fun a => if a = 0 then 0x8400 else 0) []) 1
      (by decide) (by decide) (by decide)).2.2.2.2.2 rfl rfl⟩

/-- The fetched word as the decoder sees it: the conversions through the
16-bit registers MBR and IR keep the opcode and the operand of the word. -/
theorem fetch_decode (m : Marie) :
    HI4 m.fetch.IR = HI4 (m.MEM m.PC) ∧ LO12 m.fetch.IR = LO12 (m.MEM m.PC) := by
  rw [fetch_eq]
  simp only [Marie.setPC_fields, Marie.setIR_fields, HI4_eq, LO12_eq]
  unfold u16 i16
  omega

/-- The fetch phase, register by register, for any word in memory. -/
theorem fetch_fields (m : Marie) :
    m.fetch.PC = (m.PC + 1) % 4096 ∧ m.fetch.MAR = m.PC ∧
    m.fetch.MBR = i16 (m.MEM m.PC) ∧ m.fetch.AC = m.AC ∧
    m.fetch.IR = m.MEM m.PC % 65536 := by
  rw [fetch_eq]
  simp only [Marie.setPC_fields, Marie.setIR_fields, Marie.setMBR_fields,
    Marie.setMAR_fields, land_0FFF, true_and]
  unfold u16 i16
  omega

/-- A step is the execute phase on the opcode and operand of the word at
`MEM[PC]`. -/
theorem step_decode (m : Marie) (cyc : Nat) :
    m.step cyc = m.fetch.execute (HI4 (m.MEM m.PC)) (LO12 (m.MEM m.PC)) cyc := by
  unfold Marie.step
  simp only [fetch_decode]

theorem execute_clear (m : Marie) (adr cyc : Nat) :
    m.execute 0xB adr cyc = ((m.count "CLEAR").setAC 0).traced cyc true := by
  unfold Marie.execute
  simp

theorem execute_jump (m : Marie) (adr cyc : Nat) :
    m.execute 0x9 adr cyc = ((m.count "JUMP").setPC adr).traced cyc true := by
  unfold Marie.execute
  simp

/-- The `default` case of the `switch`: the opcodes without a `case`. -/
theorem execute_unsupported (m : Marie) (op adr cyc : Nat)
    (hop : op = 0x0 ∨ op = 0xA ∨ op = 0xC ∨ op = 0xD ∨ op = 0xE ∨ op = 0xF) :
    m.execute op adr cyc
      = (false, m.printErr ("Unsupported opcode 0x" ++ String.mk [hexDigit op] ++ "\n")) := by
  unfold Marie.execute
  rcases hop with h | h | h | h | h | h <;> subst h <;> simp

/-- C11. In a state with `PC < 4096` whose word at `MEM[PC]` has opcode
`0xB`, whatever its low 12 bits and whatever AC held: the step returns true,
leaves `AC = 0`, leaves every memory cell as it was, and leaves PC at the
value the fetch phase gave it, `(old PC + 1) mod 4096`. -/
theorem step_clear (m : Marie) (cyc : Nat) (_ : m.PC < 4096)
    (hop : HI4 (m.MEM m.PC) = 0xB) :
    (m.step cyc).1 = true ∧
    (m.step cyc).2.AC = 0 ∧
    (∀ a, (m.step cyc).2.MEM a = m.MEM a) ∧
    (m.step cyc).2.PC = m.fetch.PC ∧
    (m.step cyc).2.PC = (m.PC + 1) % 4096 := by
  obtain ⟨hpc, -, -, -, -⟩ := fetch_fields m
  obtain ⟨hmem, -, -, -, -, -⟩ := fetch_frame m
  rw [step_decode, hop, execute_clear]
  simp [traced_fields, hpc, hmem]

/-- Witness for C11: `CLEAR` at address 0 of a machine whose AC holds 5. -/
theorem step_clear_witness :
    ((Marie.init (fun a => if a = 0 then 0xB123 else 7) []).setAC 5).AC = 5 ∧
    (((Marie.init (fun a => if a = 0 then 0xB123 else 7) []).setAC 5).step 1).2.AC = 0 ∧
    (((Marie.init (fun a => if a = 0 then 0xB123 else 7) []).setAC 5).step 1).2.PC
      = (((Marie.init (fun a => if a = 0 then 0xB123 else 7) []).setAC 5).PC + 1) % 4096 :=
  have h := step_clear ((Marie.init (fun a => if a = 0 then 0xB123 else 7) []).setAC 5) 1
    (by decide) (by decide)
  ⟨rfl, h.2.1, h.2.2.2.2⟩


/-- A step on a word whose opcode has no `case`, field by field: the message
goes to `cerr`, false is returned before the trace row is written, and
nothing but the registers of the fetch phase has changed. -/
theorem step_unsupported (m : Marie) (cyc : Nat)
    (hop : HI4 (m.MEM m.PC) = 0x0 ∨ HI4 (m.MEM m.PC) = 0xA ∨ HI4 (m.MEM m.PC) = 0xC ∨
      HI4 (m.MEM m.PC) = 0xD ∨ HI4 (m.MEM m.PC) = 0xE ∨ HI4 (m.MEM m.PC) = 0xF) :
    (m.step cyc).1 = false ∧
    (m.step cyc).2.AC = m.AC ∧
    (m.step cyc).2.PC = (m.PC + 1) % 4096 ∧
    (m.step cyc).2.MEM = m.MEM ∧
    (m.step cyc).2.MAR = m.PC ∧
    (m.step cyc).2.icount = m.icount ∧
    (m.step cyc).2.cout = m.cout ∧
    (m.step cyc).2.cerr = m.cerr ++
      ["Unsupported opcode 0x" ++ String.mk [hexDigit (HI4 (m.MEM m.PC))] ++ "\n"] := by
  obtain ⟨hpc, hmar, -, hac, -⟩ := fetch_fields m
  obtain ⟨hmem, hcnt, -, -, hout, herr⟩ := fetch_frame m
  rw [step_decode, execute_unsupported _ _ _ _ hop]
  simp [hpc, hmar, hac, hmem, hcnt, hout, herr]

/-- C12. When the word at address 0 has high nibble `0xF`, `run` from the
initial state calls `step` exactly once (`cyc` ends at 2); that step returns
false through the `default` case, which writes `Unsupported opcode 0xF` to
`cerr` and no trace row to `cout` (the status line follows the header of the
trace table); afterwards `AC = 0`, memory is the image that was loaded, and
every instruction counter is still 0.  This holds whatever the order `keys` of
the instruction summary. -/
theorem run_unsupported_opcode (mem : Nat → Nat) (input : List (Option Int))
    (keys : List String) (hop : HI4 (mem 0) = 0xF) :
    ((Marie.init mem input).run keys).1 = 1 + 1 ∧
    (((Marie.init mem input).after 0).step 1).1 = false ∧
    ((Marie.init mem input).run keys).2.cerr = ["Unsupported opcode 0xF\n"] ∧
    ((Marie.init mem input).run keys).2.cout.take 2
      = ["Cycle | PC   IR   AC    MAR  MBR\n---------------------------------\n",
         "Program halted.\n"] ∧
    ((Marie.init mem input).run keys).2.AC = 0 ∧
    (∀ a, ((Marie.init mem input).run keys).2.MEM a = mem a) ∧
    (∀ k, ((Marie.init mem input).run keys).2.icount k = 0) := by
  have hop0 : HI4 ((Marie.init mem input).MEM (Marie.init mem input).PC) = 0xF := hop
  obtain ⟨a1, -, -, -, -, -, -, -⟩ :=
    step_unsupported (Marie.init mem input) 1 (by rw [hop0]; simp)
  have hop1 : HI4 (((Marie.init mem input).print
      "Cycle | PC   IR   AC    MAR  MBR\n---------------------------------\n").MEM
      ((Marie.init mem input).print
      "Cycle | PC   IR   AC    MAR  MBR\n---------------------------------\n").PC) = 0xF := by
    simp only [Marie.print_fields]
    exact hop
  obtain ⟨b1, bac, -, bmem, -, bcnt, bout, berr⟩ :=
    step_unsupported ((Marie.init mem input).print
      "Cycle | PC   IR   AC    MAR  MBR\n---------------------------------\n") 1
      (by rw [hop1]; simp)
  obtain ⟨hr1, hr2⟩ := run_of_runLoop _ keys _ _ (runLoop_stop _ 1 b1)
  rw [hop1] at berr
  refine ⟨hr1, ?_, ?_, ?_, ?_, ?_, ?_⟩
  · rw [(after_succ _ 0).1]
    exact a1
  · rw [hr2]
    simp only [Marie.print_fields, Marie.printInstructionSummary_fields,
      Marie.printMemoryDump_fields]
    rw [berr]
    simp only [Marie.print_fields]
    rfl
  · rw [hr2]
    simp only [Marie.print_fields, Marie.printInstructionSummary_fields,
      Marie.printMemoryDump_fields]
    rw [bout]
    simp only [Marie.print_fields]
    have hnil : (Marie.init mem input).cout = [] := rfl
    rw [hnil]
    rfl
  · rw [hr2]
    simp only [Marie.print_fields, Marie.printInstructionSummary_fields,
      Marie.printMemoryDump_fields]
    rw [bac]
    simp only [Marie.print_fields]
    rfl
  · intro a
    rw [hr2]
    simp only [Marie.print_fields, Marie.printInstructionSummary_fields,
      Marie.printMemoryDump_fields]
    rw [bmem]
    simp only [Marie.print_fields]
    rfl
  · intro k
    rw [hr2]
    simp only [Marie.print_fields, Marie.printInstructionSummary_fields,
      Marie.printMemoryDump_fields]
    rw [bcnt]
    simp only [Marie.print_fields]
    rfl

/-- Witness for C12: the word `0xF000` at address 0. -/
theorem run_unsupported_opcode_witness :
    HI4 ((fun a => if a = 0 then 0xF000 else 0 : Nat → Nat) 0) = 0xF ∧
    ((Marie.init (fun a => if a = 0 then 0xF000 else 0) []).run []).1 = 1 + 1 ∧
    ((Marie.init (fun a => if a = 0 then 0xF000 else 0) []).run []).2.cerr
      = ["Unsupported opcode 0xF\n"] :=
  have h := run_unsupported_opcode (fun a => if a = 0 then 0xF000 else 0) [] [] (by decide)
  ⟨by decide, h.1, h.2.2.1⟩


/-- C15. In a state with `PC < 4096` whose word at `MEM[PC]` has opcode 3
(ADD) or 4 (SUBT) and operand `a`: the step returns true and writes nothing
to `cerr`, leaves `MAR = a` and `MBR = MEM[a]` (as `int16_t`), leaves memory
as it was, and leaves in AC the signed 16-bit value congruent modulo `2^16` to
`old AC + MEM[a]` (ADD) or `old AC - MEM[a]` (SUBT), with `MEM` as it was before
the step. -/
theorem step_add_subt (m : Marie) (cyc a : Nat) (_ : m.PC < 4096)
    (ha : LO12 (m.MEM m.PC) = a)
    (hop : HI4 (m.MEM m.PC) = 0x3 ∨ HI4 (m.MEM m.PC) = 0x4) :
    (m.step cyc).1 = true ∧
    (m.step cyc).2.cerr = m.cerr ∧
    (m.step cyc).2.MAR = a ∧
    (m.step cyc).2.MBR = i16 (m.MEM a) ∧
    u16 (m.step cyc).2.MBR = m.MEM a % 65536 ∧
    (∀ i, (m.step cyc).2.MEM i = m.MEM i) ∧
    (-32768 ≤ (m.step cyc).2.AC ∧ (m.step cyc).2.AC ≤ 32767) ∧
    (HI4 (m.MEM m.PC) = 0x3 →
      (m.step cyc).2.AC = i16 (m.AC + i16 (m.MEM a)) ∧
      ((m.step cyc).2.AC - (m.AC + (m.MEM a : Int))) % 65536 = 0) ∧
    (HI4 (m.MEM m.PC) = 0x4 →
      (m.step cyc).2.AC = i16 (m.AC - i16 (m.MEM a)) ∧
      ((m.step cyc).2.AC - (m.AC - (m.MEM a : Int))) % 65536 = 0) := by
  obtain ⟨-, -, -, hac, -⟩ := fetch_fields m
  obtain ⟨hmem, -, -, -, -, herr⟩ := fetch_frame m
  have hu : u16 (i16 (m.MEM a)) = m.MEM a % 65536 := by
    unfold u16 i16
    omega
  rcases hop with hop | hop
  · have hAC : (m.step cyc).2.AC = i16 (m.AC + i16 (m.MEM a)) := by
      rw [step_decode, hop, ha, execute_add]
      simp [traced_fields, hac, hmem]
    have hrest : (m.step cyc).1 = true ∧ (m.step cyc).2.cerr = m.cerr ∧
        (m.step cyc).2.MAR = a ∧ (m.step cyc).2.MBR = i16 (m.MEM a) ∧
        (∀ i, (m.step cyc).2.MEM i = m.MEM i) := by
      rw [step_decode, hop, ha, execute_add]
      simp [traced_fields, hmem, herr]
    obtain ⟨r1, r2, r3, r4, r5⟩ := hrest
    refine ⟨r1, r2, r3, r4, by rw [r4, hu], r5, ?_, ?_, ?_⟩
    · rw [hAC]
      unfold i16
      omega
    · intro _
      refine ⟨hAC, ?_⟩
      rw [hAC]
      unfold i16
      omega
    · intro h4
      rw [hop] at h4
      exact absurd h4 (by decide)
  · have hAC : (m.step cyc).2.AC = i16 (m.AC - i16 (m.MEM a)) := by
      rw [step_decode, hop, ha, execute_subt]
      simp [traced_fields, hac, hmem]
    have hrest : (m.step cyc).1 = true ∧ (m.step cyc).2.cerr = m.cerr ∧
        (m.step cyc).2.MAR = a ∧ (m.step cyc).2.MBR = i16 (m.MEM a) ∧
        (∀ i, (m.step cyc).2.MEM i = m.MEM i) := by
      rw [step_decode, hop, ha, execute_subt]
      simp [traced_fields, hmem, herr]
    obtain ⟨r1, r2, r3, r4, r5⟩ := hrest
    refine ⟨r1, r2, r3, r4, by rw [r4, hu], r5, ?_, ?_, ?_⟩
    · rw [hAC]
      unfold i16
      omega
    · intro h3
      rw [hop] at h3
      exact absurd h3 (by decide)
    · intro _
      refine ⟨hAC, ?_⟩
      rw [hAC]
      unfold i16
      omega

/-- Witness for C15: `ADD 5` with `AC = 32767` and `MEM[5] = 1` wraps to
`-32768` and the machine goes on. -/
theorem step_add_subt_witness :
    (((Marie.init (fun a => if a = 0 then 0x3005 else if a = 5 then 1 else 0) []).setAC
      32767).step 1).1 = true ∧
    (((Marie.init (fun a => if a = 0 then 0x3005 else if a = 5 then 1 else 0) []).setAC
      32767).step 1).2.AC = -32768 :=
  have h := step_add_subt
    ((Marie.init (fun a => if a = 0 then 0x3005 else if a = 5 then 1 else 0) []).setAC 32767)
    1 5 (by decide) (by decide) (Or.inl (by decide))
  ⟨h.1, (h.2.2.2.2.2.2.2.1 (by decide)).1.trans (by decide)⟩


/-- When every call returns true, the loop entered at 1 is left by the cap,
after the call numbered 1,000,000. -/
theorem whileStep_all_true {σ : Type} (step : σ → Nat → Bool × σ) (m0 : σ)
    (h : ∀ k, k < 1000000 → (step (afterSteps step m0 k) (k + 1)).1 = true) :
    ∀ (d n : Nat), n + d = 999999 →
      whileStep step (afterSteps step m0 n) (n + 1)
        = (1000001, afterSteps step m0 1000000) := by
  intro d
  induction d with
  | zero =>
    intro n hn
    have hn1 : n = 999999 := by omega
    subst hn1
    rw [whileStep]
    simp only [h 999999 (by omega), if_true]
    rw [if_pos (by omega), ← (afterSteps_succ step m0 999999).2]
  | succ d ih =>
    intro n hn
    rw [whileStep]
    simp only [h n (by omega), if_true]
    rw [if_neg (by omega), ← (afterSteps_succ step m0 n).2]
    exact ih (n + 1) (by omega)

/-- When the call numbered `n + 1` is the first to return false, the loop
entered at 1 is left after it. -/
theorem whileStep_first_false {σ : Type} (step : σ → Nat → Bool × σ) (m0 : σ) (n : Nat)
    (hn : n < 1000000)
    (h : ∀ k, k < n → (step (afterSteps step m0 k) (k + 1)).1 = true)
    (hf : (step (afterSteps step m0 n) (n + 1)).1 = false) :
    ∀ (d k : Nat), k + d = n →
      whileStep step (afterSteps step m0 k) (k + 1)
        = (n + 2, afterSteps step m0 (n + 1)) := by
  intro d
  induction d with
  | zero =>
    intro k hk
    have hk1 : k = n := by omega
    subst hk1
    rw [whileStep]
    simp only [hf, Bool.false_eq_true, if_false]
    rw [← (afterSteps_succ step m0 k).2]
  | succ d ih =>
    intro k hk
    rw [whileStep]
    simp only [h k (by omega), if_true]
    rw [if_neg (by omega), ← (afterSteps_succ step m0 k).2]
    exact ih (k + 1) (by omega)

/-- The loop entered at 1 is left after some call numbered `k` between 1 and
1,000,000, with `cyc = k + 1` and the state after `k` calls. -/
theorem whileStep_final {σ : Type} (step : σ → Nat → Bool × σ) (m0 : σ) :
    ∀ (d n : Nat), n + d = 999999 →
      ∃ k, n < k ∧ k ≤ 1000000 ∧
        whileStep step (afterSteps step m0 n) (n + 1) = (k + 1, afterSteps step m0 k) := by
  intro d
  induction d with
  | zero =>
    intro n hn
    refine ⟨n + 1, by omega, by omega, ?_⟩
    rw [whileStep]
    by_cases hs : (step (afterSteps step m0 n) (n + 1)).1 = true
    · simp only [hs, if_true]
      rw [if_pos (by omega), ← (afterSteps_succ step m0 n).2]
    · simp only [hs, Bool.false_eq_true, if_false]
      rw [← (afterSteps_succ step m0 n).2]
  | succ d ih =>
    intro n hn
    by_cases hs : (step (afterSteps step m0 n) (n + 1)).1 = true
    · obtain ⟨k, h1, h2, h3⟩ := ih (n + 1) (by omega)
      refine ⟨k, by omega, h2, ?_⟩
      rw [whileStep]
      simp only [hs, if_true]
      rw [if_neg (by omega), ← (afterSteps_succ step m0 n).2]
      exact h3
    · refine ⟨n + 1, by omega, by omega, ?_⟩
      rw [whileStep]
      simp only [hs, Bool.false_eq_true, if_false]
      rw [← (afterSteps_succ step m0 n).2]


theorem execute_input (m : Marie) (adr cyc : Nat) :
    m.execute 0x5 adr cyc = (((m.count "INPUT").print "Input: ").readAC).traced cyc true := by
  unfold Marie.execute
  simp

theorem execute_output (m : Marie) (adr cyc : Nat) :
    m.execute 0x6 adr cyc
      = ((m.count "OUTPUT").print ("Output: " ++ toString m.AC ++ "\n")).traced cyc true := by
  unfold Marie.execute
  simp

/-- The `default` case of the `switch`, for every value without a `case`. -/
theorem execute_default (m : Marie) (op adr cyc : Nat) (h : op ∉ continuing)
    (h7 : op ≠ 0x7) :
    m.execute op adr cyc
      = (false, m.printErr ("Unsupported opcode 0x" ++ String.mk [hexDigit op] ++ "\n")) := by
  unfold continuing at h
  simp only [List.mem_cons, List.mem_singleton, List.not_mem_nil, or_false, not_or] at h
  obtain ⟨h1, h2, h3, h4, h5, h6, h8, h9, hB⟩ := h
  unfold Marie.execute
  rw [if_neg h1, if_neg h2, if_neg h3, if_neg h4, if_neg h5, if_neg h6, if_neg h7,
    if_neg h9, if_neg h8, if_neg hB]

/-- Which opcodes let `step` return true: the `switch` leaves `cont` true in
every `case` but HALT, and the `default` case returns false. -/
theorem execute_continues (m : Marie) (op adr cyc : Nat) :
    (m.execute op adr cyc).1 = true ↔ op ∈ continuing := by
  by_cases hc : op ∈ continuing
  · simp only [hc, iff_true]
    unfold continuing at hc
    simp only [List.mem_cons, List.mem_singleton, List.not_mem_nil, or_false] at hc
    rcases hc with h | h | h | h | h | h | h | h | h <;> subst h
    · rw [execute_load]; exact (traced_fields _ _ _).1
    · rw [execute_store]; exact (traced_fields _ _ _).1
    · rw [execute_add]; exact (traced_fields _ _ _).1
    · rw [execute_subt]; exact (traced_fields _ _ _).1
    · rw [execute_input]; exact (traced_fields _ _ _).1
    · rw [execute_output]; exact (traced_fields _ _ _).1
    · rw [execute_skipcond]; exact (traced_fields _ _ _).1
    · rw [execute_jump]; exact (traced_fields _ _ _).1
    · rw [execute_clear]; exact (traced_fields _ _ _).1
  · simp only [hc, iff_false]
    by_cases h7 : op = 0x7
    · subst h7
      rw [execute_halt, (traced_fields _ _ _).1]
      decide
    · rw [execute_default m op adr cyc hc h7]
      exact Bool.false_ne_true

/-- A step returns true exactly on the opcodes that have a `case` other than
HALT. -/
theorem step_continues (m : Marie) (cyc : Nat) :
    (m.step cyc).1 = true ↔ HI4 (m.MEM m.PC) ∈ continuing := by
  rw [step_decode]
  exact execute_continues _ _ _ _

/-- JUMP, field by field. -/
theorem step_jump (m : Marie) (cyc : Nat) (hop : HI4 (m.MEM m.PC) = 0x9) :
    (m.step cyc).1 = true ∧
    (m.step cyc).2.AC = m.AC ∧
    (m.step cyc).2.PC = LO12 (m.MEM m.PC) ∧
    (m.step cyc).2.MEM = m.MEM ∧
    (m.step cyc).2.cerr = m.cerr := by
  obtain ⟨-, -, -, hac, -⟩ := fetch_fields m
  obtain ⟨hmem, -, -, -, -, herr⟩ := fetch_frame m
  rw [step_decode, hop, execute_jump]
  simp [traced_fields, hac, hmem, herr]

/-- The machine within `run`, call by call. -/
theorem during_eq (m : Marie) (n : Nat) :
    m.during n = afterSteps Marie.step (m.print
      "Cycle | PC   IR   AC    MAR  MBR\n---------------------------------\n") n := by
  unfold Marie.during Marie.after
  rfl

/-- The final value of `cyc` and the final machine of `run`, from those of
its loop. -/
theorem run_fields (m : Marie) (keys : List String) :
    (m.run keys).1 = (whileStep Marie.step (m.print
      "Cycle | PC   IR   AC    MAR  MBR\n---------------------------------\n") 1).1 ∧
    (m.run keys).2 = (((whileStep Marie.step (m.print
      "Cycle | PC   IR   AC    MAR  MBR\n---------------------------------\n") 1).2.print
        "Program halted.\n").printInstructionSummary keys).printMemoryDump 20 := by
  have h := run_of_runLoop m keys _ _ (Prod.mk.eta (p := (m.print
      "Cycle | PC   IR   AC    MAR  MBR\n---------------------------------\n").runLoop 1)).symm
  unfold Marie.runLoop at h
  exact h

/-- A run in which every call of `step` returns true is stopped by the cap
after 1,000,000 calls. -/
theorem run_capped (m : Marie) (keys : List String)
    (h : ∀ n, n < 1000000 → ((m.during n).step (n + 1)).1 = true) :
    (m.run keys).1 = 1000001 ∧
    (m.run keys).2 = (((m.during 1000000).print
      "Program halted.\n").printInstructionSummary keys).printMemoryDump 20 := by
  obtain ⟨h1, h2⟩ := run_fields m keys
  have hw := whileStep_all_true Marie.step (m.print
      "Cycle | PC   IR   AC    MAR  MBR\n---------------------------------\n")
    (fun k hk => by rw [← during_eq]; exact h k hk) 999999 0 (by omega)
  rw [(afterSteps_succ _ _ 0).1] at hw
  rw [h1, h2, hw, during_eq]
  exact ⟨rfl, rfl⟩

/-- A run whose call numbered `n + 1` is the first to return false. -/
theorem run_stopped (m : Marie) (keys : List String) (n : Nat) (hn : n < 1000000)
    (h : ∀ k, k < n → ((m.during k).step (k + 1)).1 = true)
    (hf : ((m.during n).step (n + 1)).1 = false) :
    (m.run keys).1 = n + 2 ∧
    (m.run keys).2 = (((m.during (n + 1)).print
      "Program halted.\n").printInstructionSummary keys).printMemoryDump 20 := by
  obtain ⟨h1, h2⟩ := run_fields m keys
  have hw := whileStep_first_false Marie.step (m.print
      "Cycle | PC   IR   AC    MAR  MBR\n---------------------------------\n") n hn
    (fun k hk => by rw [← during_eq]; exact h k hk)
    (by rw [← during_eq]; exact hf) n 0 (by omega)
  rw [(afterSteps_succ _ _ 0).1] at hw
  rw [h1, h2, hw, during_eq]
  exact ⟨rfl, rfl⟩

/-- The machine that holds `JUMP 0` at address 0 and starts there stays
there. -/
theorem jump_zero_loop (s : Marie) (hpc : s.PC = 0) (h0 : s.MEM 0 = 0x9000) (n : Nat) :
    (s.after n).PC = 0 ∧ (s.after n).MEM = s.MEM ∧ (s.after n).cerr = s.cerr ∧
    (s.after n).AC = s.AC := by
  induction n with
  | zero =>
    rw [(after_succ s 0).1]
    exact ⟨hpc, rfl, rfl, rfl⟩
  | succ n ih =>
    obtain ⟨ipc, imem, ierr, iac⟩ := ih
    have hword : (s.after n).MEM (s.after n).PC = 0x9000 := by rw [ipc, imem, h0]
    obtain ⟨-, jac, jpc, jmem, jerr⟩ :=
      step_jump (s.after n) (n + 1) (by rw [hword]; decide)
    rw [(after_succ s n).2]
    refine ⟨?_, ?_, ?_, ?_⟩
    · rw [jpc, hword]
      decide
    · rw [jmem, imem]
    · rw [jerr, ierr]
    · rw [jac, iac]


/-- The statement `cin >> AC` touches AC and `cin` only. -/
theorem readAC_fields (m : Marie) :
    m.readAC.PC = m.PC ∧ m.readAC.MAR = m.MAR ∧ m.readAC.MEM = m.MEM ∧
    m.readAC.IR = m.IR ∧ m.readAC.MBR = m.MBR ∧ m.readAC.icount = m.icount ∧
    m.readAC.cout = m.cout ∧ m.readAC.cerr = m.cerr := by
  unfold Marie.readAC
  split_ifs
  · exact ⟨rfl, rfl, rfl, rfl, rfl, rfl, rfl, rfl⟩
  · split
    · simp
    · simp
    · split_ifs <;> simp

/-- The registers PC and MAR and the stream `cerr` after the `switch`, for an
opcode that has a `case`: only JUMP and SKIPCOND assign to PC, only LOAD,
STORE, ADD and SUBT assign to MAR, and none writes to `cerr`. -/
theorem execute_case (m : Marie) (op adr cyc : Nat) (h : op ∈ continuing ∨ op = 0x7) :
    ((m.execute op adr cyc).2.PC = m.PC ∨ (m.execute op adr cyc).2.PC = adr ∨
      (m.execute op adr cyc).2.PC = (m.PC + 1) % 4096) ∧
    ((m.execute op adr cyc).2.MAR = m.MAR ∨ (m.execute op adr cyc).2.MAR = adr) ∧
    (m.execute op adr cyc).2.cerr = m.cerr := by
  unfold continuing at h
  simp only [List.mem_cons, List.mem_singleton, List.not_mem_nil, or_false] at h
  rcases h with (h | h | h | h | h | h | h | h | h) | h <;> subst h
  · rw [execute_load]; simp [traced_fields]
  · rw [execute_store]; simp [traced_fields]
  · rw [execute_add]; simp [traced_fields]
  · rw [execute_subt]; simp [traced_fields]
  · rw [execute_input]; simp [traced_fields, readAC_fields]
  · rw [execute_output]; simp [traced_fields]
  · rw [execute_skipcond]
    obtain ⟨-, -, -, smar, -, serr, -, -, -, stake, sskip⟩ := skipcond_fields m adr
    simp only [traced_fields, smar, serr, true_or, and_true]
    by_cases hc : ((adr &&& 0x0E00 = 0x000 ∧ m.AC < 0) ∨ (adr &&& 0x0E00 = 0x400 ∧ m.AC = 0) ∨
        (adr &&& 0x0E00 = 0x800 ∧ m.AC > 0))
    · exact Or.inr (Or.inr (stake hc))
    · exact Or.inl (sskip hc)
  · rw [execute_jump]; simp [traced_fields]
  · rw [execute_clear]; simp [traced_fields]
  · rw [execute_halt]; simp [traced_fields]

/-- The registers PC and MAR after a step, whatever the word at `MEM[PC]`: PC
is the incremented PC, the operand, or the PC incremented twice; MAR is the old
PC or the operand. -/
theorem step_PC_MAR (m : Marie) (cyc : Nat) :
    ((m.step cyc).2.PC = (m.PC + 1) % 4096 ∨ (m.step cyc).2.PC = LO12 (m.MEM m.PC) ∨
      (m.step cyc).2.PC = ((m.PC + 1) % 4096 + 1) % 4096) ∧
    ((m.step cyc).2.MAR = m.PC ∨ (m.step cyc).2.MAR = LO12 (m.MEM m.PC)) := by
  obtain ⟨hpc, hmar, -, -, -⟩ := fetch_fields m
  rw [step_decode]
  by_cases h : HI4 (m.MEM m.PC) ∈ continuing ∨ HI4 (m.MEM m.PC) = 0x7
  · obtain ⟨e1, e2, -⟩ := execute_case m.fetch (HI4 (m.MEM m.PC)) (LO12 (m.MEM m.PC)) cyc h
    rw [hpc] at e1
    rw [hmar] at e2
    exact ⟨e1, e2⟩
  · rw [not_or] at h
    rw [execute_default _ _ _ _ h.1 h.2]
    simp only [Marie.printErr_fields, hpc, hmar, true_or, and_self]

/-- A step whose opcode has a `case` writes nothing to `cerr`. -/
theorem step_cerr (m : Marie) (cyc : Nat)
    (h : HI4 (m.MEM m.PC) ∈ continuing ∨ HI4 (m.MEM m.PC) = 0x7) :
    (m.step cyc).2.cerr = m.cerr := by
  obtain ⟨-, -, -, -, -, herr⟩ := fetch_frame m
  rw [step_decode, (execute_case _ _ _ _ h).2.2, herr]

/-- A step whose opcode has no `case`: false is returned and the message is
on `cerr`. -/
theorem step_default (m : Marie) (cyc : Nat)
    (h : HI4 (m.MEM m.PC) ∉ continuing) (h7 : HI4 (m.MEM m.PC) ≠ 0x7) :
    (m.step cyc).1 = false ∧
    (m.step cyc).2.cerr = m.cerr ++
      ["Unsupported opcode 0x" ++ String.mk [hexDigit (HI4 (m.MEM m.PC))] ++ "\n"] := by
  obtain ⟨-, -, -, -, -, herr⟩ := fetch_frame m
  rw [step_decode, execute_default _ _ _ _ h h7]
  simp only [Marie.printErr_fields, herr, and_self]


/-- The machine within `run` before the first call and after one more
call. -/
theorem during_succ (m : Marie) (n : Nat) :
    m.during 0 = m.print
      "Cycle | PC   IR   AC    MAR  MBR\n---------------------------------\n" ∧
    m.during (n + 1) = ((m.during n).step (n + 1)).2 := by
  unfold Marie.during
  exact after_succ _ n

/-- The registers, the memory and `cerr` when `run` makes its first call of
`step` are those `run` was entered with. -/
theorem during_zero (m : Marie) :
    (m.during 0).PC = m.PC ∧ (m.during 0).MEM = m.MEM ∧ (m.during 0).cerr = m.cerr ∧
    (m.during 0).AC = m.AC ∧ (m.during 0).icount = m.icount := by
  rw [(during_succ m 0).1]
  simp only [Marie.print_fields, and_self]

/-- While every call so far met an opcode that continues, nothing has been
written to `cerr`. -/
theorem during_cerr (m : Marie) (n : Nat)
    (h : ∀ k, k < n → HI4 ((m.during k).MEM (m.during k).PC) ∈ continuing) :
    (m.during n).cerr = m.cerr := by
  induction n with
  | zero => exact (during_zero m).2.2.1
  | succ n ih =>
    rw [(during_succ m n).2, step_cerr _ _ (Or.inl (h n (Nat.lt_succ_self n)))]
    exact ih (fun k hk => h k (Nat.lt_succ_of_lt hk))

/-- Every run leaves its loop after some call numbered `k` between 1 and
1,000,000; what follows the loop is the status line, the instruction summary
and the memory dump. -/
theorem run_final (m : Marie) (keys : List String) :
    ∃ k, 1 ≤ k ∧ k ≤ 1000000 ∧ (m.run keys).1 = k + 1 ∧
      (m.run keys).2 = (((m.during k).print
        "Program halted.\n").printInstructionSummary keys).printMemoryDump 20 := by
  obtain ⟨h1, h2⟩ := run_fields m keys
  obtain ⟨k, k1, k2, hw⟩ := whileStep_final Marie.step (m.print
      "Cycle | PC   IR   AC    MAR  MBR\n---------------------------------\n") 999999 0 (by omega)
  rw [(afterSteps_succ _ _ 0).1] at hw
  refine ⟨k, k1, k2, ?_, ?_⟩
  · rw [h1, hw]
  · rw [h2, hw, during_eq]

/-- What `run` has written to `cout` in the end: what the loop left there,
then the status line, then the instruction summary and the memory dump.  So the
status line is the first piece `run` writes when its loop has ended, whatever
made it end. -/
theorem run_cout (m : Marie) (keys : List String) :
    (m.run keys).2.cout = (m.during (m.calls keys)).cout ++ "Program halted.\n" ::
      ((m.during (m.calls keys)).summaryText keys ++ (m.during (m.calls keys)).dumpText 20) ∧
    m.status keys = some "Program halted.\n" := by
  obtain ⟨k, -, -, h1, h2⟩ := run_final m keys
  have hc : m.calls keys = k := by
    unfold Marie.calls
    rw [h1]
    rfl
  have hcout : (m.run keys).2.cout = (m.during k).cout ++ "Program halted.\n" ::
      ((m.during k).summaryText keys ++ (m.during k).dumpText 20) := by
    have hs : ((m.during k).print "Program halted.\n").summaryText keys
        = (m.during k).summaryText keys := by
      unfold Marie.summaryText
      simp only [Marie.print_fields]
    have hd : (((m.during k).print "Program halted.\n").printInstructionSummary
        keys).dumpText 20 = (m.during k).dumpText 20 := by
      unfold Marie.dumpText
      simp only [Marie.print_fields, Marie.printInstructionSummary_fields]
    rw [h2]
    simp only [Marie.print_fields, Marie.printInstructionSummary_fields,
      Marie.printMemoryDump_fields, hs, hd, List.append_assoc, List.singleton_append,
      List.cons_append, List.nil_append]
  constructor
  · rw [hc]
    exact hcout
  · unfold Marie.status
    rw [hc, hcout, List.getElem?_append_right (le_refl _), Nat.sub_self]
    rfl

/-- A run that meets HALT, or an opcode without a `case`, at its call numbered
`n + 1`, after opcodes that continue: the number of calls and `cerr`. -/
theorem run_stopped_cerr (m : Marie) (keys : List String) (n : Nat) (hn : n < 1000000)
    (h : ∀ k, k < n → HI4 ((m.during k).MEM (m.during k).PC) ∈ continuing) :
    (HI4 ((m.during n).MEM (m.during n).PC) = 0x7 →
      (m.run keys).1 = n + 2 ∧ (m.run keys).2.cerr = m.cerr) ∧
    (HI4 ((m.during n).MEM (m.during n).PC) ∉ 0x7 :: continuing →
      (m.run keys).1 = n + 2 ∧ (m.run keys).2.cerr = m.cerr ++
        ["Unsupported opcode 0x"
          ++ String.mk [hexDigit (HI4 ((m.during n).MEM (m.during n).PC))] ++ "\n"]) := by
  have hprev : ∀ k, k < n → ((m.during k).step (k + 1)).1 = true :=
    fun k hk => (step_continues _ _).2 (h k hk)
  constructor
  · intro h7
    have hf : ((m.during n).step (n + 1)).1 = false := by
      rw [Bool.eq_false_iff, Ne, step_continues, h7]
      decide
    obtain ⟨r1, r2⟩ := run_stopped m keys n hn hprev hf
    refine ⟨r1, ?_⟩
    rw [r2]
    simp only [Marie.print_fields, Marie.printInstructionSummary_fields,
      Marie.printMemoryDump_fields]
    rw [(during_succ m n).2, step_cerr _ _ (Or.inr h7)]
    exact during_cerr m n h
  · intro hd
    rw [List.mem_cons, not_or] at hd
    obtain ⟨hf, herr⟩ := step_default (m.during n) (n + 1) hd.2 hd.1
    obtain ⟨r1, r2⟩ := run_stopped m keys n hn hprev hf
    refine ⟨r1, ?_⟩
    rw [r2]
    simp only [Marie.print_fields, Marie.printInstructionSummary_fields,
      Marie.printMemoryDump_fields]
    rw [(during_succ m n).2, herr, during_cerr m n h]

/-- A run that meets no HALT and no opcode without a `case` in 1,000,000 calls:
the number of calls and `cerr`. -/
theorem run_capped_cerr (m : Marie) (keys : List String)
    (h : ∀ n, n < 1000000 → HI4 ((m.during n).MEM (m.during n).PC) ∈ continuing) :
    (m.run keys).1 = 1000001 ∧ (m.run keys).2.cerr = m.cerr := by
  obtain ⟨r1, r2⟩ := run_capped m keys (fun n hn => (step_continues _ _).2 (h n hn))
  refine ⟨r1, ?_⟩
  rw [r2]
  simp only [Marie.print_fields, Marie.printInstructionSummary_fields,
    Marie.printMemoryDump_fields]
  exact during_cerr m 1000000 (fun k hk => h k hk)

/-- The run of `JUMP 0` at address 0 meets JUMP at every call. -/
theorem during_jump_zero (m : Marie) (hpc : m.PC = 0) (h0 : m.MEM 0 = 0x9000) (n : Nat) :
    HI4 ((m.during n).MEM (m.during n).PC) ∈ continuing := by
  obtain ⟨zpc, zmem, -, -, -⟩ := during_zero m
  rw [(during_succ m 0).1] at zpc zmem
  unfold Marie.during
  obtain ⟨jpc, jmem, -, -⟩ := jump_zero_loop _ (zpc.trans hpc) (by rw [zmem]; exact h0) n
  rw [jpc, jmem, zmem, h0]
  decide

/-- C14, as amended. The first piece `run` writes to `cout` when its loop has
ended is the status line `Program halted.`, whatever made the loop end; the
instruction summary and the memory dump follow it.  The stream `cerr` tells an
opcode without a `case` apart: a run stopped by one has the message
`Unsupported opcode 0x..` of that call of `step` on it, while a run stopped by
HALT and a run stopped by the cycle cap both leave `cerr` as it was. -/
theorem run_status_line (m : Marie) (keys : List String) :
    m.status keys = some "Program halted.\n" ∧
    (m.run keys).2.cout = (m.during (m.calls keys)).cout ++ "Program halted.\n" ::
      ((m.during (m.calls keys)).summaryText keys ++ (m.during (m.calls keys)).dumpText 20) ∧
    (∀ n, n < 1000000 →
      (∀ k, k < n → HI4 ((m.during k).MEM (m.during k).PC) ∈ continuing) →
      (HI4 ((m.during n).MEM (m.during n).PC) = 0x7 →
        m.calls keys = n + 1 ∧ (m.run keys).2.cerr = m.cerr) ∧
      (HI4 ((m.during n).MEM (m.during n).PC) ∉ 0x7 :: continuing →
        m.calls keys = n + 1 ∧ (m.run keys).2.cerr = m.cerr ++
          ["Unsupported opcode 0x"
            ++ String.mk [hexDigit (HI4 ((m.during n).MEM (m.during n).PC))] ++ "\n"])) ∧
    ((∀ n, n < 1000000 → HI4 ((m.during n).MEM (m.during n).PC) ∈ continuing) →
      m.calls keys = 1000000 ∧ (m.run keys).2.cerr = m.cerr) := by
  obtain ⟨hcout, hstatus⟩ := run_cout m keys
  refine ⟨hstatus, hcout, ?_, ?_⟩
  · intro n hn h
    obtain ⟨s1, s2⟩ := run_stopped_cerr m keys n hn h
    constructor
    · intro h7
      obtain ⟨r1, r2⟩ := s1 h7
      refine ⟨?_, r2⟩
      unfold Marie.calls
      rw [r1]
      rfl
    · intro hd
      obtain ⟨r1, r2⟩ := s2 hd
      refine ⟨?_, r2⟩
      unfold Marie.calls
      rw [r1]
      rfl
  · intro h
    obtain ⟨r1, r2⟩ := run_capped_cerr m keys h
    refine ⟨?_, r2⟩
    unfold Marie.calls
    rw [r1]

/-- Witness for C14: `HALT` at address 0 stops the run at its first call with
nothing on `cerr`. -/
theorem run_status_line_witness :
    (Marie.init sampleHalt []).calls ["HALT"] = 0 + 1 ∧
    ((Marie.init sampleHalt []).run ["HALT"]).2.cerr = (Marie.init sampleHalt []).cerr :=
  ((run_status_line (Marie.init sampleHalt []) ["HALT"]).2.2.1 0 (by decide)
    (fun k hk => absurd hk (Nat.not_lt_zero k))).1
    (by rw [(during_zero _).2.1, (during_zero _).1]; decide)

/-- Counterexample to C14 as stated: the run of `HALT` (stopped by HALT at its
first call), the run of `JUMP 0` (stopped by the cycle cap after 1,000,000
calls) and the run of the word `0xF000` (stopped by an unsupported opcode at
its first call) write the same status line when their loops end, and the run
stopped by the cap leaves on `cerr` what the run stopped by HALT leaves there,
nothing.  (Each run is taken with the keys its counters hold.) -/
theorem run_status_line_counterexample :
    ((Marie.init sampleHalt []).run ["HALT"]).1 = 2 ∧ HI4 (sampleHalt 0) = 0x7 ∧
    ((Marie.init sampleJump []).run ["JUMP"]).1 = 1000001 ∧
    ((Marie.init sampleFault []).run []).1 = 2 ∧ HI4 (sampleFault 0) = 0xF ∧
    (Marie.init sampleJump []).status ["JUMP"] = (Marie.init sampleHalt []).status ["HALT"] ∧
    (Marie.init sampleFault []).status [] = (Marie.init sampleHalt []).status ["HALT"] ∧
    ((Marie.init sampleJump []).run ["JUMP"]).2.cerr = [] ∧
    ((Marie.init sampleHalt []).run ["HALT"]).2.cerr = [] := by
  have hh := (run_stopped_cerr (Marie.init sampleHalt []) ["HALT"] 0 (by decide)
    (fun k hk => absurd hk (Nat.not_lt_zero k))).1
    (by rw [(during_zero _).2.1, (during_zero _).1]; decide)
  have hf := (run_stopped_cerr (Marie.init sampleFault []) [] 0 (by decide)
    (fun k hk => absurd hk (Nat.not_lt_zero k))).2
    (by rw [(during_zero _).2.1, (during_zero _).1]; decide)
  have hj := run_capped_cerr (Marie.init sampleJump []) ["JUMP"]
    (fun n _ => during_jump_zero _ rfl rfl n)
  refine ⟨hh.1, by decide, hj.1, hf.1, by decide, ?_, ?_, hj.2, hh.2⟩
  · rw [(run_cout _ _).2, (run_cout _ _).2]
  · rw [(run_cout _ _).2, (run_cout _ _).2]


/-- C18, as amended. The `switch` of `step` has no `case` for the opcodes
`0xC` (ADDI) and `0xD` (JUMPI) that the assembler emits: in a state with
`PC < 4096` whose word at `MEM[PC]` has one of them, the step returns false,
writes `Unsupported opcode 0xC` (or `0xD`) to `cerr` and no trace row to
`cout`, and leaves AC, memory and the counters as they were, with PC at the
value the fetch phase gave it. -/
theorem step_indirect_unsupported (m : Marie) (cyc : Nat) (_ : m.PC < 4096)
    (hop : HI4 (m.MEM m.PC) = 0xC ∨ HI4 (m.MEM m.PC) = 0xD) :
    (m.step cyc).1 = false ∧
    (m.step cyc).2.AC = m.AC ∧
    (m.step cyc).2.PC = (m.PC + 1) % 4096 ∧
    (∀ a, (m.step cyc).2.MEM a = m.MEM a) ∧
    (∀ k, (m.step cyc).2.icount k = m.icount k) ∧
    (m.step cyc).2.cout = m.cout ∧
    (m.step cyc).2.cerr = m.cerr ++
      [if HI4 (m.MEM m.PC) = 0xC then "Unsupported opcode 0xC\n"
       else "Unsupported opcode 0xD\n"] := by
  obtain ⟨r1, r2, r3, r4, -, r6, r7, r8⟩ := step_unsupported m cyc
    (by rcases hop with h | h <;> simp [h])
  refine ⟨r1, r2, r3, fun a => by rw [r4], fun k => by rw [r6], r7, ?_⟩
  rw [r8]
  rcases hop with h | h <;> rw [h] <;> rfl

/-- Witness for C18: `ADDI 5` at address 0. -/
theorem step_indirect_unsupported_witness :
    ((Marie.init sampleIndirect []).step 1).1 = false ∧
    ((Marie.init sampleIndirect []).step 1).2.AC = (Marie.init sampleIndirect []).AC :=
  have h := step_indirect_unsupported (Marie.init sampleIndirect []) 1 (by decide)
    (Or.inl (by decide))
  ⟨h.1, h.2.1⟩

/-- Counterexample to C18 as stated.  The assembler encodes `ADDI 5` as
`0xC005` and `JUMPI 5` as `0xD005`.  With `0xC005` at address 0, the pointer 6
at address 5, the value 7 at address 6 and `AC = 0`, the step from `PC = 0`
returns false and leaves `AC = 0`, not `0 + MEM[6] = 7`; with `0xD005` at
address 1 the step from `PC = 1` returns false and leaves `PC = 2`, not
`MEM[5] = 6`. -/
theorem step_indirect_unsupported_counterexample :
    encodeWord (fun _ => none) ⟨"", "ADDI", "5", "ADDI 5", 1⟩ = 0xC005 ∧
    encodeWord (fun _ => none) ⟨"", "JUMPI", "5", "JUMPI 5", 2⟩ = 0xD005 ∧
    sampleIndirect (sampleIndirect 5 % 4096) = 7 ∧
    ((Marie.init sampleIndirect []).step 1).1 = false ∧
    ((Marie.init sampleIndirect []).step 1).2.AC = 0 ∧
    ((Marie.init sampleIndirect []).step 1).2.AC ≠ i16 (0 + 7) ∧
    (((Marie.init sampleIndirect []).setPC 1).step 1).1 = false ∧
    (((Marie.init sampleIndirect []).setPC 1).step 1).2.PC = 2 ∧
    (((Marie.init sampleIndirect []).setPC 1).step 1).2.PC ≠ sampleIndirect 5 % 4096 := by
  obtain ⟨a1, a2, -, -, -, -, -, -⟩ := step_unsupported (Marie.init sampleIndirect []) 1
    (Or.inr (Or.inr (Or.inl (by decide))))
  obtain ⟨j1, -, j3, -, -, -, -, -⟩ :=
    step_unsupported ((Marie.init sampleIndirect []).setPC 1) 1
    (Or.inr (Or.inr (Or.inr (Or.inl (by decide)))))
  have a3 : ((Marie.init sampleIndirect []).step 1).2.AC = 0 := a2
  have j4 : (((Marie.init sampleIndirect []).setPC 1).step 1).2.PC = 2 := j3
  refine ⟨by decide, by decide, by decide, a1, a3, ?_, j1, j4, ?_⟩
  · rw [a3]
    decide
  · rw [j4]
    decide

/-- The fetch phase indexes the array inside it when `PC < 4096`. -/
theorem fetchChecked_ok (m : Marie) (hpc : m.PC < 4096) : m.fetchChecked = .ok m.fetch := by
  unfold Marie.fetchChecked Marie.fetch
  simp only [Marie.setMAR_fields]
  rw [if_pos hpc]

/-- The cases of the `switch` index the array inside it when the operand is
below 4096, and then the checked `switch` gives what the `switch` gives. -/
theorem executeChecked_ok (m : Marie) (op adr cyc : Nat) (hadr : adr < 4096) :
    m.executeChecked op adr cyc = .ok (m.execute op adr cyc) := by
  by_cases hc : op ∈ continuing ∨ op = 0x7
  · unfold continuing at hc
    simp only [List.mem_cons, List.mem_singleton, List.not_mem_nil, or_false] at hc
    rcases hc with (h | h | h | h | h | h | h | h | h) | h <;> subst h <;>
      unfold Marie.executeChecked Marie.execute <;>
      simp [hadr]
  · rw [not_or] at hc
    obtain ⟨hc, h7⟩ := hc
    rw [execute_default m op adr cyc hc h7]
    unfold continuing at hc
    simp only [List.mem_cons, List.mem_singleton, List.not_mem_nil, or_false, not_or] at hc
    obtain ⟨h1, h2, h3, h4, h5, h6, h8, h9, hB⟩ := hc
    unfold Marie.executeChecked
    rw [if_neg h1, if_neg h2, if_neg h3, if_neg h4, if_neg h5, if_neg h6, if_neg h7,
      if_neg h9, if_neg h8, if_neg hB]

/-- From `PC < 4096` the step with every subscript of `MEM` checked indexes
the array inside it only, and gives what `step` gives. -/
theorem stepChecked_ok (m : Marie) (cyc : Nat) (hpc : m.PC < 4096) :
    m.stepChecked cyc = .ok (m.step cyc) := by
  have hadr : LO12 m.fetch.IR < 4096 := by
    rw [LO12_eq]
    omega
  have hstep : m.step cyc = m.fetch.execute (HI4 m.fetch.IR) (LO12 m.fetch.IR) cyc := by
    rw [step_decode, (fetch_decode m).1, (fetch_decode m).2]
  unfold Marie.stepChecked
  rw [fetchChecked_ok m hpc, hstep]
  exact executeChecked_ok _ _ _ _ hadr

/-- Outside `PC < 4096` the checked step stops at the subscript of the fetch
phase. -/
theorem stepChecked_error (m : Marie) (cyc : Nat) (hpc : ¬ m.PC < 4096) :
    m.stepChecked cyc = .error m.PC := by
  have hf : m.fetchChecked = .error m.PC := by
    unfold Marie.fetchChecked
    simp only [Marie.setMAR_fields]
    rw [if_neg hpc]
  unfold Marie.stepChecked
  rw [hf]

/-- C19. In a state with `PC < 4096`, whatever the word at `MEM[PC]`: the
fetch phase leaves `PC = (old PC + 1) mod 4096` (0 after 4095), the step
leaves `PC < 4096` and `MAR < 4096`, and every subscript of `MEM` in the step
is below 4096: the step with every subscript checked against `MEM_SIZE` meets
no subscript outside the array and gives what `step` gives.  So all this holds
after any number of steps, from the initial state in particular, also within
`run`. -/
theorem step_address_range (m : Marie) (cyc : Nat) (hpc : m.PC < 4096) :
    m.fetch.PC = (m.PC + 1) % 4096 ∧
    (m.PC = 4095 → m.fetch.PC = 0) ∧
    (m.step cyc).2.PC < 4096 ∧
    (m.step cyc).2.MAR < 4096 ∧
    m.stepChecked cyc = .ok (m.step cyc) ∧
    (∀ n, (m.after n).PC < 4096 ∧
      (m.after n).stepChecked (n + 1) = .ok ((m.after n).step (n + 1))) ∧
    (∀ n, (m.during n).PC < 4096 ∧
      (m.during n).stepChecked (n + 1) = .ok ((m.during n).step (n + 1))) ∧
    (∀ mem input n, ((Marie.init mem input).during n).PC < 4096 ∧
      ((Marie.init mem input).during n).stepChecked (n + 1)
        = .ok (((Marie.init mem input).during n).step (n + 1))) := by
  have hstep : ∀ (s : Marie) (c : Nat), (s.step c).2.PC < 4096 := by
    intro s c
    obtain ⟨h1, -⟩ := step_PC_MAR s c
    rcases h1 with h | h | h <;> rw [h]
    · omega
    · rw [LO12_eq]; omega
    · omega
  have hafter : ∀ (s : Marie), s.PC < 4096 → ∀ n, (s.after n).PC < 4096 := by
    intro s hs n
    cases n with
    | zero => rw [(after_succ s 0).1]; exact hs
    | succ n => rw [(after_succ s n).2]; exact hstep _ _
  have hduring : ∀ (s : Marie), s.PC < 4096 → ∀ n, (s.during n).PC < 4096 := by
    intro s hs n
    cases n with
    | zero => rw [(during_zero s).1]; exact hs
    | succ n => rw [(during_succ s n).2]; exact hstep _ _
  refine ⟨(fetch_fields m).1, ?_, hstep m cyc, ?_, stepChecked_ok m cyc hpc, ?_, ?_, ?_⟩
  · intro h
    rw [(fetch_fields m).1, h]
  · obtain ⟨-, h2⟩ := step_PC_MAR m cyc
    rcases h2 with h | h <;> rw [h]
    · exact hpc
    · rw [LO12_eq]; omega
  · exact fun n => ⟨hafter m hpc n, stepChecked_ok _ _ (hafter m hpc n)⟩
  · exact fun n => ⟨hduring m hpc n, stepChecked_ok _ _ (hduring m hpc n)⟩
  · exact fun mem input n =>
      ⟨hduring _ (show (0 : Nat) < 4096 by decide) n,
        stepChecked_ok _ _ (hduring _ (show (0 : Nat) < 4096 by decide) n)⟩

/-- Witness for C19: `LOAD 4` at address 0 of the initial machine, whose
checked step reads `MEM[0]` and `MEM[4]`; and the state with `PC = 4095`, from
which the fetch phase wraps PC to 0. -/
theorem step_address_range_witness :
    (Marie.init sampleSum []).stepChecked 1 = .ok ((Marie.init sampleSum []).step 1) ∧
    ((Marie.init sampleSum []).step 1).2.MAR < 4096 ∧
    ((Marie.init sampleSum []).setPC 4095).fetch.PC = 0 ∧
    (((Marie.init sampleSum []).setPC 4095).step 1).2.PC < 4096 :=
  have h := step_address_range (Marie.init sampleSum []) 1 (by decide)
  have g := step_address_range ((Marie.init sampleSum []).setPC 4095) 1 (by decide)
  ⟨h.2.2.2.2.1, h.2.2.2.1, g.2.1 rfl, g.2.2.1⟩


/-- Uppercasing does not change where the leading white space ends. -/
theorem dropWhile_isspace_upper (l : List Char) :
    (l.map Char.toUpper).dropWhile isspace = (l.dropWhile isspace).map Char.toUpper := by
  induction l with
  | nil => rfl
  | cons c t ih =>
    simp only [List.map_cons, List.dropWhile_cons, isspace_toUpper]
    split_ifs
    · exact ih
    · rfl

/-- A text that does not start with a decimal digit holds no number for
`strtoul` and `strtoll` with base 0. -/
theorem scanBody_not_numeric (s2 : List Char)
    (h : (match s2 with
      | c :: _ => decide (48 ≤ c.toNat ∧ c.toNat ≤ 57)
      | [] => false) = false) :
    scanBody (s2.map Char.toUpper) 0 = (false, 0) := by
  unfold scanBody
  rw [hasHexPrefix_upper, hasZero_upper]
  match s2, h with
  | [], _ => rfl
  | c :: t, h =>
    simp only [decide_eq_false_iff_not] at h
    have h48 : ¬ c.toNat = 48 := by omega
    have hx : hasHexPrefix (c :: t) = false := by
      cases t with
      | nil => rfl
      | cons c1 t1 => simp [hasHexPrefix, h48]
    have hz : hasZero (c :: t) = false := by simp [hasZero, h48]
    have hd : ¬ digitValue c.toUpper < 10 := by
      rw [digitValue_toUpper]
      unfold digitValue
      split_ifs <;> omega
    simp [hx, hz, scanDigits, hd]

/-- An operand that does not start like a number: `strtoul` and `strtoll`
perform no conversion on its uppercased text. -/
theorem strtoScan_not_numeric (s : String) (h : startsNumeric s = false) :
    (strtoScan (upper s).data 0).converted = false := by
  unfold startsNumeric at h
  unfold strtoScan
  have hd : (upper s).data = s.data.map Char.toUpper := rfl
  simp only [hd, dropWhile_isspace_upper, hasSign_upper]
  have hmap : (if hasSign (s.data.dropWhile isspace) = true
      then ((s.data.dropWhile isspace).map Char.toUpper).drop 1
      else (s.data.dropWhile isspace).map Char.toUpper)
      = (if hasSign (s.data.dropWhile isspace) = true
          then (s.data.dropWhile isspace).drop 1
          else s.data.dropWhile isspace).map Char.toUpper := by
    split_ifs
    · rw [List.map_drop]
    · rfl
  rw [hmap, scanBody_not_numeric _ h]

/-- The function `stoul` and `stoll` throw on an operand that does not start
like a number. -/
theorem sto_not_numeric (s : String) (h : startsNumeric s = false) :
    stoul (upper s) 0 = none ∧ stoll (upper s) 0 = none := by
  have hc := strtoScan_not_numeric s h
  unfold stoul stoll
  simp only [hc, if_true, and_self]

/-- The function `stoll` on an uppercased numeric literal: the value when it
is in the range of `long long`, an exception otherwise. -/
theorem stoll_literal (s : String) (v : Int) (h : literalValue s = some v) :
    (-9223372036854775808 ≤ v → v ≤ 9223372036854775807 → stoll (upper s) 0 = some v) ∧
    (v < -9223372036854775808 ∨ 9223372036854775807 < v → stoll (upper s) 0 = none) := by
  obtain ⟨hscan, hneg, hpos⟩ := strtoScan_literal s v h
  unfold stoll
  simp only [hscan]
  unfold LLONG_MAX
  rw [if_neg (by simp)]
  by_cases hm : hasMinus s.data = true
  · rw [if_pos hm]
    have := hneg hm
    constructor
    · intro h1 h2
      rw [if_neg (by omega)]
      congr 1
      omega
    · intro h1
      rw [if_pos (by omega)]
  · rw [if_neg hm]
    have := hpos (by simpa using hm)
    constructor
    · intro h1 h2
      rw [if_neg (by omega)]
      congr 1
      omega
    · intro h1
      rw [if_pos (by omega)]


/-- The word of a DEC line: the `long long` that `stoll` gives, converted to
`uint16_t`, or 0 when `stoll` throws. -/
theorem encodeWord_dec (sym : SymTab) (a : AsmLine) (hop : upper a.op = "DEC") :
    (∀ val, stoll (upper a.arg) 0 = some val → encodeWord sym a = u16 val) ∧
    (stoll (upper a.arg) 0 = none → encodeWord sym a = 0) := by
  constructor
  · intro val h
    unfold encodeWord
    simp [hop, h]
  · intro h
    unfold encodeWord
    simp [hop, h]
    rfl

/-- The loop of `pass2` goes on after any line. -/
theorem pass2Loop_middle (sym : SymTab) (before after : List AsmLine) (a : AsmLine)
    (out : List String) :
    pass2Loop sym (before ++ a :: after) out
      = pass2Loop sym after (pass2Loop sym before out ++ [HEX4 (encodeWord sym a)]) := by
  simp [pass2Loop_eq]

/-- C16, as amended. For a line with mnemonic DEC whose operand is an integer
literal of value `n` in the range of `long long`, the word is `n mod 2^16`,
with no opcode bits; a literal outside that range, and an operand that does not
start (after an optional sign) with a decimal digit, give the word `0x0000`;
in every case the loop goes on with the lines that follow. -/
theorem pass2_dec_word (sym : SymTab) (a : AsmLine) (hop : upper a.op = "DEC") :
    (∀ v, literalValue a.arg = some v →
      (-9223372036854775808 ≤ v → v ≤ 9223372036854775807 →
        encodeWord sym a = (v % 65536).toNat) ∧
      (v < -9223372036854775808 ∨ 9223372036854775807 < v → encodeWord sym a = 0x0000)) ∧
    (startsNumeric a.arg = false → encodeWord sym a = 0x0000) ∧
    encodeWord sym a < 65536 ∧
    (∀ before after out, pass2Loop sym (before ++ a :: after) out
      = pass2Loop sym after (pass2Loop sym before out ++ [HEX4 (encodeWord sym a)])) := by
  obtain ⟨hsome, hnone⟩ := encodeWord_dec sym a hop
  refine ⟨?_, ?_, ?_, fun before after out => pass2Loop_middle sym before after a out⟩
  · intro v hv
    obtain ⟨hin, hout⟩ := stoll_literal a.arg v hv
    constructor
    · intro h1 h2
      rw [hsome v (hin h1 h2)]
      rfl
    · intro h1
      exact hnone (hout h1)
  · intro h
    exact hnone (sto_not_numeric a.arg h).2
  · match hs : stoll (upper a.arg) 0 with
    | some val =>
      rw [hsome val hs]
      unfold u16
      omega
    | none =>
      rw [hnone hs]
      decide

/-- Witness for C16: `DEC -1` emits `0xFFFF` and `dec 5` emits `0x0005`. -/
theorem pass2_dec_word_witness :
    encodeWord (fun _ => none) ⟨"", "DEC", "-1", "DEC -1", 1⟩ = 0xFFFF ∧
    encodeWord (fun _ => none) ⟨"", "dec", "5", "dec 5", 2⟩ = 0x0005 :=
  ⟨(((pass2_dec_word (fun _ => none) ⟨"", "DEC", "-1", "DEC -1", 1⟩ (by decide)).1 (-1)
      (by decide)).1 (by decide) (by decide)).trans (by decide),
   (((pass2_dec_word (fun _ => none) ⟨"", "dec", "5", "dec 5", 2⟩ (by decide)).1 5
      (by decide)).1 (by decide) (by decide)).trans (by decide)⟩

/-- Counterexample to C16 as stated: `DEC 9223372036854775809` has an integer
literal of value `2^63 + 1` as operand and emits `0x0000`, not
`(2^63 + 1) mod 2^16 = 1`; `DEC 5x` has an operand that is no numeric literal
and emits `0x0005`, not `0x0000`. -/
theorem pass2_dec_word_counterexample :
    literalValue "9223372036854775809" = some 9223372036854775809 ∧
    ((9223372036854775809 : Int) % 65536).toNat = 1 ∧
    encodeWord (fun _ => none) ⟨"", "DEC", "9223372036854775809", "", 1⟩ = 0x0000 ∧
    literalValue "5x" = none ∧
    encodeWord (fun _ => none) ⟨"", "DEC", "5x", "", 1⟩ = 0x0005 := by
  refine ⟨by decide, by decide, by decide, by decide, by decide⟩

/-- C17, as amended. For a line with an address-taking mnemonic whose
operand, uppercased, is no key of the symbol table and does not start (after
an optional sign) with a decimal digit, `resolve` gives 0: the word is exactly
`opcode * 4096`, and the loop goes on with the lines that follow. -/
theorem pass2_unresolved_word (sym : SymTab) (a : AsmLine) (opc : Nat)
    (hop : (upper a.op, opc) ∈ addressOpcodes)
    (hsym : sym (upper a.arg) = none) (hnum : startsNumeric a.arg = false) :
    resolve sym (upper a.arg) = 0 ∧
    encodeWord sym a = opc * 4096 ∧
    HI4 (encodeWord sym a) = opc ∧
    LO12 (encodeWord sym a) = 0 ∧
    (∀ before after out, pass2Loop sym (before ++ a :: after) out
      = pass2Loop sym after (pass2Loop sym before out ++ [HEX4 (opc * 4096)])) := by
  have hres : resolve sym (upper a.arg) = 0 := by
    unfold resolve
    split_ifs
    · rfl
    · rw [hsym, (sto_not_numeric a.arg hnum).1]
  have hA : ∀ n, n < 16 → A sym n (upper a.arg) = n * 4096 := by
    intro n hn
    unfold A
    rw [hres, addr12_eq, op4_or n _ hn (by norm_num)]
    omega
  have hword : opc < 16 ∧ encodeWord sym a = opc * 4096 := by
    simp only [addressOpcodes, List.mem_cons, Prod.mk.injEq, List.mem_singleton,
      List.mem_nil_iff, or_false] at hop
    rcases hop with ⟨h, rfl⟩ | ⟨h, rfl⟩ | ⟨h, rfl⟩ | ⟨h, rfl⟩ | ⟨h, rfl⟩ | ⟨h, rfl⟩ | ⟨h, rfl⟩ <;>
      refine ⟨by norm_num, ?_⟩ <;>
      rw [← hA _ (by norm_num)] <;>
      unfold encodeWord <;>
      simp [h]
  obtain ⟨hk, hw⟩ := hword
  refine ⟨hres, hw, ?_, ?_, ?_⟩
  · rw [hw, HI4_eq]
    omega
  · rw [hw, LO12_eq]
    omega
  · intro before after out
    rw [pass2Loop_middle, hw]

/-- Witness for C17: `STORE total` where no label `TOTAL` is known. -/
theorem pass2_unresolved_word_witness :
    encodeWord (fun _ => none) ⟨"", "STORE", "total", "STORE total", 1⟩ = 0x2 * 4096 :=
  (pass2_unresolved_word (fun _ => none) ⟨"", "STORE", "total", "STORE total", 1⟩ 0x2
    (by decide) rfl (by decide)).2.1

/-- Counterexample to C17 as stated: the operand `12abc` of `LOAD 12abc` is no
label of the (empty) symbol table and no numeric literal, and the word is
`0x100C`, not `0x1000`: `stoul` converts the digits the operand starts
with. -/
theorem pass2_unresolved_word_counterexample :
    literalValue "12abc" = none ∧
    (fun _ => none : SymTab) (upper "12abc") = none ∧
    encodeWord (fun _ => none) ⟨"", "LOAD", "12abc", "LOAD 12abc", 1⟩ = 0x100C ∧
    encodeWord (fun _ => none) ⟨"", "LOAD", "12abc", "LOAD 12abc", 1⟩ ≠ 0x1 * 4096 := by
  refine ⟨by decide, rfl, by decide, by decide⟩


/-- C20 fails on the code: after `@FFF` the first data word goes to index
4095 and `addr++` leaves `addr = 4096`; nothing wraps or checks it, and the
second data word is stored at `MEM[4096]`, outside the 4096-word array. -/
theorem loader_writes_past_memory :
    (∃ m1, (Marie.init (fun _ => 0) []).loadProgram ["@FFF", "0001"] = .ok m1 ∧
      m1.MEM 4095 = 1) ∧
    (Marie.init (fun _ => 0) []).loadProgram ["@FFF", "0001", "0002"]
      = .error (.outOfBounds 4096) :=
  ⟨⟨_, rfl, rfl⟩, rfl⟩

end MARIE
